import Mathlib

/-!
Verification of the chat-relay backend (src/backend/main.py).

The development shallowly embeds the incremental JSON stream extractor and
response interpreter of stream_gemini_api, the conversation assembler, and
the chat endpoint orchestration, and proves the frozen claims about them.

Modelling conventions:
- Python str values are List Char (code points); bytes are List Nat.
- JSON numbers are modelled exactly as decimal mantissa and exponent
  (Json.num m e denotes m times 10 to the e).  The Python decoder builds
  int or IEEE float values; no claim touches numeric payloads, and the
  embedding keeps the decimal reading exact instead of rounding.
- The Python decoder additionally accepts NaN, Infinity and -Infinity
  (float-only constants); these are outside the embedding.
- Python dict results of json parsing are kept as ordered pair lists;
  key lookup takes the last binding, matching dict construction from a
  duplicate-keyed member list.
-/

/-- JSON whitespace skipped by the Python json decoder between tokens. -/
def isJsonWs (c : Char) : Bool :=
  c = ' ' || c = '\t' || c = '\n' || c = '\r'

/-- Whitespace stripped by Python str.lstrip (ASCII part; the exotic Unicode
space code points never occur at top level of the modelled streams). -/
def isPyWs (c : Char) : Bool :=
  c = ' ' || c = '\t' || c = '\n' || c = '\r' || c = '\x0b' || c = '\x0c'

/-- The array wrapper punctuation consumed one character at a time by the
extractor loop in stream_gemini_api. -/
def isWrapPunct (c : Char) : Bool :=
  c = '[' || c = ',' || c = ']'

def skipWs (cs : List Char) : List Char := cs.dropWhile isJsonWs

/-- Parsed JSON values, as produced by json.JSONDecoder. -/
inductive Json where
  | null : Json
  | bool (b : Bool) : Json
  | num (m e : Int) : Json
  | str (s : String) : Json
  | arr (elems : List Json) : Json
  | obj (fields : List (String × Json)) : Json

mutual
/-- Structural equality test on parsed values (Python == on parse results,
restricted to the shapes the claims exercise). -/
def Json.beq : Json → Json → Bool
  | .null, .null => true
  | .bool a, .bool b => a = b
  | .num m1 e1, .num m2 e2 => m1 = m2 && e1 = e2
  | .str a, .str b => a = b
  | .arr xs, .arr ys => Json.beqList xs ys
  | .obj fs, .obj gs => Json.beqFields fs gs
  | _, _ => false

def Json.beqList : List Json → List Json → Bool
  | [], [] => true
  | x :: xs, y :: ys => Json.beq x y && Json.beqList xs ys
  | _, _ => false

def Json.beqFields : List (String × Json) → List (String × Json) → Bool
  | [], [] => true
  | (k1, v1) :: xs, (k2, v2) :: ys => k1 = k2 && Json.beq v1 v2 && Json.beqFields xs ys
  | _, _ => false
end

instance : BEq Json := ⟨Json.beq⟩

/-- Python dict lookup on a parsed member list: the last binding wins. -/
def pyGet (fields : List (String × Json)) (k : String) : Option Json :=
  List.lookup k fields.reverse

def hasKey (fields : List (String × Json)) (k : String) : Bool :=
  (pyGet fields k).isSome

/-- Python truthiness of a parsed JSON value. -/
def truthy : Json → Bool
  | .null => false
  | .bool b => b
  | .num m _ => m ≠ 0
  | .str s => s ≠ ""
  | .arr xs => ¬ xs.isEmpty
  | .obj fs => ¬ fs.isEmpty

/-! ## Decimal digits -/

def digitChar (n : Nat) : Char := Char.ofNat ('0'.toNat + n)

/-- Fueled digit expansion; fuel larger than the number always suffices. -/
def natCharsF : Nat → Nat → List Char
  | 0, _ => []
  | f + 1, n =>
    if n < 10 then [digitChar n]
    else natCharsF f (n / 10) ++ [digitChar (n % 10)]

/-- Decimal digit list of a natural number, most significant first. -/
def natChars (n : Nat) : List Char := natCharsF (n + 1) n

theorem natCharsF_congr : ∀ f g n, n < f → n < g → natCharsF f n = natCharsF g n := by
  intro f
  induction f using Nat.strong_induction_on with
  | _ f ih =>
    intro g n hf hg
    match f, g with
    | fp + 1, gp + 1 =>
      simp only [natCharsF]
      by_cases h : n < 10
      · simp [h]
      · rw [if_neg h, if_neg h]
        have hdiv : n / 10 < n := Nat.div_lt_self (by omega) (by omega)
        rw [ih fp (by omega) gp (n / 10) (by omega) (by omega)]

theorem natChars_eq (n : Nat) :
    natChars n = if n < 10 then [digitChar n] else natChars (n / 10) ++ [digitChar (n % 10)] := by
  by_cases h : n < 10
  · simp [natChars, natCharsF, h]
  · rw [if_neg h]
    have hdiv : n / 10 < n := Nat.div_lt_self (by omega) (by omega)
    have hstep : natCharsF (n + 1) n = natCharsF n (n / 10) ++ [digitChar (n % 10)] := by
      simp only [natCharsF]
      rw [if_neg h]
    show natCharsF (n + 1) n = _
    rw [hstep]
    congr 1
    exact natCharsF_congr n (n / 10 + 1) (n / 10) (by omega) (by omega)

def intChars (m : Int) : List Char :=
  if m < 0 then '-' :: natChars m.natAbs else natChars m.toNat

def digitVal (c : Char) : Nat := c.toNat - '0'.toNat

def natDigits (ds : List Char) : Nat :=
  ds.foldl (fun a c => 10 * a + digitVal c) 0

/-! ## String scanning (py_scanstring, strict mode, as in the C scanner) -/

def hexVal (c : Char) : Option Nat :=
  if '0'.toNat ≤ c.toNat ∧ c.toNat ≤ '9'.toNat then some (c.toNat - '0'.toNat)
  else if 'a'.toNat ≤ c.toNat ∧ c.toNat ≤ 'f'.toNat then some (c.toNat - 'a'.toNat + 10)
  else if 'A'.toNat ≤ c.toNat ∧ c.toNat ≤ 'F'.toNat then some (c.toNat - 'A'.toNat + 10)
  else none

/-- Simple escape table: the character standing for a backslash escape. -/
def escMap (c : Char) : Option Char :=
  if c = '"' then some '"'
  else if c = '\\' then some '\\'
  else if c = '/' then some '/'
  else if c = 'b' then some '\x08'
  else if c = 'f' then some '\x0c'
  else if c = 'n' then some '\n'
  else if c = 'r' then some '\r'
  else if c = 't' then some '\t'
  else none

/-- Hex value of an exactly-four-digit escape payload. -/
def hexVal4 : List Char → Option Nat
  | [h1, h2, h3, h4] =>
    match hexVal h1, hexVal h2, hexVal h3, hexVal h4 with
    | some a, some b, some c, some d => some (((a * 16 + b) * 16 + c) * 16 + d)
    | _, _, _, _ => none
  | _ => none

theorem hexVal4_len {l : List Char} {n : Nat} (h : hexVal4 l = some n) : l.length = 4 := by
  unfold hexVal4 at h
  split at h
  · simp
  · exact absurd h (by simp)

/-- Read a low-surrogate unicode escape for surrogate-pair combination. -/
def lowSurrogate : List Char → Option (Nat × List Char)
  | e :: u :: rest1 =>
    if e = '\\' ∧ u = 'u' then
      match hexVal4 (rest1.take 4) with
      | some n2 => if 0xDC00 ≤ n2 ∧ n2 ≤ 0xDFFF then some (n2, rest1.drop 4) else none
      | none => none
    else none
  | _ => none

theorem lowSurrogate_some {cs : List Char} {n : Nat} {r : List Char}
    (h : lowSurrogate cs = some (n, r)) : r.length + 6 = cs.length ∧ r <:+ cs := by
  unfold lowSurrogate at h
  split at h
  · rename_i e u rest1
    split at h
    · split at h
      · rename_i m hm
        split at h
        · simp only [Option.some.injEq, Prod.mk.injEq] at h
          have h4 : (rest1.take 4).length = 4 := hexVal4_len hm
          have hge : 4 ≤ rest1.length := by simpa using h4
          constructor
          · rw [← h.2]
            simp
            omega
          · rw [← h.2]
            exact (List.drop_suffix 4 rest1).trans
              ((List.suffix_cons u rest1).trans (List.suffix_cons e (u :: rest1)))
        · exact absurd h (by simp)
      · exact absurd h (by simp)
    · exact absurd h (by simp)
  · exact absurd h (by simp)

theorem lowSurrogate_len {cs : List Char} {n : Nat} {r : List Char}
    (h : lowSurrogate cs = some (n, r)) : r.length + 6 = cs.length :=
  (lowSurrogate_some h).1

/-- Scan the body of a JSON string after the opening quote, accumulating
decoded characters (fueled; fuel beyond the input length always
suffices).  Mirrors py_scanstring with strict control-character checking.
Lone surrogates, which Python keeps in its str values, are mapped to the
replacement character because Lean strings hold scalar values only; no
claim exercises them. -/
def parseStringRestF : Nat → List Char → List Char → Option (String × List Char)
  | 0, _, _ => none
  | f + 1, acc, cs =>
    match cs with
    | [] => none
    | c :: rest =>
      if c = '"' then some (String.mk acc, rest)
      else if c = '\\' then
        match rest with
        | [] => none
        | e :: rest1 =>
          if e = 'u' then
            match hexVal4 (rest1.take 4) with
            | some n =>
              if 0xD800 ≤ n ∧ n ≤ 0xDBFF then
                match lowSurrogate (rest1.drop 4) with
                | some (n2, rest2) =>
                  parseStringRestF f
                    (acc ++ [Char.ofNat (0x10000 + (n - 0xD800) * 0x400 + (n2 - 0xDC00))]) rest2
                | none => parseStringRestF f (acc ++ ['�']) (rest1.drop 4)
              else if 0xDC00 ≤ n ∧ n ≤ 0xDFFF then
                parseStringRestF f (acc ++ ['�']) (rest1.drop 4)
              else parseStringRestF f (acc ++ [Char.ofNat n]) (rest1.drop 4)
            | none => none
          else
            match escMap e with
            | some d => parseStringRestF f (acc ++ [d]) rest1
            | none => none
      else if c.toNat < 0x20 then none
      else parseStringRestF f (acc ++ [c]) rest

def parseStringRest (acc : List Char) (cs : List Char) : Option (String × List Char) :=
  parseStringRestF (cs.length + 1) acc cs

theorem parseStringRestF_succ (f : Nat) (acc : List Char) (c : Char) (rest : List Char) :
    parseStringRestF (f + 1) acc (c :: rest) =
      (if c = '"' then some (String.mk acc, rest)
      else if c = '\\' then
        match rest with
        | [] => none
        | e :: rest1 =>
          if e = 'u' then
            match hexVal4 (rest1.take 4) with
            | some n =>
              if 0xD800 ≤ n ∧ n ≤ 0xDBFF then
                match lowSurrogate (rest1.drop 4) with
                | some (n2, rest2) =>
                  parseStringRestF f
                    (acc ++ [Char.ofNat (0x10000 + (n - 0xD800) * 0x400 + (n2 - 0xDC00))]) rest2
                | none => parseStringRestF f (acc ++ ['�']) (rest1.drop 4)
              else if 0xDC00 ≤ n ∧ n ≤ 0xDFFF then
                parseStringRestF f (acc ++ ['�']) (rest1.drop 4)
              else parseStringRestF f (acc ++ [Char.ofNat n]) (rest1.drop 4)
            | none => none
          else
            match escMap e with
            | some d => parseStringRestF f (acc ++ [d]) rest1
            | none => none
      else if c.toNat < 0x20 then none
      else parseStringRestF f (acc ++ [c]) rest) := rfl

theorem parseStringRestF_congr : ∀ f g acc cs, cs.length < f → cs.length < g →
    parseStringRestF f acc cs = parseStringRestF g acc cs := by
  intro f
  induction f using Nat.strong_induction_on with
  | _ f ih =>
    intro g acc cs hf hg
    match f, g with
    | fp + 1, gp + 1 =>
      cases cs with
      | nil => rfl
      | cons c rest =>
        rw [parseStringRestF_succ, parseStringRestF_succ]
        simp only [List.length_cons] at hf hg
        split
        · rfl
        · split
          · split
            · rfl
            · rename_i e rest1
              simp only [List.length_cons] at hf hg
              split
              · split
                · rename_i n hhex
                  split
                  · split
                    · rename_i n2 rest2 hLow
                      have hl2 := (lowSurrogate_some hLow).1
                      have hd4 : (rest1.drop 4).length = rest1.length - 4 := by simp
                      exact ih fp (by omega) gp _ rest2 (by omega) (by omega)
                    · have hd4 : (rest1.drop 4).length = rest1.length - 4 := by simp
                      exact ih fp (by omega) gp _ _ (by omega) (by omega)
                  · split
                    · have hd4 : (rest1.drop 4).length = rest1.length - 4 := by simp
                      exact ih fp (by omega) gp _ _ (by omega) (by omega)
                    · have hd4 : (rest1.drop 4).length = rest1.length - 4 := by simp
                      exact ih fp (by omega) gp _ _ (by omega) (by omega)
                · rfl
              · split
                · exact ih fp (by omega) gp _ rest1 (by omega) (by omega)
                · rfl
          · split
            · rfl
            · exact ih fp (by omega) gp _ rest (by omega) (by omega)

/-- One-step unfolding of parseStringRest at its own sufficient fuel. -/
theorem parseStringRest_eq (acc : List Char) (cs : List Char) :
    parseStringRest acc cs =
      match cs with
      | [] => none
      | c :: rest =>
        if c = '"' then some (String.mk acc, rest)
        else if c = '\\' then
          match rest with
          | [] => none
          | e :: rest1 =>
            if e = 'u' then
              match hexVal4 (rest1.take 4) with
              | some n =>
                if 0xD800 ≤ n ∧ n ≤ 0xDBFF then
                  match lowSurrogate (rest1.drop 4) with
                  | some (n2, rest2) =>
                    parseStringRest
                      (acc ++ [Char.ofNat (0x10000 + (n - 0xD800) * 0x400 + (n2 - 0xDC00))]) rest2
                  | none => parseStringRest (acc ++ ['�']) (rest1.drop 4)
                else if 0xDC00 ≤ n ∧ n ≤ 0xDFFF then
                  parseStringRest (acc ++ ['�']) (rest1.drop 4)
                else parseStringRest (acc ++ [Char.ofNat n]) (rest1.drop 4)
              | none => none
            else
              match escMap e with
              | some d => parseStringRest (acc ++ [d]) rest1
              | none => none
        else if c.toNat < 0x20 then none
        else parseStringRest (acc ++ [c]) rest := by
  unfold parseStringRest
  cases cs with
  | nil => rfl
  | cons c rest =>
    rw [show (c :: rest).length + 1 = rest.length + 1 + 1 from by simp]
    rw [parseStringRestF_succ]
    dsimp only
    split
    · rfl
    · split
      · split
        · rfl
        · rename_i e rest1
          split
          · split
            · rename_i n hhex
              split
              · split
                · rename_i n2 rest2 hLow
                  have hl2 := (lowSurrogate_some hLow).1
                  have hd4 : (rest1.drop 4).length = rest1.length - 4 := by simp
                  exact parseStringRestF_congr _ _ _ rest2 (by simp at hl2 ⊢; omega) (by omega)
                · have hd4 : (rest1.drop 4).length = rest1.length - 4 := by simp
                  exact parseStringRestF_congr _ _ _ _ (by simp; omega) (by omega)
              · split
                · have hd4 : (rest1.drop 4).length = rest1.length - 4 := by simp
                  exact parseStringRestF_congr _ _ _ _ (by simp; omega) (by omega)
                · have hd4 : (rest1.drop 4).length = rest1.length - 4 := by simp
                  exact parseStringRestF_congr _ _ _ _ (by simp; omega) (by omega)
            · rfl
          · split
            · exact parseStringRestF_congr _ _ _ rest1
                (by simp only [List.length_cons]; omega) (by omega)
            · rfl
      · split
        · rfl
        · rfl

/-! ## Number scanning (NUMBER_RE) -/

/-- Integer part of a JSON number: a single 0, or a nonzero digit followed
by digits.  Returns the matched digits and the rest. -/
def parseIntPart : List Char → Option (List Char × List Char)
  | [] => none
  | c :: rest =>
    if c = '0' then some (['0'], rest)
    else if c.isDigit then
      some (c :: rest.takeWhile Char.isDigit, rest.dropWhile Char.isDigit)
    else none

/-- Fraction part: a dot followed by at least one digit, or nothing. -/
def parseFrac : List Char → (List Char × List Char)
  | '.' :: rest =>
    match rest.takeWhile Char.isDigit with
    | [] => ([], '.' :: rest)
    | ds => (ds, rest.dropWhile Char.isDigit)
  | cs => ([], cs)

/-- Exponent part: e or E, an optional sign, at least one digit. -/
def parseExp : List Char → (Int × List Char)
  | c :: rest =>
    if c = 'e' ∨ c = 'E' then
      match rest with
      | '+' :: r2 =>
        match r2.takeWhile Char.isDigit with
        | [] => (0, c :: rest)
        | ds => ((natDigits ds : Int), r2.dropWhile Char.isDigit)
      | '-' :: r2 =>
        match r2.takeWhile Char.isDigit with
        | [] => (0, c :: rest)
        | ds => (-(natDigits ds : Int), r2.dropWhile Char.isDigit)
      | r2 =>
        match r2.takeWhile Char.isDigit with
        | [] => (0, c :: rest)
        | ds => ((natDigits ds : Int), r2.dropWhile Char.isDigit)
    else (0, c :: rest)
  | [] => (0, [])

/-- Number scan after the optional minus sign. -/
def parseNumAfterSign (neg : Bool) (cs1 : List Char) : Option (Json × List Char) :=
  match parseIntPart cs1 with
  | none => none
  | some (ip, r1) =>
    match parseFrac r1 with
    | (fr, r2) =>
      match parseExp r2 with
      | (ex, r3) =>
        some (.num (if neg then -(natDigits (ip ++ fr) : Int) else (natDigits (ip ++ fr) : Int))
          (ex - (fr.length : Int)), r3)

/-- Scan one JSON number matching NUMBER_RE at position 0. -/
def parseNumber (cs : List Char) : Option (Json × List Char) :=
  if cs.head? = some '-' then parseNumAfterSign true cs.tail
  else parseNumAfterSign false cs

/-- Literal keyword match: if kw is a prefix of cs, return the rest. -/
def kwPrefix (kw : List Char) (cs : List Char) : Option (List Char) :=
  match kw, cs with
  | [], r => some r
  | k :: ks, c :: rs => if c = k then kwPrefix ks rs else none
  | _ :: _, [] => none

/-! ## The recursive value scanner (scan_once), fueled.

Fuel only pays for descending into containers and looping over members;
three units of fuel per input character is always sufficient, and
rawDecode supplies that much. -/

mutual
def parseValue : Nat → List Char → Option (Json × List Char)
  | 0, _ => none
  | fuel + 1, cs =>
    match cs with
    | [] => none
    | c :: rest =>
      if c = '"' then
        match parseStringRest [] rest with
        | some (s, r) => some (.str s, r)
        | none => none
      else if c = '\x7b' then parseObjBody fuel rest
      else if c = '[' then parseArrBody fuel rest
      else if c = 'n' then (kwPrefix ['u', 'l', 'l'] rest).map (fun r => (.null, r))
      else if c = 't' then (kwPrefix ['r', 'u', 'e'] rest).map (fun r => (.bool true, r))
      else if c = 'f' then (kwPrefix ['a', 'l', 's', 'e'] rest).map (fun r => (.bool false, r))
      else if c = '-' ∨ c.isDigit then parseNumber cs
      else none

def parseObjBody : Nat → List Char → Option (Json × List Char)
  | 0, _ => none
  | fuel + 1, cs =>
    match skipWs cs with
    | '\x7d' :: r => some (.obj [], r)
    | '"' :: r => parseMembers fuel r []
    | _ => none

def parseMembers : Nat → List Char → List (String × Json) → Option (Json × List Char)
  | 0, _, _ => none
  | fuel + 1, cs, acc =>
    match parseStringRest [] cs with
    | none => none
    | some (k, r1) =>
      match skipWs r1 with
      | ':' :: r2 =>
        match parseValue fuel (skipWs r2) with
        | none => none
        | some (v, r3) =>
          match skipWs r3 with
          | '\x7d' :: r4 => some (.obj (acc ++ [(k, v)]), r4)
          | ',' :: r4 =>
            match skipWs r4 with
            | '"' :: r5 => parseMembers fuel r5 (acc ++ [(k, v)])
            | _ => none
          | _ => none
      | _ => none

def parseArrBody : Nat → List Char → Option (Json × List Char)
  | 0, _ => none
  | fuel + 1, cs =>
    match skipWs cs with
    | ']' :: r => some (.arr [], r)
    | cs1 => parseItems fuel cs1 []

def parseItems : Nat → List Char → List Json → Option (Json × List Char)
  | 0, _, _ => none
  | fuel + 1, cs, acc =>
    match parseValue fuel cs with
    | none => none
    | some (v, r1) =>
      match skipWs r1 with
      | ']' :: r2 => some (.arr (acc ++ [v]), r2)
      | ',' :: r2 => parseItems fuel (skipWs r2) (acc ++ [v])
      | _ => none
end

/-- JSONDecoder raw_decode at position 0 of the buffer: one complete JSON
value and the unconsumed suffix, or none for partial or malformed input. -/
def rawDecode (cs : List Char) : Option (Json × List Char) :=
  parseValue (3 * cs.length + 3) cs

/-! ## Python value display (str and repr on parse results)

Only the string case is exercised by any claim; container and float
rendering is approximated (floats by their exact decimal reading). -/

def pyScalarStr : Json → String
  | .null => "None"
  | .bool true => "True"
  | .bool false => "False"
  | .num m e =>
    if e = 0 then String.mk (intChars m)
    else String.mk (intChars m) ++ "e" ++ String.mk (intChars e)
  | .str s => s
  | _ => ""

mutual
def pyRepr : Json → String
  | .str s => "\x27" ++ s ++ "\x27"
  | .arr xs => "[" ++ pyReprItems xs ++ "]"
  | .obj fs => "\x7b" ++ pyReprFields fs ++ "\x7d"
  | v => pyScalarStr v

def pyReprItems : List Json → String
  | [] => ""
  | [x] => pyRepr x
  | x :: xs => pyRepr x ++ ", " ++ pyReprItems xs

def pyReprFields : List (String × Json) → String
  | [] => ""
  | [(k, v)] => "\x27" ++ k ++ "\x27: " ++ pyRepr v
  | (k, v) :: fs => "\x27" ++ k ++ "\x27: " ++ pyRepr v ++ ", " ++ pyReprFields fs
end

def pyStr (v : Json) : String :=
  match v with
  | .arr _ => pyRepr v
  | .obj _ => pyRepr v
  | _ => pyScalarStr v

/-! ## The response event interpreter (lines 201 to 211 of main.py) -/

/-- Semantic event produced for one parsed top-level value. -/
inductive StreamEvent where
  | textDelta (s : String)
  | upstreamError (msg : String)
  | logicError
  | noOp
deriving DecidableEq

/-- Python in operator on a parsed container; none stands for TypeError. -/
def pyContains (needle : String) : Json → Option Bool
  | .obj fs => some (hasKey fs needle)
  | .str s => some ((s.splitOn needle).length ≠ 1)
  | .arr xs => some (xs.any (fun x => Json.beq x (.str needle)))
  | _ => none

/-- Event for one parsed value, mirroring the loop body of
stream_gemini_api.  logicError stands for any exception reaching the
except-branch (which yields an inline marker and breaks the inner loop):
subscription of a non-dict, indexing an empty or absent parts list, or
attribute errors from .get on a non-dict.  A truthy non-string text value
would be yielded raw by Python; it is rendered with pyStr here and is
excluded from every well-formedness hypothesis. -/
def interpretObj : Json → StreamEvent
  | .obj fs =>
    match pyGet fs "error" with
    | some (.obj ef) =>
      .upstreamError (match pyGet ef "message" with
        | some v => pyStr v
        | none => "Unknown")
    | some _ => .logicError
    | none =>
      let cand := (pyGet fs "candidates").getD (.arr [])
      if ¬ truthy cand then .noOp
      else
        match cand with
        | .arr (.obj cf :: _) =>
          let content := (pyGet cf "content").getD .null
          if ¬ truthy content then .noOp
          else
            match content with
            | .obj ctf =>
              if hasKey ctf "parts" then
                match pyGet ctf "parts" with
                | some (.arr (.obj pf :: _)) =>
                  let t := (pyGet pf "text").getD (.str "")
                  if truthy t then .textDelta (pyStr t) else .noOp
                | _ => .logicError
              else .noOp
            | other =>
              match pyContains "parts" other with
              | some false => .noOp
              | _ => .logicError
        | _ => .logicError
  | _ => .logicError

/-- The chunk a StreamEvent makes the generator yield, if any.  The Python
logic-error marker embeds the exception text; the constant marker here
stands for it (no claim inspects that text). -/
def eventYield : StreamEvent → Option String
  | .textDelta s => some s
  | .upstreamError m => some (" [Gemini Error: " ++ m ++ "] ")
  | .logicError => some " [Logic Error] "
  | .noOp => none


/-! ## Consumption: every successful scan returns a strict suffix -/

theorem skipWs_suffix (cs : List Char) : skipWs cs <:+ cs :=
  List.dropWhile_suffix _

theorem skipWs_len (cs : List Char) : (skipWs cs).length ≤ cs.length :=
  (skipWs_suffix cs).length_le

theorem kwPrefix_eq : ∀ kw cs r, kwPrefix kw cs = some r → cs = kw ++ r := by
  intro kw
  induction kw with
  | nil => intro cs r h; simpa [kwPrefix] using h
  | cons k ks ih =>
    intro cs r h
    cases cs with
    | nil => simp [kwPrefix] at h
    | cons c rs =>
      simp only [kwPrefix] at h
      split at h
      · rename_i hc
        subst hc
        simpa using ih rs r h
      · exact absurd h (by simp)

theorem parseStringRestF_consumed : ∀ f acc cs s r,
    parseStringRestF f acc cs = some (s, r) → r <:+ cs ∧ r.length < cs.length := by
  intro f
  induction f with
  | zero =>
    intro acc cs s r h
    simp [parseStringRestF] at h
  | succ f ih =>
    intro acc cs s r h
    cases cs with
    | nil => simp [parseStringRestF] at h
    | cons c rest =>
      rw [parseStringRestF_succ] at h
      split at h
      · simp only [Option.some.injEq, Prod.mk.injEq] at h
        rw [← h.2]
        exact ⟨List.suffix_cons _ _, by simp⟩
      · split at h
        · split at h
          · exact absurd h (by simp)
          · rename_i e rest1
            split at h
            · split at h
              · rename_i n hhex
                split at h
                · split at h
                  · rename_i n2 rest2 hLow
                    obtain ⟨hs, hl⟩ := ih _ _ s r h
                    obtain ⟨hlen, hsfx⟩ := lowSurrogate_some hLow
                    refine ⟨((hs.trans hsfx).trans (List.drop_suffix 4 rest1)).trans
                      ((List.suffix_cons e rest1).trans (List.suffix_cons c (e :: rest1))), ?_⟩
                    have hd4 : (rest1.drop 4).length = rest1.length - 4 := by simp
                    simp
                    omega
                  · obtain ⟨hs, hl⟩ := ih _ _ s r h
                    refine ⟨(hs.trans (List.drop_suffix 4 rest1)).trans
                      ((List.suffix_cons e rest1).trans (List.suffix_cons c (e :: rest1))), ?_⟩
                    have hd4 : (rest1.drop 4).length = rest1.length - 4 := by simp
                    simp at hl ⊢
                    omega
                · split at h
                  · obtain ⟨hs, hl⟩ := ih _ _ s r h
                    refine ⟨(hs.trans (List.drop_suffix 4 rest1)).trans
                      ((List.suffix_cons e rest1).trans (List.suffix_cons c (e :: rest1))), ?_⟩
                    have hd4 : (rest1.drop 4).length = rest1.length - 4 := by simp
                    simp at hl ⊢
                    omega
                  · obtain ⟨hs, hl⟩ := ih _ _ s r h
                    refine ⟨(hs.trans (List.drop_suffix 4 rest1)).trans
                      ((List.suffix_cons e rest1).trans (List.suffix_cons c (e :: rest1))), ?_⟩
                    have hd4 : (rest1.drop 4).length = rest1.length - 4 := by simp
                    simp at hl ⊢
                    omega
              · exact absurd h (by simp)
            · split at h
              · obtain ⟨hs, hl⟩ := ih _ _ s r h
                refine ⟨hs.trans
                  ((List.suffix_cons e rest1).trans (List.suffix_cons c (e :: rest1))), ?_⟩
                simp at hl ⊢
                omega
              · exact absurd h (by simp)
        · split at h
          · exact absurd h (by simp)
          · obtain ⟨hs, hl⟩ := ih _ _ s r h
            exact ⟨hs.trans (List.suffix_cons c rest), by simp at hl ⊢; omega⟩

theorem parseStringRest_consumed (acc cs : List Char) :
    ∀ s r, parseStringRest acc cs = some (s, r) → r <:+ cs ∧ r.length < cs.length :=
  fun s r h => parseStringRestF_consumed (cs.length + 1) acc cs s r h

/-! ## One-step unfolding equations for the fueled scanner -/

theorem parseValue_zero (cs : List Char) : parseValue 0 cs = none := rfl

theorem parseValue_succ (f : Nat) (c : Char) (rest : List Char) :
    parseValue (f + 1) (c :: rest) =
      if c = '"' then
        (match parseStringRest [] rest with
         | some (s, r) => some (.str s, r)
         | none => none)
      else if c = '\x7b' then parseObjBody f rest
      else if c = '[' then parseArrBody f rest
      else if c = 'n' then (kwPrefix ['u', 'l', 'l'] rest).map (fun r => (.null, r))
      else if c = 't' then (kwPrefix ['r', 'u', 'e'] rest).map (fun r => (.bool true, r))
      else if c = 'f' then (kwPrefix ['a', 'l', 's', 'e'] rest).map (fun r => (.bool false, r))
      else if c = '-' ∨ c.isDigit then parseNumber (c :: rest)
      else none := rfl

theorem parseValue_succ_nil (f : Nat) : parseValue (f + 1) [] = none := rfl

theorem parseObjBody_succ (f : Nat) (cs : List Char) :
    parseObjBody (f + 1) cs =
      match skipWs cs with
      | '\x7d' :: r => some (.obj [], r)
      | '"' :: r => parseMembers f r []
      | _ => none := rfl

theorem parseMembers_succ (f : Nat) (cs : List Char) (acc : List (String × Json)) :
    parseMembers (f + 1) cs acc =
      match parseStringRest [] cs with
      | none => none
      | some (k, r1) =>
        match skipWs r1 with
        | ':' :: r2 =>
          match parseValue f (skipWs r2) with
          | none => none
          | some (v, r3) =>
            match skipWs r3 with
            | '\x7d' :: r4 => some (.obj (acc ++ [(k, v)]), r4)
            | ',' :: r4 =>
              match skipWs r4 with
              | '"' :: r5 => parseMembers f r5 (acc ++ [(k, v)])
              | _ => none
            | _ => none
        | _ => none := rfl

theorem parseArrBody_succ (f : Nat) (cs : List Char) :
    parseArrBody (f + 1) cs =
      match skipWs cs with
      | ']' :: r => some (.arr [], r)
      | cs1 => parseItems f cs1 [] := rfl

theorem parseItems_succ (f : Nat) (cs : List Char) (acc : List Json) :
    parseItems (f + 1) cs acc =
      match parseValue f cs with
      | none => none
      | some (v, r1) =>
        match skipWs r1 with
        | ']' :: r2 => some (.arr (acc ++ [v]), r2)
        | ',' :: r2 => parseItems f (skipWs r2) (acc ++ [v])
        | _ => none := rfl

/-! ## Number-scan consumption -/

theorem parseIntPart_eq {cs ip r : List Char} (h : parseIntPart cs = some (ip, r)) :
    cs = ip ++ r ∧ ip ≠ [] := by
  cases cs with
  | nil => simp [parseIntPart] at h
  | cons c rest =>
    simp only [parseIntPart] at h
    split at h
    · rename_i hc
      simp only [Option.some.injEq, Prod.mk.injEq] at h
      subst hc
      simp [← h.1, ← h.2]
    · split at h
      · simp only [Option.some.injEq, Prod.mk.injEq] at h
        rw [← h.1, ← h.2]
        simp [List.takeWhile_append_dropWhile]
      · exact absurd h (by simp)

theorem parseFrac_sfx (cs : List Char) : (parseFrac cs).2 <:+ cs := by
  rw [parseFrac.eq_def]
  split
  · rename_i rest
    split
    · exact List.suffix_rfl
    · exact (List.dropWhile_suffix _).trans (List.suffix_cons '.' rest)
  · exact List.suffix_rfl

theorem parseExp_sfx (cs : List Char) : (parseExp cs).2 <:+ cs := by
  rw [parseExp.eq_def]
  split
  · split
    · split <;> split <;>
        first
          | exact List.suffix_rfl
          | exact ((List.dropWhile_suffix _).trans (List.suffix_cons _ _)).trans
              (List.suffix_cons _ _)
          | exact (List.dropWhile_suffix _).trans (List.suffix_cons _ _)
    · exact List.suffix_rfl
  · exact List.suffix_rfl

theorem parseNumAfterSign_consumed (neg : Bool) (cs1 : List Char) :
    ∀ v r, parseNumAfterSign neg cs1 = some (v, r) → r <:+ cs1 ∧ r.length < cs1.length := by
  intro v r h
  unfold parseNumAfterSign at h
  split at h
  · exact absurd h (by simp)
  · rename_i ip r1 hip
    obtain ⟨hsplit, hne⟩ := parseIntPart_eq hip
    simp only [Option.some.injEq, Prod.mk.injEq] at h
    have hr : r = (parseExp (parseFrac r1).2).2 := by
      rw [← h.2]
    have h1 : r <:+ r1 := hr ▸ (parseExp_sfx _).trans (parseFrac_sfx r1)
    have h2 : r1 <:+ cs1 := ⟨ip, hsplit.symm⟩
    refine ⟨h1.trans h2, ?_⟩
    have := h1.length_le
    have hlen : cs1.length = ip.length + r1.length := by rw [hsplit]; simp
    have : ip.length ≠ 0 := by simpa using hne
    omega

theorem parseNumber_consumed (cs : List Char) :
    ∀ v r, parseNumber cs = some (v, r) → r <:+ cs ∧ r.length < cs.length := by
  intro v r h
  unfold parseNumber at h
  split at h
  · rename_i hm
    obtain ⟨h1, h2⟩ := parseNumAfterSign_consumed true cs.tail v r h
    cases cs with
    | nil => simp at hm
    | cons c rest => exact ⟨h1.trans (List.suffix_cons c rest), by simp at h2 ⊢; omega⟩
  · exact parseNumAfterSign_consumed false cs v r h

/-! ## Scanner consumption, by induction on fuel -/

theorem parse_consumed :
    ∀ fuel : Nat,
      (∀ cs v r, parseValue fuel cs = some (v, r) → r <:+ cs ∧ r.length < cs.length) ∧
      (∀ cs v r, parseObjBody fuel cs = some (v, r) → r <:+ cs ∧ r.length < cs.length) ∧
      (∀ cs acc v r, parseMembers fuel cs acc = some (v, r) → r <:+ cs ∧ r.length < cs.length) ∧
      (∀ cs v r, parseArrBody fuel cs = some (v, r) → r <:+ cs ∧ r.length < cs.length) ∧
      (∀ cs acc v r, parseItems fuel cs acc = some (v, r) → r <:+ cs ∧ r.length < cs.length) := by
  intro fuel
  induction fuel with
  | zero =>
    refine ⟨?_, ?_, ?_, ?_, ?_⟩ <;> intro cs <;> intros <;>
      simp_all [parseValue_zero, parseObjBody, parseMembers, parseArrBody, parseItems]
  | succ f ih =>
    obtain ⟨ihV, ihO, ihM, ihA, ihI⟩ := ih
    refine ⟨?_, ?_, ?_, ?_, ?_⟩
    · -- parseValue
      intro cs v r h
      cases cs with
      | nil => simp [parseValue_succ_nil] at h
      | cons c rest =>
        rw [parseValue_succ] at h
        have hstep : ∀ x, x <:+ rest → x <:+ c :: rest ∧ (x.length < rest.length + 1) :=
          fun x hx => ⟨hx.trans (List.suffix_cons c rest), by
            have := hx.length_le; omega⟩
        split at h
        · -- string
          split at h
          · rename_i s1 r1 hps
            simp only [Option.some.injEq, Prod.mk.injEq] at h
            obtain ⟨hs, hlen⟩ := parseStringRest_consumed [] rest s1 r1 hps
            rw [← h.2]
            simpa using hstep r1 hs
          · exact absurd h (by simp)
        · split at h
          · -- object
            obtain ⟨hs, hlen⟩ := ihO rest v r h
            simpa using hstep r hs
          · split at h
            · -- array
              obtain ⟨hs, hlen⟩ := ihA rest v r h
              simpa using hstep r hs
            · split at h
              · -- null
                cases hkw : kwPrefix ['u', 'l', 'l'] rest with
                | none => simp [hkw] at h
                | some r0 =>
                  simp only [hkw, Option.map_some] at h
                  obtain ⟨-, h2⟩ : Json.null = v ∧ r0 = r := by simpa using h
                  subst h2
                  have := kwPrefix_eq _ _ _ hkw
                  exact (hstep r0 ⟨_, this.symm⟩).imp id (fun hx => by simpa using hx)
              · split at h
                · -- true
                  cases hkw : kwPrefix ['r', 'u', 'e'] rest with
                  | none => simp [hkw] at h
                  | some r0 =>
                    simp only [hkw, Option.map_some] at h
                    obtain ⟨-, h2⟩ : Json.bool true = v ∧ r0 = r := by simpa using h
                    subst h2
                    have := kwPrefix_eq _ _ _ hkw
                    exact (hstep r0 ⟨_, this.symm⟩).imp id (fun hx => by simpa using hx)
                · split at h
                  · -- false
                    cases hkw : kwPrefix ['a', 'l', 's', 'e'] rest with
                    | none => simp [hkw] at h
                    | some r0 =>
                      simp only [hkw, Option.map_some] at h
                      obtain ⟨-, h2⟩ : Json.bool false = v ∧ r0 = r := by simpa using h
                      subst h2
                      have := kwPrefix_eq _ _ _ hkw
                      exact (hstep r0 ⟨_, this.symm⟩).imp id (fun hx => by simpa using hx)
                  · split at h
                    · -- number
                      exact parseNumber_consumed _ v r h
                    · exact absurd h (by simp)
    · -- parseObjBody
      intro cs v r h
      rw [parseObjBody_succ] at h
      have hws : skipWs cs <:+ cs := skipWs_suffix cs
      split at h
      · rename_i r0 heq
        simp only [Option.some.injEq, Prod.mk.injEq] at h
        rw [← h.2]
        have : r0 <:+ skipWs cs := by rw [heq]; exact List.suffix_cons _ _
        refine ⟨this.trans hws, ?_⟩
        have h1 := this.length_le
        have h2 := hws.length_le
        have : (skipWs cs).length = r0.length + 1 := by rw [heq]; simp
        omega
      · rename_i r0 heq
        obtain ⟨hs, hlen⟩ := ihM r0 [] v r h
        have : r0 <:+ skipWs cs := by rw [heq]; exact List.suffix_cons _ _
        refine ⟨(hs.trans this).trans hws, ?_⟩
        have h1 := this.length_le
        have h2 := hws.length_le
        have : (skipWs cs).length = r0.length + 1 := by rw [heq]; simp
        omega
      · exact absurd h (by simp)
    · -- parseMembers
      intro cs acc v r h
      rw [parseMembers_succ] at h
      split at h
      · exact absurd h (by simp)
      · rename_i k r1 hkey
        obtain ⟨hk, hklen⟩ := parseStringRest_consumed [] cs k r1 hkey
        split at h
        · rename_i r2 hcolon
          have hr2a : r2 <:+ skipWs r1 := by rw [hcolon]; exact List.suffix_cons _ _
          have hr2 : r2 <:+ r1 := hr2a.trans (skipWs_suffix r1)
          have hr2len : r2.length < r1.length := by
            have h1 := hr2a.length_le
            have h2 := (skipWs_suffix r1).length_le
            have : (skipWs r1).length = r2.length + 1 := by rw [hcolon]; simp
            omega
          split at h
          · exact absurd h (by simp)
          · rename_i v3 r3 hval
            obtain ⟨hv, hvlen⟩ := ihV (skipWs r2) v3 r3 hval
            have hr3 : r3 <:+ r2 := hv.trans (skipWs_suffix r2)
            have hr3len : r3.length ≤ r2.length := by
              have := (skipWs_suffix r2).length_le
              omega
            split at h
            · rename_i r4 hbr
              simp only [Option.some.injEq, Prod.mk.injEq] at h
              rw [← h.2]
              have hr4a : r4 <:+ skipWs r3 := by rw [hbr]; exact List.suffix_cons _ _
              have hr4 : r4 <:+ r3 := hr4a.trans (skipWs_suffix r3)
              refine ⟨((hr4.trans hr3).trans hr2).trans hk, ?_⟩
              have := hr4.length_le
              omega
            · rename_i r4 hcomma
              have hr4a : r4 <:+ skipWs r3 := by rw [hcomma]; exact List.suffix_cons _ _
              have hr4 : r4 <:+ r3 := hr4a.trans (skipWs_suffix r3)
              have hr4len : r4.length < r3.length := by
                have h1 := hr4a.length_le
                have h2 := (skipWs_suffix r3).length_le
                have : (skipWs r3).length = r4.length + 1 := by rw [hcomma]; simp
                omega
              split at h
              · rename_i r5 hqu
                obtain ⟨hs5, hlen5⟩ := ihM r5 (acc ++ [(k, v3)]) v r h
                have hr5a : r5 <:+ skipWs r4 := by rw [hqu]; exact List.suffix_cons _ _
                have hr5 : r5 <:+ r4 := hr5a.trans (skipWs_suffix r4)
                refine ⟨((((hs5.trans hr5).trans hr4).trans hr3).trans hr2).trans hk, ?_⟩
                have h1 := hr5.length_le
                omega
              · exact absurd h (by simp)
            · exact absurd h (by simp)
        · exact absurd h (by simp)
    · -- parseArrBody
      intro cs v r h
      rw [parseArrBody_succ] at h
      have hws : skipWs cs <:+ cs := skipWs_suffix cs
      split at h
      · rename_i r0 heq
        simp only [Option.some.injEq, Prod.mk.injEq] at h
        rw [← h.2]
        have : r0 <:+ skipWs cs := by rw [heq]; exact List.suffix_cons _ _
        refine ⟨this.trans hws, ?_⟩
        have h1 := this.length_le
        have h2 := hws.length_le
        have : (skipWs cs).length = r0.length + 1 := by rw [heq]; simp
        omega
      · rename_i hne
        obtain ⟨hs, hlen⟩ := ihI (skipWs cs) [] v r h
        exact ⟨hs.trans hws, by have := hws.length_le; omega⟩
    · -- parseItems
      intro cs acc v r h
      rw [parseItems_succ] at h
      split at h
      · exact absurd h (by simp)
      · rename_i v1 r1 hval
        obtain ⟨h1, h1len⟩ := ihV cs v1 r1 hval
        split at h
        · rename_i r2 hbr
          simp only [Option.some.injEq, Prod.mk.injEq] at h
          rw [← h.2]
          have hr2a : r2 <:+ skipWs r1 := by rw [hbr]; exact List.suffix_cons _ _
          have hr2 : r2 <:+ r1 := hr2a.trans (skipWs_suffix r1)
          refine ⟨hr2.trans h1, ?_⟩
          have := hr2.length_le
          omega
        · rename_i r2 hcm
          have hr2a : r2 <:+ skipWs r1 := by rw [hcm]; exact List.suffix_cons _ _
          have hr2 : r2 <:+ r1 := hr2a.trans (skipWs_suffix r1)
          obtain ⟨hs, hlen⟩ := ihI (skipWs r2) (acc ++ [v1]) v r h
          refine ⟨((hs.trans (skipWs_suffix r2)).trans hr2).trans h1, ?_⟩
          have ha := (skipWs_suffix r2).length_le
          have hb := hr2.length_le
          omega
        · exact absurd h (by simp)

/-- raw_decode consumption: a successful decode removes a nonempty prefix. -/
theorem rawDecode_consumed {cs : List Char} {v : Json} {r : List Char}
    (h : rawDecode cs = some (v, r)) : r <:+ cs ∧ r.length < cs.length :=
  (parse_consumed (3 * cs.length + 3)).1 cs v r h

/-! ## The extractor loop (lines 182 to 217 of main.py) -/

/-- One execution of the inner while loop of stream_gemini_api (fueled;
fuel beyond the buffer length always suffices): strip leading whitespace,
consume wrapper punctuation one character at a time, decode and interpret
complete values, and stop on an empty or undecodable buffer — keeping
it — or break after a logic error.  Returns the events in order and the
final buffer. -/
def innerLoopF : Nat → List Char → List StreamEvent × List Char
  | 0, b => ([], b)
  | f + 1, b =>
    match b.dropWhile isPyWs with
    | [] => ([], [])
    | c :: rest =>
      if isWrapPunct c then innerLoopF f rest
      else
        match rawDecode (c :: rest) with
        | some (v, r) =>
          if interpretObj v = .logicError then ([.logicError], r)
          else
            let p := innerLoopF f r
            (interpretObj v :: p.1, p.2)
        | none => ([], c :: rest)

def innerLoop (b : List Char) : List StreamEvent × List Char := innerLoopF (b.length + 1) b

theorem innerLoopF_succ (f : Nat) (b : List Char) :
    innerLoopF (f + 1) b =
      match b.dropWhile isPyWs with
      | [] => ([], [])
      | c :: rest =>
        if isWrapPunct c then innerLoopF f rest
        else
          match rawDecode (c :: rest) with
          | some (v, r) =>
            if interpretObj v = .logicError then ([.logicError], r)
            else
              let p := innerLoopF f r
              (interpretObj v :: p.1, p.2)
          | none => ([], c :: rest) := rfl

theorem innerLoopF_congr : ∀ f g b, b.length < f → b.length < g →
    innerLoopF f b = innerLoopF g b := by
  intro f
  induction f using Nat.strong_induction_on with
  | _ f ih =>
    intro g b hf hg
    match f, g with
    | fp + 1, gp + 1 =>
      rw [innerLoopF_succ, innerLoopF_succ]
      have hws : (b.dropWhile isPyWs).length ≤ b.length := (List.dropWhile_suffix _).length_le
      split
      · rfl
      · rename_i c rest heq
        have hlen : rest.length + 1 ≤ b.length := by
          have : (b.dropWhile isPyWs).length = rest.length + 1 := by rw [heq]; simp
          omega
        split
        · exact ih fp (by omega) gp rest (by omega) (by omega)
        · split
          · rename_i v r hd
            have hr := (rawDecode_consumed hd).2
            simp only [List.length_cons] at hr
            split
            · rfl
            · rw [ih fp (by omega) gp r (by omega) (by omega)]
          · rfl

/-- One-step unfolding of the inner loop. -/
theorem innerLoop_eq (b : List Char) :
    innerLoop b =
      match b.dropWhile isPyWs with
      | [] => ([], [])
      | c :: rest =>
        if isWrapPunct c then innerLoop rest
        else
          match rawDecode (c :: rest) with
          | some (v, r) =>
            if interpretObj v = .logicError then ([.logicError], r)
            else
              let p := innerLoop r
              (interpretObj v :: p.1, p.2)
          | none => ([], c :: rest) := by
  unfold innerLoop
  rw [innerLoopF_succ]
  have hws : (b.dropWhile isPyWs).length ≤ b.length := (List.dropWhile_suffix _).length_le
  split
  · rfl
  · rename_i c rest heq
    have hlen : rest.length + 1 ≤ b.length := by
      have : (b.dropWhile isPyWs).length = rest.length + 1 := by rw [heq]; simp
      omega
    split
    · exact innerLoopF_congr _ _ rest (by omega) (by omega)
    · split
      · rename_i v r hd
        have hr := (rawDecode_consumed hd).2
        simp only [List.length_cons] at hr
        split
        · rfl
        · rw [innerLoopF_congr b.length (r.length + 1) r (by omega) (by omega)]
      · rfl

/-- Effect of feeding one decoded text chunk (an empty chunk is skipped by
the guard on line 186 and leaves the buffer untouched). -/
def feedChunk (st : List Char) (chunk : List Char) : List StreamEvent × List Char :=
  if chunk.isEmpty then ([], st)
  else innerLoop (st ++ chunk)

def feedSteps (st : List Char) : List (List Char) → List StreamEvent × List Char
  | [] => ([], st)
  | c :: rest =>
    let p := feedChunk st c
    let q := feedSteps p.2 rest
    (p.1 ++ q.1, q.2)

/-- All events the extractor and interpreter produce for a stream of
decoded text chunks, starting from the empty buffer. -/
def runStreamStr (chunks : List (List Char)) : List StreamEvent :=
  (feedSteps [] chunks).1

/-! ## Lossy UTF-8 decoding (chunk.decode utf-8 errors replace) -/

def isCont (b : Nat) : Bool := decide (0x80 ≤ b ∧ b ≤ 0xBF)

/-- Admissible first continuation byte of a three-byte sequence. -/
def cont3ok (b b1 : Nat) : Bool :=
  if b = 0xE0 then decide (0xA0 ≤ b1 ∧ b1 ≤ 0xBF)
  else if b = 0xED then decide (0x80 ≤ b1 ∧ b1 ≤ 0x9F)
  else isCont b1

/-- Admissible first continuation byte of a four-byte sequence. -/
def cont4ok (b b1 : Nat) : Bool :=
  if b = 0xF0 then decide (0x90 ≤ b1 ∧ b1 ≤ 0xBF)
  else if b = 0xF4 then decide (0x80 ≤ b1 ∧ b1 ≤ 0x8F)
  else isCont b1

/-- UTF-8 decoding with U+FFFD replacement, following CPython: one
replacement character per maximal prefix of a valid sequence and one per
other invalid byte. -/
def decodeUtf8ReplaceF : Nat → List Nat → List Char
  | 0, _ => []
  | f + 1, bs =>
    match bs with
    | [] => []
    | b :: rest =>
    if b ≤ 0x7F then Char.ofNat b :: decodeUtf8ReplaceF f rest
    else if 0xC2 ≤ b ∧ b ≤ 0xDF then
      match rest with
      | b1 :: r1 =>
        if isCont b1 then
          Char.ofNat ((b - 0xC0) * 0x40 + (b1 - 0x80)) :: decodeUtf8ReplaceF f r1
        else '�' :: decodeUtf8ReplaceF f (b1 :: r1)
      | [] => ['�']
    else if 0xE0 ≤ b ∧ b ≤ 0xEF then
      match rest with
      | b1 :: r1 =>
        if cont3ok b b1 then
          match r1 with
          | b2 :: r2 =>
            if isCont b2 then
              Char.ofNat ((b - 0xE0) * 0x1000 + (b1 - 0x80) * 0x40 + (b2 - 0x80)) ::
                decodeUtf8ReplaceF f r2
            else '�' :: decodeUtf8ReplaceF f (b2 :: r2)
          | [] => ['�']
        else '�' :: decodeUtf8ReplaceF f (b1 :: r1)
      | [] => ['�']
    else if 0xF0 ≤ b ∧ b ≤ 0xF4 then
      match rest with
      | b1 :: r1 =>
        if cont4ok b b1 then
          match r1 with
          | b2 :: r2 =>
            if isCont b2 then
              match r2 with
              | b3 :: r3 =>
                if isCont b3 then
                  Char.ofNat ((b - 0xF0) * 0x40000 + (b1 - 0x80) * 0x1000 +
                    (b2 - 0x80) * 0x40 + (b3 - 0x80)) :: decodeUtf8ReplaceF f r3
                else '�' :: decodeUtf8ReplaceF f (b3 :: r3)
              | [] => ['�']
            else '�' :: decodeUtf8ReplaceF f (b2 :: r2)
          | [] => ['�']
        else '�' :: decodeUtf8ReplaceF f (b1 :: r1)
      | [] => ['�']
    else '�' :: decodeUtf8ReplaceF f rest

def decodeUtf8Replace (bs : List Nat) : List Char := decodeUtf8ReplaceF (bs.length + 1) bs


/-- UTF-8 encoding of a scalar character (used to build byte streams). -/
def utf8EncChar (c : Char) : List Nat :=
  let n := c.toNat
  if n ≤ 0x7F then [n]
  else if n ≤ 0x7FF then [0xC0 + n / 0x40, 0x80 + n % 0x40]
  else if n ≤ 0xFFFF then [0xE0 + n / 0x1000, 0x80 + (n / 0x40) % 0x40, 0x80 + n % 0x40]
  else [0xF0 + n / 0x40000, 0x80 + (n / 0x1000) % 0x40, 0x80 + (n / 0x40) % 0x40, 0x80 + n % 0x40]

def utf8Enc : List Char → List Nat
  | [] => []
  | c :: rest => utf8EncChar c ++ utf8Enc rest

/-! ## Upstream response processing at the byte level -/

/-- Feeding one raw byte chunk: the guard on line 186 skips empty chunks;
otherwise the chunk is decoded with errors replace, appended to the
buffer, and the inner loop runs. -/
def feedBytes (st : List Char) (chunk : List Nat) : List StreamEvent × List Char :=
  if chunk.isEmpty then ([], st)
  else innerLoop (st ++ decodeUtf8Replace chunk)

def feedStepsBytes (st : List Char) : List (List Nat) → List StreamEvent × List Char
  | [] => ([], st)
  | c :: rest =>
    let p := feedBytes st c
    let q := feedStepsBytes p.2 rest
    (p.1 ++ q.1, q.2)

def runStreamBytes (chunks : List (List Nat)) : List StreamEvent :=
  (feedStepsBytes [] chunks).1

/-- The chunks stream_gemini_api yields for an upstream response with
the given status, body text and byte chunks (lines 175 to 217): a single
error marker on a non-200 status, otherwise the yields of the extractor
and interpreter pipeline. -/
def streamGemini (status : Nat) (body : String) (chunks : List (List Nat)) : List String :=
  if status ≠ 200 then ["Error: " ++ toString status ++ " - " ++ body]
  else (runStreamBytes chunks).filterMap eventYield

/-! ## Request assembly (lines 127 to 172 of main.py) -/

/-- Request part: a text part or an inline-data media part. -/
inductive GPart where
  | text (s : String)
  | inlineData (mime data : String)
deriving DecidableEq

structure GContent where
  role : String
  parts : List GPart
deriving DecidableEq

/-- A stored message row as read back from the messages table. -/
structure HistMsg where
  sender : String
  content : Option String
  file_path : Option String

def optTruthy : Option String → Bool
  | none => false
  | some s => s ≠ ""

/-- History portion of the request payload (lines 143 to 149). -/
def historyContents : List HistMsg → List GContent
  | [] => []
  | m :: rest =>
    let role := if m.sender = "user" then "user" else "model"
    let parts := if optTruthy m.content then [GPart.text (m.content.getD "")] else []
    if parts.isEmpty then historyContents rest
    else ⟨role, parts⟩ :: historyContents rest

/-- The system prompt constant of main.py, character for character. -/
def SYSTEM_INSTRUCTION : String :=
  "\nYou are an advanced AI assistant.\n1. IMAGE GENERATION: If the user asks you to generate, create, or show an image/picture/photo, you MUST output a special tag: ((GENERATE_IMAGE: <detailed_search_query>)). \n   Example: User: \"Show me a cybercity\" -> You: \"Here is a cybercity: ((GENERATE_IMAGE: futuristic cyberpunk city neon lights))\"\n   Do not try to provide a URL yourself. Use the tag.\n2. FILE CONTEXT: You may receive file contents in the prompt. Use this to answer questions about the file.\n"

/-- Current-turn parts (lines 151 to 170). -/
def currentParts (user_message : String) (image_data : Option (String × String)) : List GPart :=
  let final_message :=
    if user_message ≠ "" then SYSTEM_INSTRUCTION ++ "\n\n" ++ user_message
    else SYSTEM_INSTRUCTION
  let parts := if final_message ≠ "" then [GPart.text final_message] else []
  match image_data with
  | some (mime, data) => parts ++ [GPart.inlineData mime data]
  | none =>
    if final_message = "" then parts ++ [GPart.text "[System: User uploaded file only]"]
    else parts

/-- Full contents array of the assembled upstream request (lines 140 to 172). -/
def geminiContents (history : List HistMsg) (user_message : String)
    (image_data : Option (String × String)) : List GContent :=
  historyContents history ++ [⟨"user", currentParts user_message image_data⟩]

/-- fetch_context (lines 92 to 108): most recent limit messages by
created_at, returned in chronological order.  The messages table is
modelled as the chronologically ordered append-only message list of the
chat, so the descending-order limited query reads its last limit entries.
The signed-url enrichment only writes a field the assembler never reads
and is omitted. -/
def fetch_context (db : List HistMsg) (limit : Nat := 15) : List HistMsg :=
  ((db.reverse).take limit).reverse

/-! ## The chat endpoint (lines 250 to 341 of main.py) -/

/-- Python str.startswith on code points. -/
def strStartsWith (s pre : String) : Bool := pre.data.isPrefixOf s.data

/-- Python str.endswith on code points. -/
def strEndsWith (s suf : String) : Bool := suf.data.isSuffixOf s.data

/-- Python str.lower, on the ASCII range the filename checks use. -/
def strToLower (s : String) : String := String.mk (s.data.map Char.toLower)

/-- Python str.split with the explicit space separator: keeps empty
fields, one split per occurrence. -/
def splitSpace : List Char → List (List Char)
  | [] => [[]]
  | c :: rest =>
    if c = ' ' then [] :: splitSpace rest
    else
      match splitSpace rest with
      | w :: ws => (c :: w) :: ws
      | [] => [[c]]

structure FileIn where
  filename : String
  mime : String
  /-- Text the document branch would obtain: the pdf extraction output or
  the lossy utf-8 decode of the raw bytes, both produced by external
  collaborators (pypdf, bytes.decode with errors ignore). -/
  extractedText : String
  /-- Base64 encoding of the raw bytes, as computed by base64.b64encode. -/
  b64 : String

structure UpstreamResp where
  status : Nat
  body : String
  chunks : List (List Nat)

structure InsertRow where
  chat_id : String
  sender : String
  content : String
  file_path : Option String
deriving DecidableEq

inductive TraceStep where
  | insert (row : InsertRow)
  | yield (chunk : String)
deriving DecidableEq

def textFileExts : List String :=
  [".txt", ".md", ".csv", ".json", ".py", ".js", ".html", ".css"]

/-- Text the document branch extracts, by filename extension (lines 292
to 298). -/
def docParsedText (f : FileIn) : String :=
  if strEndsWith (strToLower f.filename) ".pdf" then f.extractedText
  else if textFileExts.any (fun e => strEndsWith (strToLower f.filename) e) then f.extractedText
  else ""

/-- File-processing step of chat_endpoint (lines 271 to 312): the
augmented user_content, the stored file_path and the image payload.
uploadOk models whether the storage upload raises; it is the only
operation in the try block whose failure the except-branch observes,
since pdf extraction catches its own errors and lossy decoding cannot
fail, and the upload happens after user_content was already extended. -/
def processFile (base : String) (file : Option FileIn) (uploadOk : Bool) (chat_id : String) :
    String × Option String × Option (String × String) :=
  match file with
  | none => (base, none, none)
  | some f =>
    let step : String × Option (String × String) :=
      if strStartsWith f.mime "image/" then
        (base ++ "\n[Attached Image: " ++ f.filename ++ "]", some (f.mime, f.b64))
      else
        let parsed := docParsedText f
        if parsed ≠ "" then
          (base ++ "\n\n[Attached File Content (" ++ f.filename ++ ")]:\n" ++ String.mk (parsed.data.take 30000),
            none)
        else
          (base ++ "\n\n[System: The user attached a file \x27" ++ f.filename ++
            "\x27 but no text could be extracted. It might be an image-only PDF or empty.]", none)
    if uploadOk then (step.1, some (chat_id ++ "/" ++ f.filename), step.2)
    else (step.1 ++ "\n[Error parsing attached file]", none, step.2)

/-- chat_endpoint (lines 250 to 341), over oracles for the external
collaborators: verifyOk the identity provider, db the message table in
chronological order, uploadOk the storage upload outcome, upstream the
Gemini response.  An error result carries the HTTP status raised before
any write or upstream access; a success carries the ordered trace of
database inserts and yielded stream chunks. -/
def chat_endpoint (authorization : Option String) (verifyOk : String → Bool)
    (chat_id : String) (message : Option String) (file : Option FileIn)
    (uploadOk : Bool) (db : List HistMsg) (upstream : UpstreamResp) :
    Except Nat (List TraceStep) :=
  match authorization with
  | none => .error 401
  | some auth =>
    if ¬ strStartsWith auth "Bearer " then .error 401
    else
      let token := String.mk (((splitSpace auth.data)[1]?).getD [])
      if ¬ verifyOk token then .error 401
      else if ¬ optTruthy message ∧ file.isNone then .error 400
      else
        let pf := processFile (message.getD "") file uploadOk chat_id
        let userRow : InsertRow :=
          { chat_id := chat_id, sender := "user"
            content :=
              if optTruthy message then message.getD ""
              else "[Sent file: " ++ ((file.map FileIn.filename).getD "") ++ "]"
            file_path := pf.2.1 }
        let streamed := streamGemini upstream.status upstream.body upstream.chunks
        let full_reply := String.join streamed
        .ok (TraceStep.insert userRow :: streamed.map TraceStep.yield ++
          (if full_reply ≠ "" then
            [TraceStep.insert
              { chat_id := chat_id, sender := "ai", content := full_reply, file_path := none }]
          else []))

/-- The contents array chat_endpoint sends upstream: history from
fetch_context plus the augmented user_content and optional image payload
(line 329 feeding stream_gemini_api). -/
def chatUpstreamContents (message : Option String) (file : Option FileIn)
    (uploadOk : Bool) (chat_id : String) (db : List HistMsg) : List GContent :=
  let pf := processFile (message.getD "") file uploadOk chat_id
  geminiContents (fetch_context db) pf.1 pf.2.2

/-! ## Canonical serialization of upstream values

The chunk-boundary claims quantify over upstream object streams; the
canonical serializer fixes their wire text (compact form, no whitespace,
as Gemini could send it). -/

def hexDigit (n : Nat) : Char :=
  if n < 10 then digitChar n else Char.ofNat ('a'.toNat + (n - 10))

/-- JSON string escaping for the canonical wire form. -/
def escChar (c : Char) : List Char :=
  if c = '"' then ['\\', '"']
  else if c = '\\' then ['\\', '\\']
  else if c.toNat < 0x20 then
    ['\\', 'u', '0', '0', hexDigit (c.toNat / 16), hexDigit (c.toNat % 16)]
  else [c]

def escChars : List Char → List Char
  | [] => []
  | c :: r => escChar c ++ escChars r

def serStr (s : String) : List Char := '"' :: (escChars s.data ++ ['"'])

def serNum (m e : Int) : List Char :=
  if e = 0 then intChars m else intChars m ++ 'e' :: intChars e

mutual
def serJ : Json → List Char
  | .null => 'n' :: ['u', 'l', 'l']
  | .bool true => 't' :: ['r', 'u', 'e']
  | .bool false => 'f' :: ['a', 'l', 's', 'e']
  | .num m e => serNum m e
  | .str s => serStr s
  | .arr xs => '[' :: (serItems xs ++ [']'])
  | .obj fs => '\x7b' :: (serFields fs ++ ['\x7d'])

def serItems : List Json → List Char
  | [] => []
  | [x] => serJ x
  | x :: y :: xs => serJ x ++ ',' :: serItems (y :: xs)

def serFields : List (String × Json) → List Char
  | [] => []
  | [(k, v)] => serStr k ++ ':' :: serJ v
  | (k, v) :: m :: fs => serStr k ++ ':' :: serJ v ++ ',' :: serFields (m :: fs)
end

/-- Wire text following a not-yet-started object list: separator (or the
closing bracket) before each further object. -/
def midSep : List Json → List Char
  | [] => [']']
  | o :: os => ',' :: (serJ o ++ midSep os)

/-- Wire text of the stream from the start of the next object. -/
def midStream : List Json → List Char
  | [] => [']']
  | o :: os => serJ o ++ midSep os

/-- Full canonical wire text of an upstream response array. -/
def streamSer (objs : List Json) : List Char := '[' :: midStream objs

/-! ## Well-formed response objects -/

/-- A top-level stream object that the interpreter handles without
raising: the error field, when present, holds an object; the candidate
path, when taken, reaches a parts list whose first element is an object
whose text field, when present, is a string. -/
def goodObj : Json → Bool
  | .obj fs =>
    match pyGet fs "error" with
    | some (.obj _) => true
    | some _ => false
    | none =>
      let cand := (pyGet fs "candidates").getD (.arr [])
      if ¬ truthy cand then true
      else
        match cand with
        | .arr (.obj cf :: _) =>
          let content := (pyGet cf "content").getD .null
          if ¬ truthy content then true
          else
            match content with
            | .obj ctf =>
              if hasKey ctf "parts" then
                match pyGet ctf "parts" with
                | some (.arr (.obj pf :: _)) =>
                  match pyGet pf "text" with
                  | none => true
                  | some (.str _) => true
                  | some _ => false
                | _ => false
              else true
            | other =>
              match pyContains "parts" other with
              | some false => true
              | _ => false
        | _ => false
  | _ => false

/-- Text contributed by one stream object according to the response rules:
the text field of the first part of the first candidate content when it
is a string, the empty string otherwise (also for error objects). -/
def firstPartText : Json → String
  | .obj fs =>
    if hasKey fs "error" then ""
    else
      match pyGet fs "candidates" with
      | some (.arr (.obj cf :: _)) =>
        match pyGet cf "content" with
        | some (.obj ctf) =>
          match pyGet ctf "parts" with
          | some (.arr (.obj pf :: _)) =>
            match pyGet pf "text" with
            | some (.str s) => s
            | _ => ""
          | _ => ""
        | _ => ""
      | _ => ""
  | _ => ""

/-- Concatenated TextDelta payloads of an event sequence, in order. -/
def deltaConcat (evs : List StreamEvent) : String :=
  String.join (evs.filterMap (fun e =>
    match e with
    | .textDelta s => some s
    | _ => none))

/-! ## Step equations of the extractor loop -/

theorem dropWhile_idem (p : Char → Bool) (l : List Char) :
    (l.dropWhile p).dropWhile p = l.dropWhile p := by
  induction l with
  | nil => rfl
  | cons c rest ih =>
    by_cases h : p c
    · simp [List.dropWhile_cons, h, ih]
    · simp [List.dropWhile_cons, h]

/-- The loop starts by stripping leading whitespace (line 190). -/
theorem innerLoop_ws (b : List Char) : innerLoop b = innerLoop (b.dropWhile isPyWs) := by
  rw [innerLoop_eq b, innerLoop_eq (b.dropWhile isPyWs), dropWhile_idem]

/-- An exhausted buffer stops the loop (line 191). -/
theorem innerLoop_empty {b : List Char} (h : b.dropWhile isPyWs = []) :
    innerLoop b = ([], []) := by
  rw [innerLoop_eq, h]

/-- Wrapper punctuation is consumed one character at a time (lines 193
and 194), producing no event. -/
theorem innerLoop_punct {c : Char} (rest : List Char)
    (hw : isPyWs c = false) (hp : isWrapPunct c = true) :
    innerLoop (c :: rest) = innerLoop rest := by
  rw [innerLoop_eq, List.dropWhile_cons, if_neg (by simp [hw])]
  dsimp only
  rw [if_pos hp]

/-- A buffer headed by payload is decoded at position 0; a complete value
is removed exactly and interpreted, a partial one stops the loop with the
buffer intact (lines 197 to 217). -/
theorem innerLoop_decode {c : Char} (rest : List Char)
    (hw : isPyWs c = false) (hp : isWrapPunct c = false) :
    innerLoop (c :: rest) =
      match rawDecode (c :: rest) with
      | some (v, r) =>
        if interpretObj v = .logicError then ([.logicError], r)
        else ((interpretObj v) :: (innerLoop r).1, (innerLoop r).2)
      | none => ([], c :: rest) := by
  rw [innerLoop_eq, List.dropWhile_cons, if_neg (by simp [hw])]
  dsimp only
  rw [if_neg (by simp [hp])]

/-! ## Claim C7: non-200 short circuit -/

/-- C7: for an upstream response with a status other than 200 the
generator emits exactly one error marker containing the status and the
body and then ends the stream; the output is the same for every byte
chunk sequence, so no byte is ever fed to the JSON extractor. -/
theorem C7_non200_short_circuit (status : Nat) (body : String) (chunks : List (List Nat))
    (h : status ≠ 200) :
    streamGemini status body chunks = ["Error: " ++ toString status ++ " - " ++ body] ∧
    ∀ chunks2, streamGemini status body chunks2 = streamGemini status body chunks := by
  unfold streamGemini
  simp [h]

theorem C7_non200_short_circuit_witness :
    streamGemini 404 "quota" [[91, 123]] = ["Error: 404 - quota"] := by
  rw [(C7_non200_short_circuit 404 "quota" [[91, 123]] (by decide)).1]
  decide

/-! ## Claim C10: the system instruction always leads the final turn -/

theorem SI_data_cons : ∃ tl, SYSTEM_INSTRUCTION.data = '\n' :: tl := ⟨_, rfl⟩

theorem SI_append_ne_empty (t : String) : SYSTEM_INSTRUCTION ++ t ≠ "" := by
  intro h
  have hdata : SYSTEM_INSTRUCTION.data ++ t.data = ([] : List Char) := congrArg String.data h
  obtain ⟨tl, htl⟩ := SI_data_cons
  rw [htl] at hdata
  exact absurd hdata (by simp)

theorem SI_append_ne_placeholder (t : String) :
    SYSTEM_INSTRUCTION ++ t ≠ "[System: User uploaded file only]" := by
  intro h
  have hdata : SYSTEM_INSTRUCTION.data ++ t.data =
      ("[System: User uploaded file only]" : String).data := congrArg String.data h
  obtain ⟨tl, htl⟩ := SI_data_cons
  rw [htl] at hdata
  have h1 : (('\n' :: tl) ++ t.data).head? = some '\n' := rfl
  rw [hdata] at h1
  exact absurd h1 (by decide)

theorem placeholder_not_mem {fm : String}
    (h : fm ≠ "[System: User uploaded file only]") (tail : List GPart)
    (htail : ∀ p ∈ tail, ∀ s, p ≠ GPart.text s) :
    GPart.text "[System: User uploaded file only]" ∉ GPart.text fm :: tail := by
  intro hmem
  rcases List.mem_cons.mp hmem with heq | hmem2
  · injection heq with h2
    exact h h2.symm
  · exact htail _ hmem2 _ rfl

theorem tail_nil_no_text : ∀ p ∈ ([] : List GPart), ∀ s, p ≠ GPart.text s := by
  intro p hp
  exact absurd hp (List.not_mem_nil p)

theorem tail_inline_no_text (m d : String) :
    ∀ p ∈ [GPart.inlineData m d], ∀ s, p ≠ GPart.text s := by
  intro p hp s
  rw [List.mem_singleton.mp hp]
  simp

/-- C10: for every request the assembled contents end with a user turn
whose first part is a text part beginning with the nonempty
SYSTEM_INSTRUCTION; in particular the uploaded-file-only placeholder
branch on line 168 is unreachable. -/
theorem C10_system_instruction_leads (history : List HistMsg) (user_message : String)
    (image_data : Option (String × String)) :
    SYSTEM_INSTRUCTION ≠ "" ∧
    ∃ c rest fm t,
      (geminiContents history user_message image_data).getLast? = some c ∧
      c.role = "user" ∧
      c.parts = GPart.text fm :: rest ∧
      fm = SYSTEM_INSTRUCTION ++ t ∧
      GPart.text "[System: User uploaded file only]" ∉ c.parts := by
  refine ⟨by simpa using SI_append_ne_empty "", ?_⟩
  refine ⟨⟨"user", currentParts user_message image_data⟩, ?_⟩
  have hlast : (geminiContents history user_message image_data).getLast? =
      some ⟨"user", currentParts user_message image_data⟩ := by
    unfold geminiContents
    simp
  have hSI : SYSTEM_INSTRUCTION ≠ "" := by simpa using SI_append_ne_empty ""
  have hSIplc : SYSTEM_INSTRUCTION ≠ "[System: User uploaded file only]" := by
    simpa using SI_append_ne_placeholder ""
  have key : ∃ rest t, currentParts user_message image_data =
      GPart.text (SYSTEM_INSTRUCTION ++ t) :: rest ∧
      GPart.text "[System: User uploaded file only]" ∉
        currentParts user_message image_data := by
    unfold currentParts
    by_cases hu : user_message = ""
    · subst hu
      rw [if_neg (by simp)]
      dsimp only
      rw [if_pos hSI]
      cases image_data with
      | none =>
        rw [if_neg hSI]
        exact ⟨[], "", by simp,
          placeholder_not_mem (fun h => hSIplc h) [] tail_nil_no_text⟩
      | some md =>
        exact ⟨[GPart.inlineData md.1 md.2], "", by simp,
          placeholder_not_mem (fun h => hSIplc h) _ (tail_inline_no_text md.1 md.2)⟩
    · rw [if_pos hu]
      dsimp only
      have hne : SYSTEM_INSTRUCTION ++ "\n\n" ++ user_message ≠ "" := by
        simpa [String.append_assoc] using SI_append_ne_empty ("\n\n" ++ user_message)
      have hnp : SYSTEM_INSTRUCTION ++ "\n\n" ++ user_message ≠
          "[System: User uploaded file only]" := by
        simpa [String.append_assoc] using SI_append_ne_placeholder ("\n\n" ++ user_message)
      rw [if_pos hne]
      cases image_data with
      | none =>
        rw [if_neg hne]
        exact ⟨[], "\n\n" ++ user_message, by simp [String.append_assoc],
          placeholder_not_mem hnp [] tail_nil_no_text⟩
      | some md =>
        exact ⟨[GPart.inlineData md.1 md.2], "\n\n" ++ user_message,
          by simp [String.append_assoc],
          placeholder_not_mem hnp _ (tail_inline_no_text md.1 md.2)⟩
  obtain ⟨rest, t, hparts, hnotin⟩ := key
  exact ⟨rest, SYSTEM_INSTRUCTION ++ t, t, hlast, rfl, hparts, rfl, hnotin⟩

/-! ## Claim C3: empty or absent candidates -/

/-- C3 counterexample: an object with an empty candidate list and a
promptFeedback field produces no event payload and no streamed output at
all — in particular no bracketed SafetyBlock marker ever reaches the
caller, against the claim. -/
theorem C3_counterexample :
    interpretObj (Json.obj [("candidates", Json.arr []),
      ("promptFeedback", Json.obj [("blockReason", Json.str "SAFETY")])]) = .noOp ∧
    streamGemini 200 ""
      [utf8Enc (streamSer [Json.obj [("candidates", Json.arr []),
        ("promptFeedback", Json.obj [("blockReason", Json.str "SAFETY")])]])] = [] := by
  constructor
  · rfl
  · rfl

/-- C3 (amended): for every parsed object without an error field whose
candidate list is empty or absent, the interpreter emits NoOp regardless
of any promptFeedback metadata, and a NoOp contributes nothing to the
streamed text. -/
theorem C3_empty_candidates_noop (fs : List (String × Json))
    (hne : pyGet fs "error" = none)
    (hc : pyGet fs "candidates" = none ∨ pyGet fs "candidates" = some (Json.arr [])) :
    interpretObj (Json.obj fs) = .noOp ∧ eventYield StreamEvent.noOp = none := by
  refine ⟨?_, rfl⟩
  simp only [interpretObj]
  rw [hne]
  rcases hc with hc | hc <;> rw [hc] <;> simp [truthy]

theorem C3_empty_candidates_noop_witness :
    interpretObj (Json.obj [("candidates", Json.arr []),
      ("promptFeedback", Json.obj [("blockReason", Json.str "SAFETY")])]) = .noOp :=
  (C3_empty_candidates_noop
    [("candidates", Json.arr []),
     ("promptFeedback", Json.obj [("blockReason", Json.str "SAFETY")])]
    rfl (Or.inr rfl)).1

/-! ## Claim C4: error priority -/

/-- C4: an object carrying an error field (an error object, per the
upstream wire shape) is interpreted as one UpstreamError whose message is
the nested message field when that is a string and the Unknown label when
it is absent, and never as a TextDelta — regardless of any sibling
candidates field in the same object. -/
theorem C4_error_priority (fs ef : List (String × Json))
    (he : pyGet fs "error" = some (Json.obj ef)) :
    (∀ msg, pyGet ef "message" = some (Json.str msg) →
      interpretObj (Json.obj fs) = .upstreamError msg) ∧
    (pyGet ef "message" = none →
      interpretObj (Json.obj fs) = .upstreamError "Unknown") ∧
    (∀ s, interpretObj (Json.obj fs) ≠ .textDelta s) := by
  simp only [interpretObj]
  rw [he]
  dsimp only
  refine ⟨?_, ?_, ?_⟩
  · intro msg hm
    rw [hm]
    rfl
  · intro hm
    rw [hm]
  · intro s
    split <;> simp

theorem C4_error_priority_witness :
    interpretObj (Json.obj
      [("error", Json.obj [("message", Json.str "quota exceeded")]),
       ("candidates", Json.arr [Json.obj [("content", Json.obj [("parts",
          Json.arr [Json.obj [("text", Json.str "zz")]])])]])]) =
      .upstreamError "quota exceeded" :=
  (C4_error_priority
    [("error", Json.obj [("message", Json.str "quota exceeded")]),
     ("candidates", Json.arr [Json.obj [("content", Json.obj [("parts",
        Json.arr [Json.obj [("text", Json.str "zz")]])])]])]
    [("message", Json.str "quota exceeded")] rfl).1 "quota exceeded" rfl

/-! ## Claim C6: the history window -/

/-- Modelled from the claim wording: at most the fifteen most recent
messages in chronological order, each mapping sender user to role user
and anything else (ai) to role model, with a text part only for nonempty
content and content-free messages skipped entirely. -/
def specHistoryWindow (db : List HistMsg) : List GContent :=
  (db.drop (db.length - 15)).filterMap (fun m =>
    if optTruthy m.content then
      some ⟨if m.sender = "user" then "user" else "model", [GPart.text (m.content.getD "")]⟩
    else none)

theorem historyContents_filterMap (l : List HistMsg) :
    historyContents l = l.filterMap (fun m =>
      if optTruthy m.content then
        some ⟨if m.sender = "user" then "user" else "model", [GPart.text (m.content.getD "")]⟩
      else none) := by
  induction l with
  | nil => rfl
  | cons m rest ih =>
    by_cases h : optTruthy m.content <;>
      simp [historyContents, List.filterMap_cons, h, ih]

theorem fetch_context_eq_drop (db : List HistMsg) :
    fetch_context db = db.drop (db.length - 15) := by
  unfold fetch_context
  rw [List.take_reverse, List.reverse_reverse]

/-- C6: the history portion of the assembled request is exactly the
specified window — at most the fifteen most recent stored messages, in
chronological order, mapped with the sender-role, nonempty-content and
skip rules — and it never exceeds fifteen turns. -/
theorem C6_history_window (db : List HistMsg) :
    historyContents (fetch_context db) = specHistoryWindow db ∧
    (fetch_context db).length ≤ 15 ∧
    ∀ user_message image_data,
      geminiContents (fetch_context db) user_message image_data =
        specHistoryWindow db ++ [⟨"user", currentParts user_message image_data⟩] := by
  have h1 : historyContents (fetch_context db) = specHistoryWindow db := by
    rw [historyContents_filterMap, fetch_context_eq_drop]
    rfl
  refine ⟨h1, ?_, ?_⟩
  · rw [fetch_context_eq_drop]
    simp
    omega
  · intro user_message image_data
    unfold geminiContents
    rw [h1]

/-! ## Claim C8: the inbound validator -/

/-- C8: a missing or malformed credential fails with 401, a rejected
token fails with 401, and a request with neither text nor file fails
with 400 — each equation holds for every upstream oracle, message table
and upload outcome, so the failures precede any upstream call or
persistence write (an error result carries no trace) — while any other
request proceeds to a successful trace. -/
theorem C8_validator (verifyOk : String → Bool) (chat_id : String)
    (message : Option String) (file : Option FileIn) (uploadOk : Bool)
    (db : List HistMsg) (upstream : UpstreamResp) :
    (chat_endpoint none verifyOk chat_id message file uploadOk db upstream = .error 401) ∧
    (∀ a : String, ¬ strStartsWith a "Bearer " →
      chat_endpoint (some a) verifyOk chat_id message file uploadOk db upstream = .error 401) ∧
    (∀ a : String, strStartsWith a "Bearer " →
      ¬ verifyOk (String.mk (((splitSpace a.data)[1]?).getD [])) →
      chat_endpoint (some a) verifyOk chat_id message file uploadOk db upstream = .error 401) ∧
    (∀ a : String, strStartsWith a "Bearer " →
      verifyOk (String.mk (((splitSpace a.data)[1]?).getD [])) →
      ¬ optTruthy message → file = none →
      chat_endpoint (some a) verifyOk chat_id message file uploadOk db upstream = .error 400) ∧
    (∀ a : String, strStartsWith a "Bearer " →
      verifyOk (String.mk (((splitSpace a.data)[1]?).getD [])) →
      (optTruthy message = true ∨ file ≠ none) →
      ∃ trace, chat_endpoint (some a) verifyOk chat_id message file uploadOk db upstream =
        .ok trace) := by
  refine ⟨rfl, ?_, ?_, ?_, ?_⟩
  · intro a ha
    simp only [chat_endpoint]
    rw [if_pos (by simpa using ha)]
  · intro a ha hv
    simp only [chat_endpoint]
    rw [if_neg (by simpa using ha), if_pos (by simpa using hv)]
  · intro a ha hv hm hf
    simp only [chat_endpoint]
    rw [if_neg (by simpa using ha), if_neg (by simpa using hv),
      if_pos ⟨by simpa using hm, by simp [hf]⟩]
  · intro a ha hv hor
    simp only [chat_endpoint]
    rw [if_neg (by simpa using ha), if_neg (by simpa using hv), if_neg (by
      rcases hor with h | h
      · simp [h]
      · simp [Option.isNone_iff_eq_none, h])]
    exact ⟨_, rfl⟩

theorem C8_validator_witness :
    chat_endpoint (some "Bearer tok") (fun _ => true) "c1" none none true []
      ⟨200, "", []⟩ = .error 400 :=
  (C8_validator (fun _ => true) "c1" none none true [] ⟨200, "", []⟩).2.2.2.1
    "Bearer tok" (by decide) (by decide) (by decide) rfl

/-! ## Claim C9: persisted user content with a file attached -/

/-- C9: for every authorized request with an attached file, the first
trace step is the user insert, whose stored content is the raw message
text, or the sent-file placeholder when no text was given — for every
extracted document text (the extractedText field is universally
quantified inside the file record, so the stored content and the whole
user row are independent of it), even though the upstream user_content
does embed that text for document files.  The stored history read by
later turns therefore never contains the extracted file text. -/
theorem C9_persisted_user_content (verifyOk : String → Bool) (a chat_id : String)
    (message : Option String) (f : FileIn) (uploadOk : Bool)
    (db : List HistMsg) (upstream : UpstreamResp)
    (ha : strStartsWith a "Bearer ")
    (hv : verifyOk (String.mk (((splitSpace a.data)[1]?).getD []))) :
    ∃ rest, chat_endpoint (some a) verifyOk chat_id message (some f) uploadOk db upstream =
      .ok (TraceStep.insert
        { chat_id := chat_id
          sender := "user"
          content :=
            if optTruthy message then message.getD ""
            else "[Sent file: " ++ f.filename ++ "]"
          file_path := if uploadOk then some (chat_id ++ "/" ++ f.filename) else none } :: rest) := by
  simp only [chat_endpoint]
  rw [if_neg (by simpa using ha), if_neg (by simpa using hv), if_neg (by simp)]
  have h1 : (Option.map FileIn.filename (some f)).getD "" = f.filename := by simp
  have h2 : (processFile (message.getD "") (some f) uploadOk chat_id).2.1 =
      if uploadOk then some (chat_id ++ "/" ++ f.filename) else none := by
    unfold processFile
    dsimp only
    split <;> simp
  rw [h1, h2]
  exact ⟨_, rfl⟩

theorem C9_persisted_user_content_witness :
    ∃ rest, chat_endpoint (some "Bearer tok") (fun _ => true) "c1" none
      (some ⟨"notes.pdf", "application/pdf", "SECRET EXTRACTED TEXT", ""⟩) true []
      ⟨200, "", []⟩ =
      .ok (TraceStep.insert
        { chat_id := "c1"
          sender := "user"
          content := "[Sent file: notes.pdf]"
          file_path := some "c1/notes.pdf" } :: rest) :=
  C9_persisted_user_content (fun _ => true) "Bearer tok" "c1" none
    ⟨"notes.pdf", "application/pdf", "SECRET EXTRACTED TEXT", ""⟩ true []
    ⟨200, "", []⟩ (by decide) (by decide)

/-! ## Claim C5: write discipline of the orchestrator -/

theorem natChars_ne_nil (n : Nat) : natChars n ≠ [] := by
  rw [natChars_eq]
  split <;> simp

theorem intChars_ne_nil (m : Int) : intChars m ≠ [] := by
  unfold intChars
  split
  · simp
  · exact natChars_ne_nil _

theorem mk_append_ne_empty (l : List Char) (t : String) (h : l ≠ []) :
    String.mk l ++ t ≠ "" := by
  intro he
  have : l ++ t.data = [] := congrArg String.data he
  simp at this
  exact h this.1

theorem mk_ne_empty (l : List Char) (h : l ≠ []) : String.mk l ≠ "" := by
  intro he
  exact h (congrArg String.data he)

/-- A truthy parse result renders to a nonempty string. -/
theorem pyStr_truthy_ne (v : Json) (h : truthy v = true) : pyStr v ≠ "" := by
  cases v with
  | null => simp [truthy] at h
  | bool b =>
    cases b
    · simp [truthy] at h
    · intro he
      exact absurd (congrArg String.data he) (by simp [pyStr, pyScalarStr])
  | num m e =>
    show pyScalarStr (.num m e) ≠ ""
    simp only [pyScalarStr]
    split
    · exact mk_ne_empty _ (intChars_ne_nil m)
    · rw [String.append_assoc]
      exact mk_append_ne_empty _ _ (intChars_ne_nil m)
  | str s =>
    simp only [truthy] at h
    simpa [pyStr, pyScalarStr] using h
  | arr xs =>
    show pyRepr (.arr xs) ≠ ""
    intro he
    have hd := congrArg String.data he
    rw [show pyRepr (.arr xs) = "[" ++ pyReprItems xs ++ "]" from by rw [pyRepr]] at hd
    simp at hd
  | obj fs =>
    show pyRepr (.obj fs) ≠ ""
    intro he
    have hd := congrArg String.data he
    rw [show pyRepr (.obj fs) = "\x7b" ++ pyReprFields fs ++ "\x7d" from by rw [pyRepr]] at hd
    simp at hd

/-- A TextDelta produced by the interpreter carries a nonempty payload. -/
theorem interpret_textDelta_ne (v : Json) (s : String)
    (h : interpretObj v = .textDelta s) : s ≠ "" := by
  cases v with
  | obj fs =>
    simp only [interpretObj] at h
    repeat' (first | split at h | simp at h)
    rename_i ht
    first
      | (rw [← h]; exact pyStr_truthy_ne _ ht)
      | (rw [h]; exact pyStr_truthy_ne _ ht)
      | (rw [← h.symm]; exact pyStr_truthy_ne _ ht)
  | null => exact absurd h (by simp [interpretObj])
  | bool b => exact absurd h (by simp [interpretObj])
  | num m e => exact absurd h (by simp [interpretObj])
  | str s2 => exact absurd h (by simp [interpretObj])
  | arr xs => exact absurd h (by simp [interpretObj])

/-- Every event the loop emits is the interpretation of some value. -/
theorem innerLoopF_events : ∀ f b ev, ev ∈ (innerLoopF f b).1 → ∃ v, ev = interpretObj v := by
  intro f
  induction f with
  | zero => intro b ev h; simp [innerLoopF] at h
  | succ f ih =>
    intro b ev h
    rw [innerLoopF_succ] at h
    split at h
    · simp at h
    · rename_i c rest heq
      split at h
      · exact ih rest ev h
      · split at h
        · rename_i v r hd
          split at h
          · rename_i hlogic
            simp at h
            exact ⟨v, by rw [h, hlogic]⟩
          · simp only [List.mem_cons] at h
            rcases h with h | h
            · exact ⟨v, h⟩
            · exact ih r ev h
        · simp at h

theorem feedStepsBytes_events : ∀ chunks st ev, ev ∈ (feedStepsBytes st chunks).1 →
    ∃ v, ev = interpretObj v := by
  intro chunks
  induction chunks with
  | nil => intro st ev h; simp [feedStepsBytes] at h
  | cons c rest ih =>
    intro st ev h
    simp only [feedStepsBytes, List.mem_append] at h
    rcases h with h | h
    · unfold feedBytes at h
      split at h
      · simp at h
      · exact innerLoopF_events _ _ ev h
    · exact ih _ ev h

theorem runStreamBytes_events (chunks : List (List Nat)) :
    ∀ ev ∈ runStreamBytes chunks, ∃ v, ev = interpretObj v :=
  fun ev h => feedStepsBytes_events chunks [] ev h

theorem join_cons (a : String) (l : List String) :
    String.join (a :: l) = a ++ String.join l := by
  have key : ∀ (l : List String) (x : String),
      List.foldl (· ++ ·) x l = x ++ List.foldl (· ++ ·) "" l := by
    intro l
    induction l with
    | nil => intro x; simp
    | cons b rest ih =>
      intro x
      simp only [List.foldl_cons]
      rw [ih (x ++ b), ih ("" ++ b)]
      rw [String.append_assoc]
      simp
  show List.foldl (· ++ ·) ("" ++ a) l = a ++ List.foldl (· ++ ·) "" l
  rw [key l ("" ++ a)]
  simp

theorem append_eq_empty_iff (a b : String) : a ++ b = "" ↔ a = "" ∧ b = "" := by
  constructor
  · intro h
    have := congrArg String.data h
    simp at this
    exact ⟨congrArg String.mk this.1, congrArg String.mk this.2⟩
  · rintro ⟨rfl, rfl⟩
    rfl

theorem join_eq_empty_iff (l : List String) : String.join l = "" ↔ ∀ s ∈ l, s = "" := by
  induction l with
  | nil => simp [String.join]
  | cons a rest ih =>
    rw [join_cons, append_eq_empty_iff, ih]
    simp

def isUserInsert : TraceStep → Bool
  | .insert r => r.sender = "user"
  | _ => false

def aiRow : TraceStep → Option InsertRow
  | .insert r => if r.sender = "ai" then some r else none
  | _ => none

theorem errMarker_ne (m : String) : " [Gemini Error: " ++ m ++ "] " ≠ "" := by
  rw [String.append_assoc]
  exact mk_append_ne_empty " [Gemini Error: ".data (m ++ "] ") (by decide)

theorem errLine_ne (status : Nat) (body : String) :
    "Error: " ++ toString status ++ " - " ++ body ≠ "" := by
  rw [String.append_assoc, String.append_assoc]
  exact mk_append_ne_empty "Error: ".data (toString status ++ (" - " ++ body)) (by decide)

/-- C5: for every chat request that passes validation, the trace opens
with exactly one user Message insert, written before any streamed chunk;
after the stream, a single AI Message holding the accumulated reply is
inserted as the final step exactly when the accumulator is nonempty, and
the accumulator is empty exactly when the upstream status was 200 and
every interpreted event was a NoOp. -/
theorem C5_write_discipline (verifyOk : String → Bool) (a chat_id : String)
    (message : Option String) (file : Option FileIn) (uploadOk : Bool)
    (db : List HistMsg) (upstream : UpstreamResp)
    (ha : strStartsWith a "Bearer ")
    (hv : verifyOk (String.mk (((splitSpace a.data)[1]?).getD [])))
    (hval : optTruthy message = true ∨ file ≠ none) :
    ∃ trace,
      chat_endpoint (some a) verifyOk chat_id message file uploadOk db upstream = .ok trace ∧
      (∃ row rest, trace = TraceStep.insert row :: rest ∧ row.sender = "user") ∧
      (trace.filter isUserInsert).length = 1 ∧
      (trace.filterMap aiRow =
        if String.join (streamGemini upstream.status upstream.body upstream.chunks) = "" then []
        else [{ chat_id := chat_id, sender := "ai",
                content := String.join (streamGemini upstream.status upstream.body upstream.chunks),
                file_path := none }]) ∧
      (String.join (streamGemini upstream.status upstream.body upstream.chunks) ≠ "" →
        trace.getLast? = some (TraceStep.insert
          { chat_id := chat_id, sender := "ai",
            content := String.join (streamGemini upstream.status upstream.body upstream.chunks),
            file_path := none })) ∧
      (String.join (streamGemini upstream.status upstream.body upstream.chunks) = "" ↔
        upstream.status = 200 ∧ ∀ ev ∈ runStreamBytes upstream.chunks, ev = .noOp) := by
  simp only [chat_endpoint]
  rw [if_neg (by simpa using ha), if_neg (by simpa using hv), if_neg (by
    rcases hval with h | h
    · simp [h]
    · simp [Option.isNone_iff_eq_none, h])]
  refine ⟨_, rfl, ⟨_, _, rfl, rfl⟩, ?_, ?_, ?_, ?_⟩
  · -- one user insert
    dsimp only
    rw [List.filter_append, List.filter_cons]
    have h1 : isUserInsert (TraceStep.insert
        { chat_id := chat_id, sender := "user"
          content := if optTruthy message then message.getD ""
            else "[Sent file: " ++ ((file.map FileIn.filename).getD "") ++ "]"
          file_path := (processFile (message.getD "") file uploadOk chat_id).2.1 }) = true := rfl
    rw [if_pos h1]
    have h2 : ∀ l : List String, (l.map TraceStep.yield).filter isUserInsert = [] := by
      intro l
      induction l with
      | nil => rfl
      | cons x rest ih => simpa [List.filter_cons, isUserInsert] using ih
    rw [h2]
    by_cases hc : String.join (streamGemini upstream.status upstream.body upstream.chunks) ≠ ""
    · rw [if_pos hc, List.filter_cons]
      simp [isUserInsert]
    · rw [if_neg hc]
      rfl
  · -- the ai inserts
    dsimp only
    have h1 : aiRow (TraceStep.insert
        { chat_id := chat_id, sender := "user"
          content := if optTruthy message then message.getD ""
            else "[Sent file: " ++ ((file.map FileIn.filename).getD "") ++ "]"
          file_path := (processFile (message.getD "") file uploadOk chat_id).2.1 }) = none := rfl
    rw [List.filterMap_append, List.filterMap_cons, h1]
    have h2 : ∀ l : List String, (l.map TraceStep.yield).filterMap aiRow = [] := by
      intro l
      induction l with
      | nil => rfl
      | cons x rest ih => simpa [List.filterMap_cons, aiRow] using ih
    rw [h2]
    by_cases hc : String.join (streamGemini upstream.status upstream.body upstream.chunks) = ""
    · rw [if_neg (show ¬ String.join (streamGemini upstream.status upstream.body
          upstream.chunks) ≠ "" from by simpa using hc), if_pos hc]
      rfl
    · rw [if_pos hc, if_neg hc]
      rfl
  · -- position of the ai insert
    intro hne
    rw [if_pos hne]
    rw [List.getLast?_concat]
  · -- emptiness characterization
    constructor
    · intro hj
      by_cases hs : upstream.status = 200
      · refine ⟨hs, ?_⟩
        intro ev hev
        have hstreamed : streamGemini upstream.status upstream.body upstream.chunks =
            (runStreamBytes upstream.chunks).filterMap eventYield := by
          unfold streamGemini
          rw [if_neg (by simp [hs])]
        rw [hstreamed] at hj
        have hall := (join_eq_empty_iff _).mp hj
        cases ev with
        | noOp => rfl
        | textDelta s =>
          exfalso
          have hsmem : s ∈ (runStreamBytes upstream.chunks).filterMap eventYield :=
            List.mem_filterMap.mpr ⟨_, hev, rfl⟩
          obtain ⟨v, hvv⟩ := runStreamBytes_events upstream.chunks _ hev
          exact interpret_textDelta_ne v s hvv.symm (hall s hsmem)
        | upstreamError m =>
          exfalso
          have hsmem : (" [Gemini Error: " ++ m ++ "] ") ∈
              (runStreamBytes upstream.chunks).filterMap eventYield :=
            List.mem_filterMap.mpr ⟨_, hev, rfl⟩
          exact errMarker_ne m (hall _ hsmem)
        | logicError =>
          exfalso
          have hsmem : (" [Logic Error] " : String) ∈
              (runStreamBytes upstream.chunks).filterMap eventYield :=
            List.mem_filterMap.mpr ⟨_, hev, rfl⟩
          exact absurd (hall _ hsmem) (by decide)
      · exfalso
        have hstreamed : streamGemini upstream.status upstream.body upstream.chunks =
            ["Error: " ++ toString upstream.status ++ " - " ++ upstream.body] := by
          unfold streamGemini
          rw [if_pos hs]
        rw [hstreamed] at hj
        rw [join_cons] at hj
        have : String.join [] = "" := rfl
        rw [this] at hj
        exact errLine_ne upstream.status upstream.body (by simpa using hj)
    · rintro ⟨hs, hall⟩
      have hstreamed : streamGemini upstream.status upstream.body upstream.chunks =
          (runStreamBytes upstream.chunks).filterMap eventYield := by
        unfold streamGemini
        rw [if_neg (by simp [hs])]
      rw [hstreamed]
      have : (runStreamBytes upstream.chunks).filterMap eventYield = [] := by
        rw [List.filterMap_eq_nil_iff]
        intro ev hev
        rw [hall ev hev]
        rfl
      rw [this]
      rfl

theorem C5_write_discipline_witness :
    ∃ trace,
      chat_endpoint (some "Bearer tok") (fun _ => true) "c1" (some "hello") none true []
        ⟨500, "boom", []⟩ = .ok trace ∧
      (∃ row rest, trace = TraceStep.insert row :: rest ∧ row.sender = "user") ∧
      (trace.filter isUserInsert).length = 1 ∧
      (trace.filterMap aiRow =
        if String.join (streamGemini 500 "boom" []) = "" then []
        else [{ chat_id := "c1", sender := "ai",
                content := String.join (streamGemini 500 "boom" []), file_path := none }]) ∧
      (String.join (streamGemini 500 "boom" []) ≠ "" →
        trace.getLast? = some (TraceStep.insert
          { chat_id := "c1", sender := "ai",
            content := String.join (streamGemini 500 "boom" []), file_path := none })) ∧
      (String.join (streamGemini 500 "boom" []) = "" ↔
        (500 : Nat) = 200 ∧ ∀ ev ∈ runStreamBytes [], ev = .noOp) :=
  C5_write_discipline (fun _ => true) "Bearer tok" "c1" (some "hello") none true []
    ⟨500, "boom", []⟩ (by decide) (by decide) (Or.inl (by decide))

/-! ## Claim C2: the incremental extractor loop -/

theorem decodeUtf8Replace_invalidLead (b : Nat) (tl : List Nat)
    (h1 : 0x80 ≤ b) (h2 : b ≤ 0xC1) :
    decodeUtf8Replace (b :: tl) = '�' :: decodeUtf8Replace tl := by
  show decodeUtf8ReplaceF (tl.length + 1 + 1) (b :: tl) =
    '�' :: decodeUtf8ReplaceF (tl.length + 1) tl
  simp only [decodeUtf8ReplaceF]
  rw [if_neg (by omega), if_neg (by omega), if_neg (by omega), if_neg (by omega)]

/-- C2: for every buffer state the inner loop first strips leading
whitespace; an exhausted buffer stops it; wrapper punctuation at the head
is consumed one character exactly, with no event; otherwise one JSON value
is decoded from position zero and exactly the consumed prefix is removed
(the remainder is a suffix of the buffer); a failed decode stops the loop
with the buffer intact for the next feed; raw chunk bytes are decoded
with the replacement strategy before entering the buffer, and an invalid
lead byte degrades to one replacement character instead of failing. -/
theorem C2_extractor_loop (b : List Char) (c : Char) (rest : List Char)
    (st : List Char) (chunk : List Nat) (bbad : Nat) (tl : List Nat) :
    innerLoop b = innerLoop (b.dropWhile isPyWs) ∧
    (b.dropWhile isPyWs = [] → innerLoop b = ([], [])) ∧
    (isPyWs c = false → isWrapPunct c = true → innerLoop (c :: rest) = innerLoop rest) ∧
    (isPyWs c = false → isWrapPunct c = false →
      ∀ v r, rawDecode (c :: rest) = some (v, r) →
        r <:+ c :: rest ∧
        innerLoop (c :: rest) =
          (if interpretObj v = .logicError then ([.logicError], r)
           else (interpretObj v :: (innerLoop r).1, (innerLoop r).2))) ∧
    (isPyWs c = false → isWrapPunct c = false → rawDecode (c :: rest) = none →
      innerLoop (c :: rest) = ([], c :: rest)) ∧
    (feedBytes st chunk =
      if chunk.isEmpty then ([], st) else innerLoop (st ++ decodeUtf8Replace chunk)) ∧
    (0x80 ≤ bbad → bbad ≤ 0xC1 →
      decodeUtf8Replace (bbad :: tl) = '�' :: decodeUtf8Replace tl) := by
  refine ⟨innerLoop_ws b, innerLoop_empty, ?_, ?_, ?_, rfl,
    decodeUtf8Replace_invalidLead bbad tl⟩
  · intro hw hp
    exact innerLoop_punct rest hw hp
  · intro hw hp v r hd
    refine ⟨(rawDecode_consumed hd).1, ?_⟩
    rw [innerLoop_decode rest hw hp, hd]
  · intro hw hp hd
    rw [innerLoop_decode rest hw hp, hd]

theorem C2_extractor_loop_witness :
    innerLoop [' ', 'x'] = innerLoop ([' ', 'x'].dropWhile isPyWs) ∧
    innerLoop [' '] = ([], []) ∧
    innerLoop ['[', 'x'] = innerLoop ['x'] ∧
    ([] : List Char) <:+ ['1'] ∧
    innerLoop ['1'] =
      (if interpretObj (Json.num 1 0) = .logicError then ([StreamEvent.logicError], [])
       else (interpretObj (Json.num 1 0) :: (innerLoop []).1, (innerLoop []).2)) ∧
    innerLoop ['x'] = ([], ['x']) ∧
    decodeUtf8Replace [0x80] = '�' :: decodeUtf8Replace [] :=
  ⟨(C2_extractor_loop [' ', 'x'] '[' ['x'] [] [] 0x80 []).1,
   (C2_extractor_loop [' '] '[' ['x'] [] [] 0x80 []).2.1 rfl,
   (C2_extractor_loop [] '[' ['x'] [] [] 0x80 []).2.2.1 (by decide) (by decide),
   ((C2_extractor_loop [] '1' [] [] [] 0x80 []).2.2.2.1 (by decide) (by decide)
     (Json.num 1 0) [] rfl).1,
   ((C2_extractor_loop [] '1' [] [] [] 0x80 []).2.2.2.1 (by decide) (by decide)
     (Json.num 1 0) [] rfl).2,
   (C2_extractor_loop [] 'x' [] [] [] 0x80 []).2.2.2.2.1 (by decide) (by decide) rfl,
   (C2_extractor_loop [] 'x' [] [] [] 0x80 []).2.2.2.2.2.2 (by decide) (by decide)⟩

/-! ## Claim C1: stream reassembly.  Stage 1: digit and character facts -/

theorem digitVal_digitChar (d : Nat) (h : d ≤ 9) : digitVal (digitChar d) = d := by
  interval_cases d <;> decide

theorem digitChar_isDigit (d : Nat) (h : d ≤ 9) : (digitChar d).isDigit = true := by
  interval_cases d <;> decide

theorem digitChar_eq_zero (d : Nat) (h : d ≤ 9) : digitChar d = '0' ↔ d = 0 := by
  interval_cases d <;> decide

theorem digitChar_toNat (d : Nat) (h : d ≤ 9) : (digitChar d).toNat = 48 + d := by
  interval_cases d <;> decide

/-- Character-class exclusions for decimal digits: a digit is none of the
structural characters the scanners dispatch on. -/
theorem isDigit_class (c : Char) (h : c.isDigit = true) :
    isJsonWs c = false ∧ isPyWs c = false ∧ isWrapPunct c = false ∧
    c ≠ ']' ∧ c ≠ '\x7d' ∧ c ≠ ',' ∧ c ≠ '"' ∧ c ≠ '\x7b' ∧ c ≠ '[' ∧
    c ≠ 'n' ∧ c ≠ 't' ∧ c ≠ 'f' ∧ c ≠ '-' ∧ c ≠ '.' ∧ c ≠ 'e' ∧ c ≠ 'E' ∧ c ≠ '+' := by
  have hrange : 48 ≤ c.toNat ∧ c.toNat ≤ 57 := by
    simp only [Char.isDigit, Bool.and_eq_true, decide_eq_true_eq] at h
    exact ⟨h.1, h.2⟩
  have hne : ∀ d : Char, c.toNat ≠ d.toNat → c ≠ d := fun d hd he => hd (he ▸ rfl)
  refine ⟨?_, ?_, ?_, ?_, ?_, ?_, ?_, ?_, ?_, ?_, ?_, ?_, ?_, ?_, ?_, ?_, ?_⟩
  · simp only [isJsonWs, Bool.or_eq_false_iff, decide_eq_false_iff_not]
    exact ⟨⟨⟨hne ' ' (by rw [show (' ' : Char).toNat = 32 from rfl]; omega),
      hne '\t' (by rw [show ('\t' : Char).toNat = 9 from rfl]; omega)⟩,
      hne '\n' (by rw [show ('\n' : Char).toNat = 10 from rfl]; omega)⟩,
      hne '\r' (by rw [show ('\r' : Char).toNat = 13 from rfl]; omega)⟩
  · simp only [isPyWs, Bool.or_eq_false_iff, decide_eq_false_iff_not]
    exact ⟨⟨⟨⟨⟨hne ' ' (by rw [show (' ' : Char).toNat = 32 from rfl]; omega),
      hne '\t' (by rw [show ('\t' : Char).toNat = 9 from rfl]; omega)⟩,
      hne '\n' (by rw [show ('\n' : Char).toNat = 10 from rfl]; omega)⟩,
      hne '\r' (by rw [show ('\r' : Char).toNat = 13 from rfl]; omega)⟩,
      hne '\x0b' (by rw [show ('\x0b' : Char).toNat = 11 from rfl]; omega)⟩,
      hne '\x0c' (by rw [show ('\x0c' : Char).toNat = 12 from rfl]; omega)⟩
  · simp only [isWrapPunct, Bool.or_eq_false_iff, decide_eq_false_iff_not]
    exact ⟨⟨hne '[' (by rw [show ('[' : Char).toNat = 91 from rfl]; omega),
      hne ',' (by rw [show (',' : Char).toNat = 44 from rfl]; omega)⟩,
      hne ']' (by rw [show (']' : Char).toNat = 93 from rfl]; omega)⟩
  · exact hne ']' (by rw [show (']' : Char).toNat = 93 from rfl]; omega)
  · exact hne '\x7d' (by rw [show ('\x7d' : Char).toNat = 125 from rfl]; omega)
  · exact hne ',' (by rw [show (',' : Char).toNat = 44 from rfl]; omega)
  · exact hne '"' (by rw [show ('"' : Char).toNat = 34 from rfl]; omega)
  · exact hne '\x7b' (by rw [show ('\x7b' : Char).toNat = 123 from rfl]; omega)
  · exact hne '[' (by rw [show ('[' : Char).toNat = 91 from rfl]; omega)
  · exact hne 'n' (by rw [show ('n' : Char).toNat = 110 from rfl]; omega)
  · exact hne 't' (by rw [show ('t' : Char).toNat = 116 from rfl]; omega)
  · exact hne 'f' (by rw [show ('f' : Char).toNat = 102 from rfl]; omega)
  · exact hne '-' (by rw [show ('-' : Char).toNat = 45 from rfl]; omega)
  · exact hne '.' (by rw [show ('.' : Char).toNat = 46 from rfl]; omega)
  · exact hne 'e' (by rw [show ('e' : Char).toNat = 101 from rfl]; omega)
  · exact hne 'E' (by rw [show ('E' : Char).toNat = 69 from rfl]; omega)
  · exact hne '+' (by rw [show ('+' : Char).toNat = 43 from rfl]; omega)

theorem natChars_all_digits (n : Nat) : ∀ c ∈ natChars n, c.isDigit = true := by
  induction n using Nat.strong_induction_on with
  | _ n ih =>
    rw [natChars_eq]
    by_cases h : n < 10
    · rw [if_pos h]
      intro c hc
      rw [List.mem_singleton] at hc
      subst hc
      exact digitChar_isDigit n (by omega)
    · rw [if_neg h]
      intro c hc
      rcases List.mem_append.mp hc with h1 | h2
      · exact ih (n / 10) (Nat.div_lt_self (by omega) (by omega)) c h1
      · rw [List.mem_singleton] at h2
        subst h2
        exact digitChar_isDigit (n % 10) (by omega)

theorem natChars_cons (n : Nat) :
    ∃ d t, natChars n = digitChar d :: t ∧ d ≤ 9 ∧ (0 < n → 1 ≤ d) := by
  induction n using Nat.strong_induction_on with
  | _ n ih =>
    rw [natChars_eq]
    by_cases h : n < 10
    · exact ⟨n, [], by rw [if_pos h], by omega, fun h0 => by omega⟩
    · obtain ⟨d, t, ht, hd9, hd1⟩ := ih (n / 10) (Nat.div_lt_self (by omega) (by omega))
      refine ⟨d, t ++ [digitChar (n % 10)], ?_, hd9, fun _ => hd1 (by omega)⟩
      rw [if_neg h, ht]
      rfl

theorem natDigits_append_one (ds : List Char) (c : Char) :
    natDigits (ds ++ [c]) = 10 * natDigits ds + digitVal c := by
  unfold natDigits
  rw [List.foldl_append]
  rfl

theorem natDigits_natChars (n : Nat) : natDigits (natChars n) = n := by
  induction n using Nat.strong_induction_on with
  | _ n ih =>
    rw [natChars_eq]
    by_cases h : n < 10
    · rw [if_pos h]
      show 10 * 0 + digitVal (digitChar n) = n
      rw [digitVal_digitChar n (by omega)]
      omega
    · rw [if_neg h, natDigits_append_one,
        ih (n / 10) (Nat.div_lt_self (by omega) (by omega)),
        digitVal_digitChar (n % 10) (by omega)]
      omega

theorem takeWhile_digits_append (ds r : List Char) (hds : ∀ c ∈ ds, c.isDigit = true)
    (hr : ∀ c, r.head? = some c → c.isDigit = false) :
    (ds ++ r).takeWhile Char.isDigit = ds ∧ (ds ++ r).dropWhile Char.isDigit = r := by
  induction ds with
  | nil =>
    cases r with
    | nil => exact ⟨rfl, rfl⟩
    | cons c t =>
      simp [List.takeWhile_cons, List.dropWhile_cons, hr c rfl]
  | cons d ds ih =>
    have hd := hds d (List.mem_cons_self d ds)
    obtain ⟨ht, hdr⟩ := ih (fun c hc => hds c (List.mem_cons_of_mem d hc))
    simp [List.takeWhile_cons, List.dropWhile_cons, hd, ht, hdr]

/-! ## Stage 2: number-scan completeness on serialized numbers -/

/-- The continuation begins with a container separator. -/
def sepHead (r : List Char) : Bool :=
  match r with
  | c :: _ => c = ',' || c = ']' || c = '\x7d'
  | [] => false

theorem sepHead_class {r : List Char} (h : sepHead r = true) :
    ∀ c, r.head? = some c →
      c.isDigit = false ∧ c ≠ '.' ∧ c ≠ 'e' ∧ c ≠ 'E' ∧ c ≠ '+' ∧ c ≠ '-' ∧
      isJsonWs c = false ∧ c ≠ '"' := by
  cases r with
  | nil => exact fun c hc => by simp at hc
  | cons c0 t =>
    intro c hc
    simp only [List.head?_cons, Option.some.injEq] at hc
    subst hc
    simp only [sepHead, Bool.or_eq_true, decide_eq_true_eq] at h
    rcases h with (h | h) | h <;> subst h <;> exact ⟨rfl, by decide, by decide, by decide,
      by decide, by decide, rfl, by decide⟩

/-- Head constraints available after the continuation of a number. -/
def numTailOk (r : List Char) : Prop := r = [] ∨ sepHead r = true

theorem numTailOk_head {r : List Char} (h : numTailOk r) :
    ∀ c, r.head? = some c →
      c.isDigit = false ∧ c ≠ '.' ∧ c ≠ 'e' ∧ c ≠ 'E' := by
  intro c hc
  rcases h with h | h
  · subst h; simp at hc
  · obtain ⟨h1, h2, h3, h4, _⟩ := sepHead_class h c hc
    exact ⟨h1, h2, h3, h4⟩

theorem parseIntPart_natChars (n : Nat) (r : List Char)
    (hr : ∀ c, r.head? = some c → c.isDigit = false) :
    parseIntPart (natChars n ++ r) = some (natChars n, r) := by
  by_cases h0 : n = 0
  · subst h0
    show parseIntPart ('0' :: r) = some (['0'], r)
    simp [parseIntPart]
  · obtain ⟨d, t, ht, hd9, hd1⟩ := natChars_cons n
    have hd1 := hd1 (by omega)
    have htd : ∀ c ∈ t, c.isDigit = true := by
      intro c hc
      exact natChars_all_digits n c (by rw [ht]; exact List.mem_cons_of_mem _ hc)
    obtain ⟨htake, hdrop⟩ := takeWhile_digits_append t r htd hr
    rw [ht]
    show parseIntPart (digitChar d :: (t ++ r)) = some (digitChar d :: t, r)
    simp only [parseIntPart]
    rw [if_neg (by rw [digitChar_eq_zero d hd9]; omega),
      if_pos (digitChar_isDigit d hd9), htake, hdrop]

theorem parseFrac_sep (r : List Char) (hr : ∀ c, r.head? = some c → c ≠ '.') :
    parseFrac r = ([], r) := by
  cases r with
  | nil => rfl
  | cons c t =>
    have hc := hr c rfl
    unfold parseFrac
    split
    · rename_i rest heq
      injection heq with h1 _
      exact absurd h1 hc
    · rfl

theorem parseExp_sep (r : List Char) (hr : ∀ c, r.head? = some c → c ≠ 'e' ∧ c ≠ 'E') :
    parseExp r = (0, r) := by
  cases r with
  | nil => rfl
  | cons c t =>
    have hc := hr c rfl
    simp only [parseExp]
    rw [if_neg (by rintro (h | h) <;> [exact hc.1 h; exact hc.2 h])]

theorem parseExp_ser (e : Int) (r : List Char)
    (hr : ∀ c, r.head? = some c → c.isDigit = false) :
    parseExp ('e' :: (intChars e ++ r)) = (e, r) := by
  simp only [parseExp]
  rw [if_pos (Or.inl trivial)]
  by_cases he : e < 0
  · have hic : intChars e = '-' :: natChars e.natAbs := by rw [intChars, if_pos he]
    obtain ⟨htake, hdrop⟩ :=
      takeWhile_digits_append (natChars e.natAbs) r (natChars_all_digits _) hr
    rw [hic, List.cons_append]
    split
    · rename_i r2 heq
      injection heq with h1 _
      exact absurd h1 (by decide)
    · rename_i r2 heq
      injection heq with h1 h2
      rw [← h2, htake, hdrop]
      split
      · rename_i heq2
        exact absurd heq2 (natChars_ne_nil _)
      · rw [natDigits_natChars]
        simp only [Prod.mk.injEq]
        exact ⟨by omega, trivial⟩
    · rename_i hplus hminus
      exact absurd rfl (hminus (natChars e.natAbs ++ r))
  · have hic : intChars e = natChars e.toNat := by rw [intChars, if_neg he]
    obtain ⟨htake, hdrop⟩ :=
      takeWhile_digits_append (natChars e.toNat) r (natChars_all_digits _) hr
    obtain ⟨d, t, ht, hd9, _⟩ := natChars_cons e.toNat
    obtain ⟨_, _, _, _, _, _, _, _, _, _, _, _, hmns, _, _, _, hpls⟩ :=
      isDigit_class _ (digitChar_isDigit d hd9)
    have htake2 : (digitChar d :: (t ++ r)).takeWhile Char.isDigit = digitChar d :: t := by
      rw [← List.cons_append, ← ht]
      exact htake
    have hdrop2 : (digitChar d :: (t ++ r)).dropWhile Char.isDigit = r := by
      rw [← List.cons_append, ← ht]
      exact hdrop
    rw [hic, ht, List.cons_append]
    split
    · rename_i r2 heq
      injection heq with h1 _
      exact absurd h1 hpls
    · rename_i r2 heq
      injection heq with h1 _
      exact absurd h1 hmns
    · rename_i hplus hminus
      rw [htake2, hdrop2]
      split
      · rename_i heq2
        exact absurd heq2 (by simp)
      · rw [← ht, natDigits_natChars]
        simp only [Prod.mk.injEq]
        exact ⟨by omega, trivial⟩

theorem parseNumAfterSign_natChars (neg : Bool) (n : Nat) (e : Int) (r : List Char)
    (hnum : numTailOk r) :
    parseNumAfterSign neg (natChars n ++ (if e = 0 then r else 'e' :: (intChars e ++ r))) =
      some (.num (if neg then -(n : Int) else (n : Int)) e, r) := by
  have hrd : ∀ c, r.head? = some c → c.isDigit = false :=
    fun c hc => (numTailOk_head hnum c hc).1
  by_cases he : e = 0
  · subst he
    rw [if_pos rfl]
    unfold parseNumAfterSign
    rw [parseIntPart_natChars n r hrd]
    have hfr : parseFrac r = ([], r) :=
      parseFrac_sep r (fun c hc => (numTailOk_head hnum c hc).2.1)
    have hex : parseExp r = (0, r) :=
      parseExp_sep r (fun c hc => ⟨(numTailOk_head hnum c hc).2.2.1,
        (numTailOk_head hnum c hc).2.2.2⟩)
    dsimp only
    rw [hfr]
    dsimp only
    rw [hex]
    simp [natDigits_natChars]
  · rw [if_neg he]
    unfold parseNumAfterSign
    rw [parseIntPart_natChars n ('e' :: (intChars e ++ r)) (fun c hc => by
      simp only [List.head?_cons, Option.some.injEq] at hc
      rw [← hc]
      decide)]
    have hfr : parseFrac ('e' :: (intChars e ++ r)) = ([], 'e' :: (intChars e ++ r)) :=
      parseFrac_sep _ (fun c hc => by
        simp only [List.head?_cons, Option.some.injEq] at hc
        rw [← hc]
        decide)
    dsimp only
    rw [hfr]
    dsimp only
    rw [parseExp_ser e r hrd]
    simp [natDigits_natChars]

/-- Completeness of the number scan on the canonical form: exactly the
serialized digits are consumed and the value is recovered. -/
theorem parseNumber_ser (m e : Int) (r : List Char) (hnum : numTailOk r) :
    parseNumber (serNum m e ++ r) = some (.num m e, r) := by
  have hser : serNum m e ++ r =
      intChars m ++ (if e = 0 then r else 'e' :: (intChars e ++ r)) := by
    unfold serNum
    by_cases he : e = 0
    · rw [if_pos he, if_pos he]
    · rw [if_neg he, if_neg he]
      simp
  rw [hser]
  by_cases hm : m < 0
  · have hic : intChars m = '-' :: natChars m.natAbs := by rw [intChars, if_pos hm]
    rw [hic, List.cons_append]
    unfold parseNumber
    rw [if_pos (by simp)]
    rw [List.tail_cons]
    rw [parseNumAfterSign_natChars true m.natAbs e r hnum]
    have hma : -((m.natAbs : Int)) = m := by omega
    rw [if_pos rfl, hma]
  · have hic : intChars m = natChars m.toNat := by rw [intChars, if_neg hm]
    rw [hic]
    obtain ⟨d, t, ht, hd9, _⟩ := natChars_cons m.toNat
    obtain ⟨_, _, _, _, _, _, _, _, _, _, _, _, hmns, _⟩ :=
      isDigit_class _ (digitChar_isDigit d hd9)
    unfold parseNumber
    rw [ht, List.cons_append]
    rw [if_neg (by
      simp only [List.head?_cons, Option.some.injEq]
      exact fun h => hmns h)]
    rw [← List.cons_append, ← ht]
    rw [parseNumAfterSign_natChars false m.toNat e r hnum]
    have hma : ((m.toNat : Int)) = m := by omega
    rw [if_neg Bool.false_ne_true, hma]

/-! ## Stage 3: keyword and string completeness -/

theorem kwPrefix_append (kw r : List Char) : kwPrefix kw (kw ++ r) = some r := by
  induction kw with
  | nil => rfl
  | cons k ks ih => simp [kwPrefix, ih]

/-- A strict prefix of a keyword never matches it. -/
theorem kwPrefix_prefix_none (kw p q : List Char) (h : kw = p ++ q) (hq : q ≠ []) :
    kwPrefix kw p = none := by
  induction p generalizing kw with
  | nil =>
    rw [h]
    simp only [List.nil_append]
    cases q with
    | nil => exact absurd rfl hq
    | cons c t => rfl
  | cons c p ih =>
    rw [h]
    simp only [List.cons_append, kwPrefix, if_pos rfl]
    exact ih (p ++ q) rfl

theorem skipWs_nonws {c : Char} (t : List Char) (h : isJsonWs c = false) :
    skipWs (c :: t) = c :: t := by
  unfold skipWs
  rw [List.dropWhile_cons, if_neg (by simp [h])]

theorem hexVal_hexDigit (n : Nat) (h : n < 16) : hexVal (hexDigit n) = some n := by
  interval_cases n <;> decide

theorem escChars_append (a b : List Char) :
    escChars (a ++ b) = escChars a ++ escChars b := by
  induction a with
  | nil => rfl
  | cons c t ih => simp [escChars, ih]

/-- Completeness of the string scan on the canonical escaped form: the
decoded characters are exactly the original ones and scanning stops at
the closing quote. -/
theorem parseStringRest_ser (s : List Char) : ∀ (acc r : List Char),
    parseStringRest acc (escChars s ++ '"' :: r) = some (String.mk (acc ++ s), r) := by
  induction s with
  | nil =>
    intro acc r
    rw [show escChars [] ++ '"' :: r = '"' :: r from rfl, parseStringRest_eq]
    simp
  | cons c cs ih =>
    intro acc r
    have hsplit : escChars (c :: cs) ++ '"' :: r = escChar c ++ (escChars cs ++ '"' :: r) := by
      show (escChar c ++ escChars cs) ++ '"' :: r = _
      rw [List.append_assoc]
    rw [hsplit]
    by_cases hq : c = '"'
    · subst hq
      rw [show escChar '"' = ['\\', '"'] from rfl]
      rw [show (['\\', '"'] : List Char) ++ (escChars cs ++ '"' :: r) =
        '\\' :: '"' :: (escChars cs ++ '"' :: r) from rfl]
      rw [parseStringRest_eq]
      dsimp only
      rw [if_neg (by decide), if_pos rfl, if_neg (by decide)]
      rw [show escMap '"' = some '"' from rfl]
      dsimp only
      rw [ih (acc ++ ['"']) r]
      rw [List.append_assoc]
      rfl
    · by_cases hb : c = '\\'
      · subst hb
        rw [show escChar '\\' = ['\\', '\\'] from rfl]
        rw [show (['\\', '\\'] : List Char) ++ (escChars cs ++ '"' :: r) =
          '\\' :: '\\' :: (escChars cs ++ '"' :: r) from rfl]
        rw [parseStringRest_eq]
        dsimp only
        rw [if_neg (by decide), if_pos rfl, if_neg (by decide)]
        rw [show escMap '\\' = some '\\' from rfl]
        dsimp only
        rw [ih (acc ++ ['\\']) r]
        rw [List.append_assoc]
        rfl
      · by_cases hctl : c.toNat < 0x20
        · have hesc : escChar c =
              ['\\', 'u', '0', '0', hexDigit (c.toNat / 16), hexDigit (c.toNat % 16)] := by
            unfold escChar
            rw [if_neg hq, if_neg hb, if_pos hctl]
          rw [hesc]
          rw [show (['\\', 'u', '0', '0', hexDigit (c.toNat / 16), hexDigit (c.toNat % 16)] :
              List Char) ++ (escChars cs ++ '"' :: r) =
            '\\' :: 'u' :: '0' :: '0' :: hexDigit (c.toNat / 16) :: hexDigit (c.toNat % 16) ::
              (escChars cs ++ '"' :: r) from rfl]
          rw [parseStringRest_eq]
          dsimp only
          rw [if_neg (by decide), if_pos rfl, if_pos rfl]
          rw [show ('0' :: '0' :: hexDigit (c.toNat / 16) :: hexDigit (c.toNat % 16) ::
              (escChars cs ++ '"' :: r)).take 4 =
            ['0', '0', hexDigit (c.toNat / 16), hexDigit (c.toNat % 16)] from rfl]
          rw [show ('0' :: '0' :: hexDigit (c.toNat / 16) :: hexDigit (c.toNat % 16) ::
              (escChars cs ++ '"' :: r)).drop 4 = escChars cs ++ '"' :: r from rfl]
          unfold hexVal4
          dsimp only
          rw [show hexVal '0' = some 0 from rfl,
            hexVal_hexDigit (c.toNat / 16) (by omega),
            hexVal_hexDigit (c.toNat % 16) (by omega)]
          dsimp only
          rw [show ((0 * 16 + 0) * 16 + c.toNat / 16) * 16 + c.toNat % 16 = c.toNat from by
            omega]
          rw [if_neg (by omega), if_neg (by omega)]
          rw [Char.ofNat_toNat, ih (acc ++ [c]) r, List.append_assoc]
          rfl
        · have hesc : escChar c = [c] := by
            unfold escChar
            rw [if_neg hq, if_neg hb, if_neg hctl]
          rw [hesc]
          rw [show ([c] : List Char) ++ (escChars cs ++ '"' :: r) =
            c :: (escChars cs ++ '"' :: r) from rfl]
          rw [parseStringRest_eq]
          dsimp only
          rw [if_neg hq, if_neg hb, if_neg hctl]
          rw [ih (acc ++ [c]) r, List.append_assoc]
          rfl

/-! ## Stage 4: completeness of the value scanner on canonical text -/

/-- Member text of a nonempty field list after the opening quote of the
first key. -/
def membersText : List (String × Json) → List Char
  | [] => []
  | [(k, v)] => escChars k.data ++ '"' :: ':' :: serJ v
  | (k, v) :: m :: fs =>
    escChars k.data ++ '"' :: ':' :: (serJ v ++ ',' :: '"' :: membersText (m :: fs))

theorem serFields_eq : ∀ (p : String × Json) (fs : List (String × Json)),
    serFields (p :: fs) = '"' :: membersText (p :: fs) := by
  intro p fs
  induction fs generalizing p with
  | nil =>
    obtain ⟨k, v⟩ := p
    show serStr k ++ ':' :: serJ v = _
    unfold serStr membersText
    simp
  | cons m fs ih =>
    obtain ⟨k, v⟩ := p
    show serStr k ++ (':' :: serJ v) ++ (',' :: serFields (m :: fs)) = _
    rw [ih m]
    unfold serStr membersText
    simp
    exact (membersText.eq_def _).symm

theorem serNum_cons (m e : Int) :
    ∃ c t, serNum m e = c :: t ∧ (c = '-' ∨ c.isDigit = true) := by
  have hint : ∃ c t, intChars m = c :: t ∧ (c = '-' ∨ c.isDigit = true) := by
    by_cases hm : m < 0
    · exact ⟨'-', natChars m.natAbs, by rw [intChars, if_pos hm], Or.inl rfl⟩
    · obtain ⟨d, t, ht, hd9, _⟩ := natChars_cons m.toNat
      exact ⟨digitChar d, t, by rw [intChars, if_neg hm, ht],
        Or.inr (digitChar_isDigit d hd9)⟩
  obtain ⟨c, t, ht, hc⟩ := hint
  unfold serNum
  by_cases he : e = 0
  · exact ⟨c, t, by rw [if_pos he, ht], hc⟩
  · exact ⟨c, t ++ 'e' :: intChars e, by rw [if_neg he, ht, List.cons_append], hc⟩

theorem serJ_head (v : Json) :
    ∃ c t, serJ v = c :: t ∧ isJsonWs c = false ∧ c ≠ ']' ∧ c ≠ ',' ∧ c ≠ '\x7d' := by
  cases v with
  | null => exact ⟨'n', _, rfl, by decide, by decide, by decide, by decide⟩
  | bool b =>
    cases b with
    | true => exact ⟨'t', _, rfl, by decide, by decide, by decide, by decide⟩
    | false => exact ⟨'f', _, rfl, by decide, by decide, by decide, by decide⟩
  | num m e =>
    obtain ⟨c, t, ht, hc⟩ := serNum_cons m e
    refine ⟨c, t, ht, ?_⟩
    rcases hc with hc | hc
    · subst hc
      exact ⟨by decide, by decide, by decide, by decide⟩
    · obtain ⟨h1, _, _, h4, h5, h6, _⟩ := isDigit_class c hc
      exact ⟨h1, h4, h6, h5⟩
  | str s => exact ⟨'"', _, rfl, by decide, by decide, by decide, by decide⟩
  | arr xs => exact ⟨'[', _, rfl, by decide, by decide, by decide, by decide⟩
  | obj fs => exact ⟨'\x7b', _, rfl, by decide, by decide, by decide, by decide⟩

theorem serJ_length_pos (v : Json) : 1 ≤ (serJ v).length := by
  obtain ⟨c, t, ht, _⟩ := serJ_head v
  rw [ht]
  simp

/-- Values are never numbers at positions where no separator follows. -/
def delimJ : Json → Bool
  | .num _ _ => false
  | _ => true

theorem membersText_length (k : String) (v : Json) (fs : List (String × Json)) :
    (serJ v).length + 2 ≤ (membersText ((k, v) :: fs)).length ∧
    (fs ≠ [] →
      (membersText fs).length + (serJ v).length + 4 ≤ (membersText ((k, v) :: fs)).length) := by
  cases fs with
  | nil =>
    refine ⟨?_, fun h => absurd rfl h⟩
    show _ ≤ (escChars k.data ++ '"' :: ':' :: serJ v).length
    simp [List.length_append]
  | cons m more =>
    constructor
    · show _ ≤ (escChars k.data ++ '"' :: ':' :: (serJ v ++ ',' :: '"' ::
        membersText (m :: more))).length
      simp [List.length_append]
      omega
    · intro _
      show _ ≤ (escChars k.data ++ '"' :: ':' :: (serJ v ++ ',' :: '"' ::
        membersText (m :: more))).length
      simp [List.length_append]
      omega

theorem serItems_length_cons (x y : Json) (xs : List Json) :
    (serItems (x :: y :: xs)).length = (serJ x).length + 1 + (serItems (y :: xs)).length := by
  show (serJ x ++ ',' :: serItems (y :: xs)).length = _
  simp [List.length_append]
  omega

/-- Completeness of the fueled scanner on canonically serialized values:
with enough fuel, scanning the serialization followed by any admissible
continuation succeeds and consumes exactly the serialization. -/
theorem parse_ser : ∀ f : Nat,
    (∀ v r, (numTailOk r ∨ delimJ v = true) → 3 * (serJ v).length ≤ f →
      parseValue f (serJ v ++ r) = some (v, r)) ∧
    (∀ fs r, 3 * (serFields fs).length + 2 ≤ f →
      parseObjBody f (serFields fs ++ '\x7d' :: r) = some (.obj fs, r)) ∧
    (∀ fs acc r, fs ≠ [] → 3 * (membersText fs).length ≤ f →
      parseMembers f (membersText fs ++ '\x7d' :: r) acc = some (.obj (acc ++ fs), r)) ∧
    (∀ xs r, 3 * (serItems xs).length + 2 ≤ f →
      parseArrBody f (serItems xs ++ ']' :: r) = some (.arr xs, r)) ∧
    (∀ xs acc r, xs ≠ [] → 3 * (serItems xs).length + 1 ≤ f →
      parseItems f (serItems xs ++ ']' :: r) acc = some (.arr (acc ++ xs), r)) := by
  intro f
  induction f using Nat.strong_induction_on with
  | _ f ih =>
  refine ⟨?_, ?_, ?_, ?_, ?_⟩
  · -- parseValue
    intro v r hvr hf
    have hv1 := serJ_length_pos v
    cases f with
    | zero => omega
    | succ fp =>
    cases v with
    | null =>
      show parseValue (fp + 1) ('n' :: ('u' :: 'l' :: 'l' :: r)) = some (.null, r)
      rw [parseValue_succ]
      rw [if_neg (by decide), if_neg (by decide), if_neg (by decide), if_pos rfl]
      rw [show ('u' :: 'l' :: 'l' :: r) = ['u', 'l', 'l'] ++ r from rfl, kwPrefix_append]
      rfl
    | bool b =>
      cases b with
      | true =>
        show parseValue (fp + 1) ('t' :: ('r' :: 'u' :: 'e' :: r)) = some (.bool true, r)
        rw [parseValue_succ]
        rw [if_neg (by decide), if_neg (by decide), if_neg (by decide), if_neg (by decide),
          if_pos rfl]
        rw [show ('r' :: 'u' :: 'e' :: r) = ['r', 'u', 'e'] ++ r from rfl, kwPrefix_append]
        rfl
      | false =>
        show parseValue (fp + 1) ('f' :: ('a' :: 'l' :: 's' :: 'e' :: r)) =
          some (.bool false, r)
        rw [parseValue_succ]
        rw [if_neg (by decide), if_neg (by decide), if_neg (by decide), if_neg (by decide),
          if_neg (by decide), if_pos rfl]
        rw [show ('a' :: 'l' :: 's' :: 'e' :: r) = ['a', 'l', 's', 'e'] ++ r from rfl,
          kwPrefix_append]
        rfl
    | num m e =>
      have hnum : numTailOk r := by
        rcases hvr with h | h
        · exact h
        · exact absurd h (by simp [delimJ])
      obtain ⟨c, t, hct, hc⟩ := serNum_cons m e
      show parseValue (fp + 1) (serNum m e ++ r) = some (.num m e, r)
      rw [hct, List.cons_append, parseValue_succ]
      rcases hc with hc | hc
      · subst hc
        rw [if_neg (by decide), if_neg (by decide), if_neg (by decide), if_neg (by decide),
          if_neg (by decide), if_neg (by decide), if_pos (Or.inl rfl)]
        rw [← List.cons_append, ← hct]
        exact parseNumber_ser m e r hnum
      · obtain ⟨_, _, _, _, _, _, h7, h8, h9, h10, h11, h12, _⟩ := isDigit_class c hc
        rw [if_neg h7, if_neg h8, if_neg h9, if_neg h10, if_neg h11, if_neg h12,
          if_pos (Or.inr hc)]
        rw [← List.cons_append, ← hct]
        exact parseNumber_ser m e r hnum
    | str s =>
      show parseValue (fp + 1) ('"' :: ((escChars s.data ++ ['"']) ++ r)) = some (.str s, r)
      rw [show (escChars s.data ++ ['"']) ++ r = escChars s.data ++ '"' :: r from by simp]
      rw [parseValue_succ, if_pos rfl, parseStringRest_ser s.data [] r]
      rfl
    | arr xs =>
      have hlen : (serJ (.arr xs)).length = (serItems xs).length + 2 := by
        show ('[' :: (serItems xs ++ [']'])).length = _
        simp
      show parseValue (fp + 1) ('[' :: ((serItems xs ++ [']']) ++ r)) = some (.arr xs, r)
      rw [show (serItems xs ++ [']']) ++ r = serItems xs ++ ']' :: r from by simp]
      rw [parseValue_succ, if_neg (by decide), if_neg (by decide), if_pos rfl]
      exact (ih fp (by omega)).2.2.2.1 xs r (by omega)
    | obj fs =>
      have hlen : (serJ (.obj fs)).length = (serFields fs).length + 2 := by
        show ('\x7b' :: (serFields fs ++ ['\x7d'])).length = _
        simp
      show parseValue (fp + 1) ('\x7b' :: ((serFields fs ++ ['\x7d']) ++ r)) =
        some (.obj fs, r)
      rw [show (serFields fs ++ ['\x7d']) ++ r = serFields fs ++ '\x7d' :: r from by simp]
      rw [parseValue_succ, if_neg (by decide), if_pos rfl]
      exact (ih fp (by omega)).2.1 fs r (by omega)
  · -- parseObjBody
    intro fs r hf
    cases f with
    | zero => omega
    | succ fp =>
    cases fs with
    | nil =>
      show parseObjBody (fp + 1) ('\x7d' :: r) = some (.obj [], r)
      rw [parseObjBody_succ, skipWs_nonws r (by decide)]
      rfl
    | cons p fs2 =>
      have hsf := serFields_eq p fs2
      have hsfl : (serFields (p :: fs2)).length = (membersText (p :: fs2)).length + 1 := by
        rw [hsf]
        simp
      rw [hsf, List.cons_append, parseObjBody_succ,
        skipWs_nonws (membersText (p :: fs2) ++ '\x7d' :: r) (by decide)]
      show parseMembers fp (membersText (p :: fs2) ++ '\x7d' :: r) [] = _
      rw [(ih fp (by omega)).2.2.1 (p :: fs2) [] r (by simp) (by omega)]
      simp
  · -- parseMembers
    intro fs acc r hne hf
    cases fs with
    | nil => exact absurd rfl hne
    | cons p fs2 =>
    obtain ⟨k, v⟩ := p
    have hmtl := membersText_length k v fs2
    have hv1 := serJ_length_pos v
    cases f with
    | zero => omega
    | succ fp =>
    cases fs2 with
    | nil =>
      have hshape : membersText [(k, v)] ++ '\x7d' :: r =
          escChars k.data ++ '"' :: (':' :: (serJ v ++ '\x7d' :: r)) := by
        show (escChars k.data ++ '"' :: ':' :: serJ v) ++ '\x7d' :: r = _
        simp
      rw [hshape, parseMembers_succ, parseStringRest_ser k.data [] _]
      dsimp only
      rw [skipWs_nonws _ (by decide)]
      split
      · rename_i r2 heq
        injection heq with _ h2
        subst h2
        obtain ⟨c, t, hct, hnws, _⟩ := serJ_head v
        rw [hct, List.cons_append, skipWs_nonws _ hnws, ← List.cons_append, ← hct]
        rw [(ih fp (by omega)).1 v ('\x7d' :: r) (Or.inl (Or.inr rfl)) (by omega)]
        dsimp only
        rw [skipWs_nonws _ (by decide)]
        split
        · rename_i r4 heq2
          injection heq2 with _ h4
          subst h4
          rfl
        · rename_i r4 heq2
          injection heq2 with h3 _
          exact absurd h3 (by decide)
        · rename_i h1 h2
          exact absurd rfl (h1 r)
      · rename_i hnm
        exact absurd rfl (hnm _)
    | cons pm fs3 =>
      obtain ⟨mtl1, mtl2⟩ := membersText_length pm.1 pm.2 fs3
      have hshape : membersText ((k, v) :: pm :: fs3) ++ '\x7d' :: r =
          escChars k.data ++ '"' :: (':' :: (serJ v ++ ',' :: '"' ::
            (membersText (pm :: fs3) ++ '\x7d' :: r))) := by
        show (escChars k.data ++ '"' :: ':' :: (serJ v ++ ',' :: '"' ::
          membersText (pm :: fs3))) ++ '\x7d' :: r = _
        simp
      rw [hshape, parseMembers_succ, parseStringRest_ser k.data [] _]
      dsimp only
      rw [skipWs_nonws _ (by decide)]
      split
      · rename_i r2 heq
        injection heq with _ h2
        subst h2
        obtain ⟨c, t, hct, hnws, _⟩ := serJ_head v
        rw [hct, List.cons_append, skipWs_nonws _ hnws, ← List.cons_append, ← hct]
        rw [(ih fp (by omega)).1 v (',' :: '"' :: (membersText (pm :: fs3) ++ '\x7d' :: r))
          (Or.inl (Or.inr rfl)) (by
            have := (hmtl.2 (by simp))
            omega)]
        dsimp only
        rw [skipWs_nonws _ (by decide)]
        split
        · rename_i r4 heq2
          injection heq2 with h3 _
          exact absurd h3 (by decide)
        · rename_i r4 heq2
          injection heq2 with _ h4
          subst h4
          rw [skipWs_nonws _ (by decide)]
          split
          · rename_i r5 heq3
            injection heq3 with _ h5
            subst h5
            rw [show String.mk ([] ++ k.data) = k from rfl]
            rw [(ih fp (by omega)).2.2.1 (pm :: fs3) (acc ++ [(k, v)]) r (by simp) (by
              have := (hmtl.2 (by simp))
              omega)]
            rw [List.append_assoc]
            rfl
          · rename_i hnm
            exact absurd rfl (hnm _)
        · rename_i h1 h2
          exact absurd rfl (h2 _)
      · rename_i hnm
        exact absurd rfl (hnm _)
  · -- parseArrBody
    intro xs r hf
    cases f with
    | zero => omega
    | succ fp =>
    cases xs with
    | nil =>
      show parseArrBody (fp + 1) (']' :: r) = some (.arr [], r)
      rw [parseArrBody_succ, skipWs_nonws r (by decide)]
      rfl
    | cons x xs2 =>
      obtain ⟨c, t, hct, hnws, hnrb, _⟩ := serJ_head x
      have hsi : ∃ t2, serItems (x :: xs2) = c :: t2 := by
        cases xs2 with
        | nil => exact ⟨t, hct⟩
        | cons y ys =>
          refine ⟨t ++ ',' :: serItems (y :: ys), ?_⟩
          show serJ x ++ ',' :: serItems (y :: ys) = _
          rw [hct, List.cons_append]
      obtain ⟨t2, ht2⟩ := hsi
      rw [parseArrBody_succ, ht2, List.cons_append, skipWs_nonws _ hnws]
      split
      · rename_i r2 heq
        injection heq with h1 _
        exact absurd h1 hnrb
      · rename_i hne2
        rw [← List.cons_append, ← ht2]
        exact (ih fp (by omega)).2.2.2.2 (x :: xs2) [] r (by simp) (by omega)
  · -- parseItems
    intro xs acc r hne hf
    cases xs with
    | nil => exact absurd rfl hne
    | cons x xs2 =>
    have hx1 := serJ_length_pos x
    cases f with
    | zero =>
      exfalso
      cases xs2 with
      | nil =>
        have : (serItems [x]).length = (serJ x).length := rfl
        omega
      | cons y ys =>
        have := serItems_length_cons x y ys
        omega
    | succ fp =>
    cases xs2 with
    | nil =>
      have hlen : (serItems [x]).length = (serJ x).length := rfl
      show parseItems (fp + 1) (serJ x ++ ']' :: r) acc = some (.arr (acc ++ [x]), r)
      rw [parseItems_succ]
      rw [(ih fp (by omega)).1 x (']' :: r) (Or.inl (Or.inr rfl)) (by omega)]
      dsimp only
      rw [skipWs_nonws _ (by decide)]
      rfl
    | cons y ys =>
      have hlen := serItems_length_cons x y ys
      have hy1 := serJ_length_pos y
      have hshape : serItems (x :: y :: ys) ++ ']' :: r =
          serJ x ++ (',' :: (serItems (y :: ys) ++ ']' :: r)) := by
        show (serJ x ++ ',' :: serItems (y :: ys)) ++ ']' :: r = _
        simp
      rw [hshape, parseItems_succ]
      rw [(ih fp (by omega)).1 x (',' :: (serItems (y :: ys) ++ ']' :: r))
        (Or.inl (Or.inr rfl)) (by omega)]
      dsimp only
      rw [skipWs_nonws _ (by decide)]
      split
      · rename_i r2 heq
        injection heq with h3 _
        exact absurd h3 (by decide)
      · rename_i r2 heq
        injection heq with _ h2
        subst h2
        obtain ⟨c, t, hct, hnws, _⟩ := serJ_head y
        have hsi : ∃ t2, serItems (y :: ys) = c :: t2 := by
          cases ys with
          | nil => exact ⟨t, hct⟩
          | cons z zs =>
            refine ⟨t ++ ',' :: serItems (z :: zs), ?_⟩
            show serJ y ++ ',' :: serItems (z :: zs) = _
            rw [hct, List.cons_append]
        obtain ⟨t2, ht2⟩ := hsi
        rw [ht2, List.cons_append, skipWs_nonws _ hnws, ← List.cons_append, ← ht2]
        rw [(ih fp (by omega)).2.2.2.2 (y :: ys) (acc ++ [x]) r (by simp) (by omega)]
        rw [List.append_assoc]
        rfl
      · rename_i h1 h2
        exact absurd rfl (h2 _)

/-- Top-level completeness: raw_decode on a canonical serialization
followed by an admissible continuation returns the value and the
continuation. -/
theorem rawDecode_ser (v : Json) (r : List Char) (h : numTailOk r ∨ delimJ v = true) :
    rawDecode (serJ v ++ r) = some (v, r) := by
  unfold rawDecode
  refine (parse_ser _).1 v r h ?_
  have := serJ_length_pos v
  simp only [List.length_append]
  omega

/-! ## Stage 5: failure of the scanner on strict prefixes -/

theorem parseValue_nil_none : ∀ f, parseValue f [] = none
  | 0 => rfl
  | _ + 1 => rfl

theorem parseObjBody_nil_none : ∀ f, parseObjBody f [] = none
  | 0 => rfl
  | _ + 1 => rfl

theorem parseMembers_nil_none : ∀ f acc, parseMembers f [] acc = none
  | 0, _ => rfl
  | _ + 1, _ => rfl

theorem parseItems_nil_none : ∀ f acc, parseItems f [] acc = none
  | 0, _ => rfl
  | f + 1, acc => by
    rw [parseItems_succ, parseValue_nil_none f]

theorem parseArrBody_nil_none : ∀ f, parseArrBody f [] = none
  | 0 => rfl
  | f + 1 => by
    rw [parseArrBody_succ]
    show parseItems f [] [] = none
    exact parseItems_nil_none f []

theorem hexVal4_not4 : ∀ {l : List Char}, l.length ≠ 4 → hexVal4 l = none
  | [], _ => rfl
  | [_], _ => rfl
  | [_, _], _ => rfl
  | [_, _, _], _ => rfl
  | [_, _, _, _], h => absurd rfl h
  | _ :: _ :: _ :: _ :: _ :: _, _ => rfl

theorem intChars_chars (m : Int) : ∀ c ∈ intChars m, c.isDigit = true ∨ c = '-' := by
  unfold intChars
  split
  · intro c hc
    rcases List.mem_cons.mp hc with h | h
    · exact Or.inr h
    · exact Or.inl (natChars_all_digits _ c h)
  · intro c hc
    exact Or.inl (natChars_all_digits _ c hc)

theorem serNum_chars (m e : Int) :
    ∀ c ∈ serNum m e, c.isDigit = true ∨ c = '-' ∨ c = 'e' := by
  unfold serNum
  split
  · intro c hc
    rcases intChars_chars m c hc with h | h
    · exact Or.inl h
    · exact Or.inr (Or.inl h)
  · intro c hc
    rcases List.mem_append.mp hc with h | h
    · rcases intChars_chars m c h with h2 | h2
      · exact Or.inl h2
      · exact Or.inr (Or.inl h2)
    · rcases List.mem_cons.mp h with h2 | h2
      · exact Or.inr (Or.inr h2)
      · rcases intChars_chars e c h2 with h3 | h3
        · exact Or.inl h3
        · exact Or.inr (Or.inl h3)

/-- Scanning any nonempty prefix of a serialized number either fails or
leaves a remainder made of number characters only. -/
theorem numPrefix_parse (f : Nat) (m e : Int) (p q : List Char)
    (h : serNum m e = p ++ q) (hp : p ≠ []) :
    parseValue f p = none ∨ ∃ x rr, parseValue f p = some (x, rr) ∧
      (∀ c, rr.head? = some c → (c.isDigit = true ∨ c = '-' ∨ c = 'e')) := by
  cases f with
  | zero => exact Or.inl rfl
  | succ fp =>
  obtain ⟨c, t, hct, hc⟩ := serNum_cons m e
  cases p with
  | nil => exact absurd rfl hp
  | cons ph pt =>
  have hph : ph = c := by
    rw [hct, List.cons_append] at h
    exact ((List.cons.injEq _ _ _ _ ▸ h).1).symm
  have hcph : ph = '-' ∨ ph.isDigit = true := by
    rw [hph]
    rcases hc with hh | hh
    · exact Or.inl hh
    · exact Or.inr hh
  have heq : parseValue (fp + 1) (ph :: pt) = parseNumber (ph :: pt) := by
    rcases hcph with hh | hh
    · rw [parseValue_succ, hh]
      rw [if_neg (by decide), if_neg (by decide), if_neg (by decide), if_neg (by decide),
        if_neg (by decide), if_neg (by decide), if_pos (Or.inl rfl)]
    · obtain ⟨_, _, _, _, _, _, h7, h8, h9, h10, h11, h12, _⟩ := isDigit_class ph hh
      rw [parseValue_succ, if_neg h7, if_neg h8, if_neg h9, if_neg h10, if_neg h11,
        if_neg h12, if_pos (Or.inr hh)]
  cases hpn : parseNumber (ph :: pt) with
  | none => exact Or.inl (heq.trans hpn)
  | some res =>
    obtain ⟨x, rr⟩ := res
    refine Or.inr ⟨x, rr, heq.trans hpn, ?_⟩
    intro cc hcc
    have hmem : cc ∈ rr := by
      cases rr with
      | nil => simp at hcc
      | cons a b =>
        simp only [List.head?_cons, Option.some.injEq] at hcc
        subst hcc
        exact List.mem_cons_self _ _
    have hsfx : rr <:+ ph :: pt := (parseNumber_consumed _ x rr hpn).1
    have hmem2 : cc ∈ serNum m e := by
      rw [h]
      exact List.mem_append_left q (hsfx.subset hmem)
    exact serNum_chars m e cc hmem2

/-- Scanning a strict prefix of an escaped string body fails: the closing
quote is missing. -/
theorem parseStringRest_prefix_none (s : List Char) : ∀ (p q acc : List Char),
    escChars s ++ ['"'] = p ++ q → q ≠ [] → parseStringRest acc p = none := by
  induction s with
  | nil =>
    intro p q acc h hq
    cases p with
    | nil => rfl
    | cons ph pt =>
      simp only [escChars, List.nil_append, List.cons_append, List.cons.injEq] at h
      obtain ⟨_, h2⟩ := h
      obtain ⟨h3, h4⟩ := List.append_eq_nil.mp h2.symm
      exact absurd h4 hq
  | cons c cs ih =>
    intro p q acc h hq
    have hsplit : escChar c ++ (escChars cs ++ ['"']) = p ++ q := by
      rw [← h]
      show _ = (escChar c ++ escChars cs) ++ ['"']
      rw [List.append_assoc]
    by_cases hq2 : c = '"'
    · subst hq2
      rw [show escChar '"' = ['\\', '"'] from rfl] at hsplit
      cases p with
      | nil => rfl
      | cons p1 pt =>
        simp only [List.cons_append, List.cons.injEq] at hsplit
        obtain ⟨hp1, hrest⟩ := hsplit
        subst hp1
        cases pt with
        | nil =>
          rw [parseStringRest_eq]
          rfl
        | cons p2 pt2 =>
          simp only [List.cons_append, List.cons.injEq] at hrest
          obtain ⟨hp2, hrest2⟩ := hrest
          subst hp2
          rw [parseStringRest_eq]
          dsimp only
          rw [if_neg (by decide), if_pos rfl, if_neg (by decide)]
          rw [show escMap '"' = some '"' from rfl]
          dsimp only
          exact ih pt2 q (acc ++ ['"']) hrest2 hq
    · by_cases hb : c = '\\'
      · subst hb
        rw [show escChar '\\' = ['\\', '\\'] from rfl] at hsplit
        cases p with
        | nil => rfl
        | cons p1 pt =>
          simp only [List.cons_append, List.cons.injEq] at hsplit
          obtain ⟨hp1, hrest⟩ := hsplit
          subst hp1
          cases pt with
          | nil =>
            rw [parseStringRest_eq]
            rfl
          | cons p2 pt2 =>
            simp only [List.cons_append, List.cons.injEq] at hrest
            obtain ⟨hp2, hrest2⟩ := hrest
            subst hp2
            rw [parseStringRest_eq]
            dsimp only
            rw [if_neg (by decide), if_pos rfl, if_neg (by decide)]
            rw [show escMap '\\' = some '\\' from rfl]
            dsimp only
            exact ih pt2 q (acc ++ ['\\']) hrest2 hq
      · by_cases hctl : c.toNat < 0x20
        · have hesc : escChar c =
              ['\\', 'u', '0', '0', hexDigit (c.toNat / 16), hexDigit (c.toNat % 16)] := by
            unfold escChar
            rw [if_neg hq2, if_neg hb, if_pos hctl]
          rw [hesc] at hsplit
          cases p with
          | nil => rfl
          | cons p1 pt =>
            simp only [List.cons_append, List.cons.injEq] at hsplit
            obtain ⟨hp1, hrest⟩ := hsplit
            subst hp1
            cases pt with
            | nil =>
              rw [parseStringRest_eq]
              rfl
            | cons p2 pt2 =>
              simp only [List.cons_append, List.cons.injEq] at hrest
              obtain ⟨hp2, hrest2⟩ := hrest
              subst hp2
              rw [parseStringRest_eq]
              dsimp only
              rw [if_neg (by decide), if_pos rfl, if_pos rfl]
              cases pt2 with
              | nil =>
                rw [hexVal4_not4 (by simp)]
              | cons p3 pt3 =>
                simp only [List.cons_append, List.cons.injEq] at hrest2
                obtain ⟨hp3, hrest3⟩ := hrest2
                subst hp3
                cases pt3 with
                | nil =>
                  rw [hexVal4_not4 (by simp)]
                | cons p4 pt4 =>
                  simp only [List.cons_append, List.cons.injEq] at hrest3
                  obtain ⟨hp4, hrest4⟩ := hrest3
                  subst hp4
                  cases pt4 with
                  | nil =>
                    rw [hexVal4_not4 (by decide)]
                  | cons p5 pt5 =>
                    simp only [List.cons_append, List.cons.injEq] at hrest4
                    obtain ⟨hp5, hrest5⟩ := hrest4
                    subst hp5
                    cases pt5 with
                    | nil =>
                      rw [hexVal4_not4 (by simp)]
                    | cons p6 pt6 =>
                      simp only [List.cons_append, List.cons.injEq] at hrest5
                      obtain ⟨hp6, hrest6⟩ := hrest5
                      subst hp6
                      rw [show ('0' :: '0' :: hexDigit (c.toNat / 16) ::
                          hexDigit (c.toNat % 16) :: pt6).take 4 =
                        ['0', '0', hexDigit (c.toNat / 16), hexDigit (c.toNat % 16)] from rfl]
                      rw [show ('0' :: '0' :: hexDigit (c.toNat / 16) ::
                          hexDigit (c.toNat % 16) :: pt6).drop 4 = pt6 from rfl]
                      unfold hexVal4
                      dsimp only
                      rw [show hexVal '0' = some 0 from rfl,
                        hexVal_hexDigit (c.toNat / 16) (by omega),
                        hexVal_hexDigit (c.toNat % 16) (by omega)]
                      dsimp only
                      rw [show ((0 * 16 + 0) * 16 + c.toNat / 16) * 16 + c.toNat % 16 =
                        c.toNat from by omega]
                      rw [if_neg (by omega), if_neg (by omega)]
                      exact ih pt6 q (acc ++ [Char.ofNat c.toNat]) hrest6 hq
        · have hesc : escChar c = [c] := by
            unfold escChar
            rw [if_neg hq2, if_neg hb, if_neg hctl]
          rw [hesc] at hsplit
          cases p with
          | nil => rfl
          | cons p1 pt =>
            simp only [List.cons_append, List.cons.injEq] at hsplit
            obtain ⟨hp1, hrest⟩ := hsplit
            subst hp1
            rw [parseStringRest_eq]
            dsimp only
            rw [if_neg hq2, if_neg hb, if_neg hctl]
            exact ih pt q (acc ++ [c]) hrest hq

theorem serItems_cons_eq (x y : Json) (ys : List Json) :
    serItems (x :: y :: ys) = serJ x ++ ',' :: serItems (y :: ys) := rfl

/-- Scanning a strict prefix of a serialized value either fails outright
or leaves a remainder that cannot be followed by a container separator. -/
theorem valcut (f : Nat)
    (hPV2 : ∀ v p q, delimJ v = true → serJ v = p ++ q → p ≠ [] → q ≠ [] →
      3 * p.length ≤ f → parseValue f p = none)
    (v : Json) (a2 c2 : List Char) (h : serJ v = a2 ++ c2) (hc2 : c2 ≠ [])
    (hf : 3 * a2.length ≤ f) :
    parseValue f a2 = none ∨ ∃ x rr, parseValue f a2 = some (x, rr) ∧
      (∀ c, rr.head? = some c →
        isJsonWs c = false ∧ c ≠ '\x7d' ∧ c ≠ ',' ∧ c ≠ ']' ∧ c ≠ '"') := by
  by_cases ha : a2 = []
  · exact Or.inl (ha ▸ parseValue_nil_none f)
  · cases v with
    | num m e =>
      rcases numPrefix_parse f m e a2 c2 h ha with hn | ⟨x, rr, hx, hrr⟩
      · exact Or.inl hn
      · refine Or.inr ⟨x, rr, hx, ?_⟩
        intro c hcc
        rcases hrr c hcc with hd | hd | hd
        · obtain ⟨p1, _, _, p4, p5, p6, p7, _⟩ := isDigit_class c hd
          exact ⟨p1, p5, p6, p4, p7⟩
        · subst hd
          exact ⟨by decide, by decide, by decide, by decide, by decide⟩
        · subst hd
          exact ⟨by decide, by decide, by decide, by decide, by decide⟩
    | null => exact Or.inl (hPV2 .null a2 c2 rfl h ha hc2 hf)
    | bool b => exact Or.inl (hPV2 (.bool b) a2 c2 rfl h ha hc2 hf)
    | str s => exact Or.inl (hPV2 (.str s) a2 c2 rfl h ha hc2 hf)
    | arr xs => exact Or.inl (hPV2 (.arr xs) a2 c2 rfl h ha hc2 hf)
    | obj fs => exact Or.inl (hPV2 (.obj fs) a2 c2 rfl h ha hc2 hf)

/-- Failure of the scanner on strict prefixes of canonical text: a value
whose closing delimiter has not arrived never parses, so the extractor
keeps the partial buffer. -/
theorem parse_prefix_none : ∀ f : Nat,
    (∀ v p q, delimJ v = true → serJ v = p ++ q → p ≠ [] → q ≠ [] →
      3 * p.length ≤ f → parseValue f p = none) ∧
    (∀ fs p q, serFields fs ++ ['\x7d'] = p ++ q → q ≠ [] → 3 * p.length + 2 ≤ f →
      parseObjBody f p = none) ∧
    (∀ fs acc p q, fs ≠ [] → membersText fs ++ ['\x7d'] = p ++ q → q ≠ [] →
      3 * p.length ≤ f → parseMembers f p acc = none) ∧
    (∀ xs p q, serItems xs ++ [']'] = p ++ q → q ≠ [] → 3 * p.length + 2 ≤ f →
      parseArrBody f p = none) ∧
    (∀ xs acc p q, xs ≠ [] → serItems xs ++ [']'] = p ++ q → q ≠ [] →
      3 * p.length + 1 ≤ f → parseItems f p acc = none) := by
  intro f
  induction f using Nat.strong_induction_on with
  | _ f ih =>
  refine ⟨?_, ?_, ?_, ?_, ?_⟩
  · -- parseValue on strict prefixes of delimited values
    intro v p q hd h hp hq hf
    cases f with
    | zero => exact parseValue_zero p
    | succ fp =>
    cases p with
    | nil => exact absurd rfl hp
    | cons ph pt =>
    rw [List.cons_append] at h
    cases v with
    | num m e => simp [delimJ] at hd
    | null =>
      rw [show serJ Json.null = 'n' :: ['u', 'l', 'l'] from rfl] at h
      injection h with h1 h2
      subst h1
      rw [parseValue_succ, if_neg (by decide), if_neg (by decide), if_neg (by decide),
        if_pos rfl, kwPrefix_prefix_none ['u', 'l', 'l'] pt q h2 hq]
      rfl
    | bool b =>
      cases b with
      | true =>
        rw [show serJ (Json.bool true) = 't' :: ['r', 'u', 'e'] from rfl] at h
        injection h with h1 h2
        subst h1
        rw [parseValue_succ, if_neg (by decide), if_neg (by decide), if_neg (by decide),
          if_neg (by decide), if_pos rfl, kwPrefix_prefix_none ['r', 'u', 'e'] pt q h2 hq]
        rfl
      | false =>
        rw [show serJ (Json.bool false) = 'f' :: ['a', 'l', 's', 'e'] from rfl] at h
        injection h with h1 h2
        subst h1
        rw [parseValue_succ, if_neg (by decide), if_neg (by decide), if_neg (by decide),
          if_neg (by decide), if_neg (by decide), if_pos rfl,
          kwPrefix_prefix_none ['a', 'l', 's', 'e'] pt q h2 hq]
        rfl
    | str s =>
      rw [show serJ (Json.str s) = '"' :: (escChars s.data ++ ['"']) from rfl] at h
      injection h with h1 h2
      subst h1
      rw [parseValue_succ, if_pos rfl,
        parseStringRest_prefix_none s.data pt q [] h2 hq]
    | arr xs =>
      rw [show serJ (Json.arr xs) = '[' :: (serItems xs ++ [']']) from rfl] at h
      injection h with h1 h2
      subst h1
      rw [parseValue_succ, if_neg (by decide), if_neg (by decide), if_pos rfl]
      refine (ih fp (by omega)).2.2.2.1 xs pt q h2 hq ?_
      simp only [List.length_cons] at hf
      omega
    | obj fs =>
      rw [show serJ (Json.obj fs) = '\x7b' :: (serFields fs ++ ['\x7d']) from rfl] at h
      injection h with h1 h2
      subst h1
      rw [parseValue_succ, if_neg (by decide), if_pos rfl]
      refine (ih fp (by omega)).2.1 fs pt q h2 hq ?_
      simp only [List.length_cons] at hf
      omega
  · -- parseObjBody on strict prefixes
    intro fs p q h hq hf
    cases f with
    | zero => exact rfl
    | succ fp =>
    cases p with
    | nil => exact parseObjBody_nil_none _
    | cons ph pt =>
    rw [List.cons_append] at h
    cases fs with
    | nil =>
      rw [show serFields [] ++ ['\x7d'] = ['\x7d'] from rfl] at h
      injection h with h1 h2
      obtain ⟨_, h4⟩ := List.append_eq_nil.mp h2.symm
      exact absurd h4 hq
    | cons pf fs2 =>
      rw [serFields_eq pf fs2,
        show ('"' :: membersText (pf :: fs2)) ++ ['\x7d'] =
          '"' :: (membersText (pf :: fs2) ++ ['\x7d']) from rfl] at h
      injection h with h1 h2
      subst h1
      rw [parseObjBody_succ, skipWs_nonws pt (by decide)]
      show parseMembers fp pt [] = none
      refine (ih fp (by omega)).2.2.1 (pf :: fs2) [] pt q (by simp) h2 hq ?_
      simp only [List.length_cons] at hf
      omega
  · -- parseMembers on strict prefixes
    intro fs acc p q hne h hq hf
    cases f with
    | zero => exact rfl
    | succ fp =>
    cases p with
    | nil => exact parseMembers_nil_none _ _
    | cons p1 pt =>
    cases fs with
    | nil => exact absurd rfl hne
    | cons pf fs2 =>
    obtain ⟨k, v⟩ := pf
    obtain ⟨cv, tv, hctv, hnwsv, _⟩ := serJ_head v
    have hv1 := serJ_length_pos v
    cases fs2 with
    | nil =>
      have hT : (escChars k.data ++ ['"']) ++ (':' :: (serJ v ++ ['\x7d'])) =
          (p1 :: pt) ++ q := by
        rw [← h]
        show _ = (escChars k.data ++ '"' :: ':' :: serJ v) ++ ['\x7d']
        simp
      rcases List.append_eq_append_iff.mp hT with ⟨a, hpa, hra⟩ | ⟨cq, hksp, hqc⟩
      · cases a with
        | nil =>
          rw [show (p1 :: pt : List Char) = escChars k.data ++ '"' :: ([] : List Char)
            from by simpa using hpa]
          rw [parseMembers_succ, parseStringRest_ser k.data [] []]
          dsimp only
          rfl
        | cons a1 a2 =>
          injection hra with ha1 ha2
          subst ha1
          have hla := congrArg List.length hpa
          simp only [List.length_append, List.length_cons, List.length_nil] at hla hf
          rw [show (p1 :: pt : List Char) = escChars k.data ++ '"' :: (':' :: a2) from by
            rw [hpa]; simp]
          rw [parseMembers_succ, parseStringRest_ser k.data [] (':' :: a2)]
          dsimp only
          rw [skipWs_nonws _ (by decide)]
          split
          · rename_i r2 heq
            injection heq with _ hr2
            subst hr2
            rcases List.append_eq_append_iff.mp ha2 with ⟨b, hab, hbq⟩ | ⟨c2, hvc, hqc2⟩
            · have hlb := congrArg List.length hab
              simp only [List.length_append, List.length_cons, List.length_nil] at hlb
              cases b with
              | nil =>
                rw [show a2 = serJ v from by simpa using hab]
                rw [show skipWs (serJ v) = serJ v from by
                  rw [hctv]; exact skipWs_nonws tv hnwsv]
                have hfull := (parse_ser fp).1 v [] (Or.inl (Or.inl rfl)) (by omega)
                rw [List.append_nil] at hfull
                rw [hfull]
                dsimp only
                rfl
              | cons b1 bt =>
                injection hbq with hb1 hb2
                obtain ⟨_, h4⟩ := List.append_eq_nil.mp hb2.symm
                exact absurd h4 hq
            · by_cases hc2 : c2 = []
              · subst hc2
                rw [show a2 = serJ v from by simpa using hvc.symm]
                rw [show skipWs (serJ v) = serJ v from by
                  rw [hctv]; exact skipWs_nonws tv hnwsv]
                have hlv := congrArg List.length hvc
                simp only [List.length_append, List.length_nil] at hlv
                have hfull := (parse_ser fp).1 v [] (Or.inl (Or.inl rfl)) (by omega)
                rw [List.append_nil] at hfull
                rw [hfull]
                dsimp only
                rfl
              · have hsk : skipWs a2 = a2 := by
                  cases a2 with
                  | nil => rfl
                  | cons a3 a4 =>
                    rw [hctv, List.cons_append] at hvc
                    injection hvc with h5 _
                    rw [← h5]
                    exact skipWs_nonws _ hnwsv
                rw [hsk]
                rcases valcut fp ((ih fp (by omega)).1) v a2 c2 hvc hc2 (by omega) with
                  hn | ⟨x, rr, hx, hrr⟩
                · rw [hn]
                · rw [hx]
                  dsimp only
                  cases rr with
                  | nil => rfl
                  | cons rc rt =>
                    obtain ⟨hws, hbr, hcm, _, _⟩ := hrr rc rfl
                    rw [skipWs_nonws rt hws]
                    split
                    · rename_i r4 heq2
                      injection heq2 with h6 _
                      exact absurd h6 hbr
                    · rename_i r4 heq2
                      injection heq2 with h6 _
                      exact absurd h6 hcm
                    · rfl
          · rename_i hnm
            exact absurd rfl (hnm a2)
      · by_cases hcq : cq = []
        · subst hcq
          rw [show (p1 :: pt : List Char) = escChars k.data ++ '"' :: ([] : List Char)
            from by simpa using hksp.symm]
          rw [parseMembers_succ, parseStringRest_ser k.data [] []]
          dsimp only
          rfl
        · rw [parseMembers_succ,
            parseStringRest_prefix_none k.data (p1 :: pt) cq [] hksp hcq]
    | cons pm fs3 =>
      have hT : (escChars k.data ++ ['"']) ++
          (':' :: (serJ v ++ (',' :: ('"' :: (membersText (pm :: fs3) ++ ['\x7d']))))) =
          (p1 :: pt) ++ q := by
        rw [← h]
        show _ = (escChars k.data ++ '"' :: ':' ::
          (serJ v ++ ',' :: '"' :: membersText (pm :: fs3))) ++ ['\x7d']
        simp
      rcases List.append_eq_append_iff.mp hT with ⟨a, hpa, hra⟩ | ⟨cq, hksp, hqc⟩
      · cases a with
        | nil =>
          rw [show (p1 :: pt : List Char) = escChars k.data ++ '"' :: ([] : List Char)
            from by simpa using hpa]
          rw [parseMembers_succ, parseStringRest_ser k.data [] []]
          dsimp only
          rfl
        | cons a1 a2 =>
          injection hra with ha1 ha2
          subst ha1
          have hla := congrArg List.length hpa
          simp only [List.length_append, List.length_cons, List.length_nil] at hla hf
          rw [show (p1 :: pt : List Char) = escChars k.data ++ '"' :: (':' :: a2) from by
            rw [hpa]; simp]
          rw [parseMembers_succ, parseStringRest_ser k.data [] (':' :: a2)]
          dsimp only
          rw [skipWs_nonws _ (by decide)]
          split
          · rename_i r2 heq
            injection heq with _ hr2
            subst hr2
            rcases List.append_eq_append_iff.mp ha2 with ⟨b, hab, hbq⟩ | ⟨c2, hvc, hqc2⟩
            · have hlb := congrArg List.length hab
              simp only [List.length_append, List.length_cons, List.length_nil] at hlb
              cases b with
              | nil =>
                rw [show a2 = serJ v from by simpa using hab]
                rw [show skipWs (serJ v) = serJ v from by
                  rw [hctv]; exact skipWs_nonws tv hnwsv]
                have hfull := (parse_ser fp).1 v [] (Or.inl (Or.inl rfl)) (by omega)
                rw [List.append_nil] at hfull
                rw [hfull]
                dsimp only
                rfl
              | cons b1 bt =>
                injection hbq with hb1 hb2
                subst hb1
                rw [hab]
                have hfull := (parse_ser fp).1 v (',' :: bt) (Or.inl (Or.inr rfl))
                  (by omega)
                rw [show skipWs (serJ v ++ ',' :: bt) = serJ v ++ ',' :: bt from by
                  rw [hctv, List.cons_append]
                  exact skipWs_nonws _ hnwsv]
                rw [hfull]
                dsimp only
                rw [skipWs_nonws bt (by decide)]
                split
                · rename_i r4 heq2
                  injection heq2 with h6 _
                  exact absurd h6 (by decide)
                · rename_i r4 heq2
                  injection heq2 with _ h7
                  subst h7
                  cases bt with
                  | nil => rfl
                  | cons bt1 bt2 =>
                    simp only [List.length_cons] at hlb
                    injection hb2 with hbt1 hbt2
                    subst hbt1
                    have hbt2b : membersText (pm :: fs3) ++ ['\x7d'] = bt2 ++ q := hbt2
                    rw [skipWs_nonws bt2 (by decide)]
                    split
                    · rename_i r5 heq3
                      injection heq3 with _ h8
                      subst h8
                      refine (ih fp (by omega)).2.2.1 (pm :: fs3) _ bt2 q (by simp)
                        hbt2b hq ?_
                      omega
                    · rename_i hnm
                      exact absurd rfl (hnm bt2)
                · rename_i h1 h2
                  exact absurd rfl (h2 bt)
            · by_cases hc2 : c2 = []
              · subst hc2
                rw [show a2 = serJ v from by simpa using hvc.symm]
                rw [show skipWs (serJ v) = serJ v from by
                  rw [hctv]; exact skipWs_nonws tv hnwsv]
                have hlv := congrArg List.length hvc
                simp only [List.length_append, List.length_nil] at hlv
                have hfull := (parse_ser fp).1 v [] (Or.inl (Or.inl rfl)) (by omega)
                rw [List.append_nil] at hfull
                rw [hfull]
                dsimp only
                rfl
              · have hsk : skipWs a2 = a2 := by
                  cases a2 with
                  | nil => rfl
                  | cons a3 a4 =>
                    rw [hctv, List.cons_append] at hvc
                    injection hvc with h5 _
                    rw [← h5]
                    exact skipWs_nonws _ hnwsv
                rw [hsk]
                rcases valcut fp ((ih fp (by omega)).1) v a2 c2 hvc hc2 (by omega) with
                  hn | ⟨x, rr, hx, hrr⟩
                · rw [hn]
                · rw [hx]
                  dsimp only
                  cases rr with
                  | nil => rfl
                  | cons rc rt =>
                    obtain ⟨hws, hbr, hcm, _, _⟩ := hrr rc rfl
                    rw [skipWs_nonws rt hws]
                    split
                    · rename_i r4 heq2
                      injection heq2 with h6 _
                      exact absurd h6 hbr
                    · rename_i r4 heq2
                      injection heq2 with h6 _
                      exact absurd h6 hcm
                    · rfl
          · rename_i hnm
            exact absurd rfl (hnm a2)
      · by_cases hcq : cq = []
        · subst hcq
          rw [show (p1 :: pt : List Char) = escChars k.data ++ '"' :: ([] : List Char)
            from by simpa using hksp.symm]
          rw [parseMembers_succ, parseStringRest_ser k.data [] []]
          dsimp only
          rfl
        · rw [parseMembers_succ,
            parseStringRest_prefix_none k.data (p1 :: pt) cq [] hksp hcq]
  · -- parseArrBody on strict prefixes
    intro xs p q h hq hf
    cases f with
    | zero => exact rfl
    | succ fp =>
    cases p with
    | nil => exact parseArrBody_nil_none _
    | cons p1 pt =>
    cases xs with
    | nil =>
      rw [show serItems ([] : List Json) ++ [']'] = [']'] from rfl,
        List.cons_append] at h
      injection h with h1 h2
      obtain ⟨_, h4⟩ := List.append_eq_nil.mp h2.symm
      exact absurd h4 hq
    | cons x xs2 =>
      obtain ⟨cx, tx, hctx, hnwsx, hnrb, _⟩ := serJ_head x
      have hsi : ∃ t2, serItems (x :: xs2) = cx :: t2 := by
        cases xs2 with
        | nil => exact ⟨tx, hctx⟩
        | cons y ys =>
          refine ⟨tx ++ ',' :: serItems (y :: ys), ?_⟩
          rw [serItems_cons_eq, hctx, List.cons_append]
      obtain ⟨t2, ht2⟩ := hsi
      have hp1 : p1 = cx := by
        rw [ht2, List.cons_append, List.cons_append] at h
        injection h with h1 _
        exact h1.symm
      have hnws1 : isJsonWs p1 = false := by rw [hp1]; exact hnwsx
      rw [parseArrBody_succ, skipWs_nonws pt hnws1]
      split
      · rename_i r heq
        injection heq with h6 _
        exact absurd (hp1.symm.trans h6) hnrb
      · rename_i hdef
        refine (ih fp (by omega)).2.2.2.2 (x :: xs2) [] (p1 :: pt) q (by simp) h hq ?_
        simp only [List.length_cons] at hf ⊢
        omega
  · -- parseItems on strict prefixes
    intro xs acc p q hne h hq hf
    cases f with
    | zero => exact rfl
    | succ fp =>
    cases p with
    | nil => exact parseItems_nil_none _ _
    | cons p1 pt =>
    cases xs with
    | nil => exact absurd rfl hne
    | cons x xs2 =>
    have hx1 := serJ_length_pos x
    rw [parseItems_succ]
    cases xs2 with
    | nil =>
      have hT : serJ x ++ [']'] = (p1 :: pt) ++ q := h
      rcases List.append_eq_append_iff.mp hT with ⟨b, hpb, hbq⟩ | ⟨c2, hxc, hqc⟩
      · have hlb := congrArg List.length hpb
        simp only [List.length_append, List.length_cons, List.length_nil] at hlb hf
        cases b with
        | nil =>
          rw [show (p1 :: pt : List Char) = serJ x from by simpa using hpb]
          have hfull := (parse_ser fp).1 x [] (Or.inl (Or.inl rfl)) (by omega)
          rw [List.append_nil] at hfull
          rw [hfull]
          dsimp only
          rfl
        | cons b1 bt =>
          injection hbq with hb1 hb2
          obtain ⟨_, h4⟩ := List.append_eq_nil.mp hb2.symm
          exact absurd h4 hq
      · by_cases hc2 : c2 = []
        · subst hc2
          have hlv := congrArg List.length hxc
          simp only [List.length_append, List.length_cons, List.length_nil] at hlv hf
          rw [show (p1 :: pt : List Char) = serJ x from by simpa using hxc.symm]
          have hfull := (parse_ser fp).1 x [] (Or.inl (Or.inl rfl)) (by omega)
          rw [List.append_nil] at hfull
          rw [hfull]
          dsimp only
          rfl
        · simp only [List.length_cons] at hf
          rcases valcut fp ((ih fp (by omega)).1) x (p1 :: pt) c2 hxc hc2 (by
            simp only [List.length_cons]
            omega) with hn | ⟨xx, rr, hx2, hrr⟩
          · rw [hn]
          · rw [hx2]
            dsimp only
            cases rr with
            | nil => rfl
            | cons rc rt =>
              obtain ⟨hws, _, hcm, hrb, _⟩ := hrr rc rfl
              rw [skipWs_nonws rt hws]
              split
              · rename_i r2 heq
                injection heq with h6 _
                exact absurd h6 hrb
              · rename_i r2 heq
                injection heq with h6 _
                exact absurd h6 hcm
              · rfl
    | cons y ys =>
      have hT : serJ x ++ (',' :: (serItems (y :: ys) ++ [']'])) = (p1 :: pt) ++ q := by
        rw [← h, serItems_cons_eq]
        simp
      rcases List.append_eq_append_iff.mp hT with ⟨b, hpb, hbq⟩ | ⟨c2, hxc, hqc⟩
      · have hlb := congrArg List.length hpb
        simp only [List.length_append, List.length_cons, List.length_nil] at hlb hf
        cases b with
        | nil =>
          rw [show (p1 :: pt : List Char) = serJ x from by simpa using hpb]
          have hfull := (parse_ser fp).1 x [] (Or.inl (Or.inl rfl)) (by omega)
          rw [List.append_nil] at hfull
          rw [hfull]
          dsimp only
          rfl
        | cons b1 bt =>
          injection hbq with hb1 hb2
          subst hb1
          rw [show (p1 :: pt : List Char) = serJ x ++ ',' :: bt from hpb]
          have hfull := (parse_ser fp).1 x (',' :: bt) (Or.inl (Or.inr rfl)) (by omega)
          rw [hfull]
          dsimp only
          rw [skipWs_nonws bt (by decide)]
          split
          · rename_i r2 heq
            injection heq with h6 _
            exact absurd h6 (by decide)
          · rename_i r2 heq
            injection heq with _ h7
            subst h7
            cases bt with
            | nil => exact parseItems_nil_none _ _
            | cons bt1 bt2 =>
              simp only [List.length_cons] at hlb
              have hb2b : serItems (y :: ys) ++ [']'] = (bt1 :: bt2) ++ q := hb2
              obtain ⟨cy, ty, hcty, hnwsy, _⟩ := serJ_head y
              have hsy : ∃ t2, serItems (y :: ys) = cy :: t2 := by
                cases ys with
                | nil => exact ⟨ty, hcty⟩
                | cons z zs =>
                  refine ⟨ty ++ ',' :: serItems (z :: zs), ?_⟩
                  rw [serItems_cons_eq, hcty, List.cons_append]
              obtain ⟨t2, ht2⟩ := hsy
              have hbt1 : bt1 = cy := by
                have hb2c := hb2b
                rw [ht2, List.cons_append, List.cons_append] at hb2c
                injection hb2c with h8 _
                exact h8.symm
              have hnws1 : isJsonWs bt1 = false := by rw [hbt1]; exact hnwsy
              rw [skipWs_nonws bt2 hnws1]
              refine (ih fp (by omega)).2.2.2.2 (y :: ys) (acc ++ [x]) (bt1 :: bt2) q
                (by simp) hb2b hq ?_
              simp only [List.length_cons]
              omega
          · rename_i h1 h2
            exact absurd rfl (h2 bt)
      · by_cases hc2 : c2 = []
        · subst hc2
          have hlv := congrArg List.length hxc
          simp only [List.length_append, List.length_cons, List.length_nil] at hlv hf
          rw [show (p1 :: pt : List Char) = serJ x from by simpa using hxc.symm]
          have hfull := (parse_ser fp).1 x [] (Or.inl (Or.inl rfl)) (by omega)
          rw [List.append_nil] at hfull
          rw [hfull]
          dsimp only
          rfl
        · simp only [List.length_cons] at hf
          rcases valcut fp ((ih fp (by omega)).1) x (p1 :: pt) c2 hxc hc2 (by
            simp only [List.length_cons]
            omega) with hn | ⟨xx, rr, hx2, hrr⟩
          · rw [hn]
          · rw [hx2]
            dsimp only
            cases rr with
            | nil => rfl
            | cons rc rt =>
              obtain ⟨hws, _, hcm, hrb, _⟩ := hrr rc rfl
              rw [skipWs_nonws rt hws]
              split
              · rename_i r2 heq
                injection heq with h6 _
                exact absurd h6 hrb
              · rename_i r2 heq
                injection heq with h6 _
                exact absurd h6 hcm
              · rfl

/-! ## Stage 6: well-formed objects and their deltas -/

/-- Text payload of an event (empty for anything but a TextDelta). -/
def deltaOf : StreamEvent → String
  | .textDelta s => s
  | _ => ""

theorem goodObj_obj {o : Json} (h : goodObj o = true) : ∃ fs, o = .obj fs := by
  cases o with
  | obj fs => exact ⟨fs, rfl⟩
  | null => exact absurd h (by decide)
  | bool b => exact absurd h (by simp [goodObj])
  | num m e => exact absurd h (by simp [goodObj])
  | str s => exact absurd h (by simp [goodObj])
  | arr xs => exact absurd h (by simp [goodObj])

/-- On a well-formed object the interpreter never raises, and its text
delta is exactly the first-part text of the object. -/
theorem goodObj_interp (o : Json) (h : goodObj o = true) :
    interpretObj o ≠ .logicError ∧ deltaOf (interpretObj o) = firstPartText o := by
  obtain ⟨fs, rfl⟩ := goodObj_obj h
  rw [goodObj] at h
  rw [interpretObj, firstPartText]
  cases hpe : pyGet fs "error" with
  | some ev =>
    rw [hpe] at h
    cases ev with
    | obj ef =>
      dsimp only
      rw [if_pos (show hasKey fs "error" = true from by simp [hasKey, hpe])]
      exact ⟨fun heq => StreamEvent.noConfusion heq, rfl⟩
    | null => simp at h
    | bool b => simp at h
    | num m e => simp at h
    | str s => simp at h
    | arr xs => simp at h
  | none =>
    rw [hpe] at h
    rw [if_neg (show ¬ hasKey fs "error" = true from by simp [hasKey, hpe])]
    dsimp only at h ⊢
    cases hpc : pyGet fs "candidates" with
    | none =>
      rw [hpc] at h
      simp only [Option.getD_none] at h ⊢
      exact ⟨fun heq => StreamEvent.noConfusion heq, rfl⟩
    | some cv =>
      rw [hpc] at h
      simp only [Option.getD_some] at h ⊢
      by_cases htc : truthy cv = true
      · rw [if_neg (show ¬ (¬ truthy cv = true) from by simp [htc])] at h ⊢
        cases cv with
        | arr elems =>
          cases elems with
          | nil => exact absurd htc (by decide)
          | cons c0 crest =>
            cases c0 with
            | obj cf =>
              dsimp only at h ⊢
              cases hpc2 : pyGet cf "content" with
              | none =>
                rw [hpc2] at h
                simp only [Option.getD_none] at h ⊢
                exact ⟨fun heq => StreamEvent.noConfusion heq, rfl⟩
              | some ct =>
                rw [hpc2] at h
                simp only [Option.getD_some] at h ⊢
                by_cases htc2 : truthy ct = true
                · rw [if_neg (show ¬ (¬ truthy ct = true) from by simp [htc2])] at h ⊢
                  cases ct with
                  | obj ctf =>
                    dsimp only at h ⊢
                    by_cases hhk : hasKey ctf "parts" = true
                    · rw [if_pos hhk] at h ⊢
                      cases hpp : pyGet ctf "parts" with
                      | none => exact absurd hhk (by simp [hasKey, hpp])
                      | some pv =>
                        rw [hpp] at h
                        cases pv with
                        | arr pelems =>
                          cases pelems with
                          | nil => simp at h
                          | cons p0 prest =>
                            cases p0 with
                            | obj pf =>
                              dsimp only at h ⊢
                              cases hpt : pyGet pf "text" with
                              | none =>
                                rw [hpt] at h
                                simp only [Option.getD_none] at h ⊢
                                exact ⟨fun heq => StreamEvent.noConfusion heq, rfl⟩
                              | some tv =>
                                rw [hpt] at h
                                simp only [Option.getD_some] at h ⊢
                                cases tv with
                                | str s =>
                                  by_cases hs : s = ""
                                  · subst hs
                                    exact ⟨fun heq => StreamEvent.noConfusion heq, rfl⟩
                                  · rw [if_pos (show truthy (Json.str s) = true from by
                                      simp [truthy]
                                      exact hs)]
                                    exact ⟨fun heq => StreamEvent.noConfusion heq, rfl⟩
                                | null => simp at h
                                | bool b => simp at h
                                | num m e => simp at h
                                | arr xs2 => simp at h
                                | obj fs2 => simp at h
                            | null => simp at h
                            | bool b => simp at h
                            | num m e => simp at h
                            | str s => simp at h
                            | arr xs2 => simp at h
                        | null => simp at h
                        | bool b => simp at h
                        | num m e => simp at h
                        | str s => simp at h
                        | obj fs2 => simp at h
                    · rw [if_neg hhk] at h ⊢
                      have hppn : pyGet ctf "parts" = none := by
                        cases hpp : pyGet ctf "parts" with
                        | none => rfl
                        | some pv => exact absurd (by simp [hasKey, hpp]) hhk
                      rw [hppn]
                      exact ⟨fun heq => StreamEvent.noConfusion heq, rfl⟩
                  | null => exact absurd htc2 (by decide)
                  | bool b =>
                    dsimp only at h ⊢
                    cases hcont : pyContains "parts" (Json.bool b) with
                    | none => rw [hcont] at h; simp at h
                    | some bv =>
                      rw [hcont] at h
                      cases bv with
                      | false => exact ⟨fun heq => StreamEvent.noConfusion heq, rfl⟩
                      | true => simp at h
                  | num m e =>
                    dsimp only at h ⊢
                    cases hcont : pyContains "parts" (Json.num m e) with
                    | none => rw [hcont] at h; simp at h
                    | some bv =>
                      rw [hcont] at h
                      cases bv with
                      | false => exact ⟨fun heq => StreamEvent.noConfusion heq, rfl⟩
                      | true => simp at h
                  | str s =>
                    dsimp only at h ⊢
                    cases hcont : pyContains "parts" (Json.str s) with
                    | none => rw [hcont] at h; simp at h
                    | some bv =>
                      rw [hcont] at h
                      cases bv with
                      | false => exact ⟨fun heq => StreamEvent.noConfusion heq, rfl⟩
                      | true => simp at h
                  | arr xs2 =>
                    dsimp only at h ⊢
                    cases hcont : pyContains "parts" (Json.arr xs2) with
                    | none => rw [hcont] at h; simp at h
                    | some bv =>
                      rw [hcont] at h
                      cases bv with
                      | false => exact ⟨fun heq => StreamEvent.noConfusion heq, rfl⟩
                      | true => simp at h
                · rw [if_pos (show ¬ truthy ct = true from htc2)]
                  refine ⟨fun heq => StreamEvent.noConfusion heq, ?_⟩
                  cases ct with
                  | obj ctf =>
                    have hctf : ctf = [] := by
                      by_cases hc : ctf = []
                      · exact hc
                      · exact absurd (by simp [truthy, List.isEmpty_iff, hc]) htc2
                    subst hctf
                    rfl
                  | null => rfl
                  | bool b => rfl
                  | num m e => rfl
                  | str s => rfl
                  | arr xs2 => rfl
            | null => simp at h
            | bool b => simp at h
            | num m e => simp at h
            | str s => simp at h
            | arr xs2 => simp at h
        | null => exact absurd htc (by decide)
        | bool b => simp [htc] at h
        | num m e => simp [htc] at h
        | str s => simp [htc] at h
        | obj fs2 => simp [htc] at h
      · rw [if_pos (show ¬ truthy cv = true from htc)]
        refine ⟨fun heq => StreamEvent.noConfusion heq, ?_⟩
        cases cv with
        | arr elems =>
          cases elems with
          | nil => rfl
          | cons c0 crest => exact absurd (by simp [truthy]) htc
        | null => rfl
        | bool b => rfl
        | num m e => rfl
        | str s => rfl
        | obj fs2 => rfl

/-! ## Stage 7: the drain invariant and chunk independence -/

theorem empty_append_str (s : String) : "" ++ s = s := rfl

theorem deltaConcat_cons (ev : StreamEvent) (evs : List StreamEvent) :
    deltaConcat (ev :: evs) = deltaOf ev ++ deltaConcat evs := by
  cases ev with
  | textDelta s =>
    show String.join (s :: _) = _
    rw [join_cons]
    rfl
  | upstreamError m => exact (empty_append_str _).symm
  | logicError => exact (empty_append_str _).symm
  | noOp => exact (empty_append_str _).symm

theorem deltaConcat_map_interp (objs : List Json)
    (hg : ∀ o ∈ objs, goodObj o = true) :
    deltaConcat (objs.map interpretObj) = String.join (objs.map firstPartText) := by
  induction objs with
  | nil => rfl
  | cons o os ih =>
    rw [List.map_cons, deltaConcat_cons, (goodObj_interp o (hg o (List.mem_cons_self o os))).2,
      ih (fun o2 ho2 => hg o2 (List.mem_cons_of_mem o ho2)), List.map_cons, join_cons]

theorem midSep_ne_nil (os : List Json) : midSep os ≠ [] := by
  cases os with
  | nil => simp [midSep]
  | cons o os2 => simp [midSep]

theorem midStream_ne_nil (os : List Json) : midStream os ≠ [] := by
  cases os with
  | nil => simp [midStream]
  | cons o os2 =>
    show serJ o ++ midSep os2 ≠ []
    obtain ⟨c, t, hct, _⟩ := serJ_head o
    rw [hct]
    simp

/-- Buffer alignment before running the loop: the buffer plus the unread
future text sits at an admissible position of the canonical stream. -/
def AlignIn (b t : List Char) (os : List Json) : Prop :=
  b ++ t = '[' :: midStream os ∨ b ++ t = midStream os ∨ b ++ t = midSep os ∨
    (b = [] ∧ t = [] ∧ os = [])

/-- Alignment after the loop has drained the buffer. -/
def AlignOut (b t : List Char) (os : List Json) : Prop :=
  (b = [] ∧ t = '[' :: midStream os) ∨ (b ++ t = midStream os ∧ t ≠ []) ∨
    (b ++ t = midSep os ∧ t ≠ []) ∨ (b = [] ∧ t = [] ∧ os = [])

theorem alignOut_feed {b c t : List Char} {os : List Json}
    (h : AlignOut b (c ++ t) os) : AlignIn (b ++ c) t os := by
  rcases h with ⟨hb, ht⟩ | ⟨hm, _⟩ | ⟨hm, _⟩ | ⟨hb, ht, hos⟩
  · subst hb
    exact Or.inl (by simpa using ht)
  · exact Or.inr (Or.inl (by rw [List.append_assoc]; exact hm))
  · exact Or.inr (Or.inr (Or.inl (by rw [List.append_assoc]; exact hm)))
  · subst hb
    obtain ⟨hc, ht2⟩ := List.append_eq_nil.mp ht
    exact Or.inr (Or.inr (Or.inr ⟨by simp [hc], ht2, hos⟩))

/-- Draining an aligned buffer: the loop emits exactly the events of the
objects whose text is fully contained in the buffer, and leaves an
aligned remainder for the next feed. -/
theorem drainAux : ∀ n b t os, b.length ≤ n → (∀ o ∈ os, goodObj o = true) →
    AlignIn b t os →
    ∃ osd osr b2, os = osd ++ osr ∧
      innerLoop b = (osd.map interpretObj, b2) ∧ AlignOut b2 t osr := by
  intro n
  induction n using Nat.strong_induction_on with
  | _ n ih =>
  intro b t os hbn hg halign
  by_cases hb : b = []
  · subst hb
    refine ⟨[], os, [], rfl, innerLoop_empty rfl, ?_⟩
    rcases halign with h | h | h | h
    · exact Or.inl ⟨rfl, by simpa using h⟩
    · exact Or.inr (Or.inl ⟨by simpa using h,
        fun ht => midStream_ne_nil os (by rw [← h, ht]; rfl)⟩)
    · exact Or.inr (Or.inr (Or.inl ⟨by simpa using h,
        fun ht => midSep_ne_nil os (by rw [← h, ht]; rfl)⟩))
    · exact Or.inr (Or.inr (Or.inr h))
  · rcases halign with h | h | h | h
    · -- at the opening bracket
      cases b with
      | nil => exact absurd rfl hb
      | cons b1 bt =>
      rw [List.cons_append] at h
      injection h with h1 h2
      subst h1
      obtain ⟨osd, osr, b2, hsplit, hloop, hout⟩ :=
        ih bt.length (by simp at hbn; omega) bt t os le_rfl hg (Or.inr (Or.inl h2))
      exact ⟨osd, osr, b2, hsplit, by
        rw [innerLoop_punct bt (by decide) (by decide)]
        exact hloop, hout⟩
    · -- at the start of the next object
      cases os with
      | nil =>
        cases b with
        | nil => exact absurd rfl hb
        | cons b1 bt =>
        rw [List.cons_append] at h
        injection h with h1 h2
        subst h1
        obtain ⟨hbt, ht⟩ := List.append_eq_nil.mp h2
        subst hbt
        refine ⟨[], [], [], rfl, ?_, Or.inr (Or.inr (Or.inr ⟨rfl, ht, rfl⟩))⟩
        rw [innerLoop_punct [] (by decide) (by decide)]
        exact innerLoop_empty rfl
      | cons o os2 =>
        have hgo := hg o (List.mem_cons_self o os2)
        obtain ⟨ofs, rfl⟩ := goodObj_obj hgo
        have hg2 : ∀ o2 ∈ os2, goodObj o2 = true :=
          fun o2 ho2 => hg o2 (List.mem_cons_of_mem _ ho2)
        have hser : serJ (Json.obj ofs) = '\x7b' :: (serFields ofs ++ ['\x7d']) := rfl
        have hmid : midStream (Json.obj ofs :: os2) =
            serJ (Json.obj ofs) ++ midSep os2 := rfl
        rw [hmid] at h
        rcases List.append_eq_append_iff.mp h with ⟨a2, hsa, hta⟩ | ⟨c2, hbc, hmc⟩
        · by_cases ha2 : a2 = []
          · -- the buffer holds exactly the object text
            subst ha2
            have hbs : b = serJ (Json.obj ofs) := by simpa using hsa.symm
            refine ⟨[Json.obj ofs], os2, [], rfl, ?_, ?_⟩
            · rw [hbs, hser]
              rw [innerLoop_decode _ (by decide) (by decide), ← hser]
              rw [show rawDecode (serJ (Json.obj ofs)) = some (Json.obj ofs, []) from by
                have := rawDecode_ser (Json.obj ofs) [] (Or.inr rfl)
                rwa [List.append_nil] at this]
              dsimp only
              rw [if_neg (goodObj_interp _ hgo).1]
              rw [show innerLoop [] = (([] : List StreamEvent), ([] : List Char))
                from innerLoop_empty rfl]
              rfl
            · exact Or.inr (Or.inr (Or.inl ⟨by simpa using hta,
                fun ht => midSep_ne_nil os2 (by rw [ht] at hta; simpa using hta.symm)⟩))
          · -- the buffer holds a strict prefix of the object text
            have hbne : b ≠ [] := hb
            obtain ⟨b1, bt, rfl⟩ : ∃ b1 bt, b = b1 :: bt := by
              cases b with
              | nil => exact absurd rfl hb
              | cons b1 bt => exact ⟨b1, bt, rfl⟩
            have hb1 : b1 = '\x7b' := by
              rw [hser, List.cons_append] at hsa
              injection hsa with h1 _
              exact h1.symm
            subst hb1
            refine ⟨[], Json.obj ofs :: os2, '\x7b' :: bt, rfl, ?_, ?_⟩
            · rw [innerLoop_decode bt (by decide) (by decide)]
              rw [show rawDecode ('\x7b' :: bt) = none from
                (parse_prefix_none _).1 (Json.obj ofs) ('\x7b' :: bt) a2 rfl hsa
                  (by simp) ha2 (by omega)]
              rfl
            · exact Or.inr (Or.inl ⟨by rw [hmid]; exact h, fun ht => by
                rw [ht] at hta
                exact midSep_ne_nil os2 (List.append_eq_nil.mp hta.symm).2⟩)
        · -- the buffer covers the object and continues
          have hlb : (serJ (Json.obj ofs)).length + c2.length = b.length := by
            rw [hbc]
            simp
          have hso := serJ_length_pos (Json.obj ofs)
          obtain ⟨osd2, osr2, b2, hsplit2, hloop2, hout2⟩ :=
            ih c2.length (by omega) c2 t os2 le_rfl hg2
              (Or.inr (Or.inr (Or.inl hmc.symm)))
          refine ⟨Json.obj ofs :: osd2, osr2, b2, by rw [hsplit2]; rfl, ?_, hout2⟩
          rw [hbc, hser, List.cons_append,
            innerLoop_decode _ (by decide) (by decide),
            ← List.cons_append, ← hser,
            rawDecode_ser (Json.obj ofs) c2 (Or.inr rfl)]
          dsimp only
          rw [if_neg (goodObj_interp _ hgo).1]
          rw [hloop2]
          rfl
    · -- at a separator
      cases os with
      | nil =>
        cases b with
        | nil => exact absurd rfl hb
        | cons b1 bt =>
        rw [List.cons_append] at h
        injection h with h1 h2
        subst h1
        obtain ⟨hbt, ht⟩ := List.append_eq_nil.mp h2
        subst hbt
        refine ⟨[], [], [], rfl, ?_, Or.inr (Or.inr (Or.inr ⟨rfl, ht, rfl⟩))⟩
        rw [innerLoop_punct [] (by decide) (by decide)]
        exact innerLoop_empty rfl
      | cons o os2 =>
        cases b with
        | nil => exact absurd rfl hb
        | cons b1 bt =>
        rw [List.cons_append] at h
        rw [show midSep (o :: os2) = ',' :: (serJ o ++ midSep os2) from rfl] at h
        injection h with h1 h2
        subst h1
        obtain ⟨osd, osr, b2, hsplit, hloop, hout⟩ :=
          ih bt.length (by simp at hbn; omega) bt t (o :: os2) le_rfl hg
            (Or.inr (Or.inl h2))
        exact ⟨osd, osr, b2, hsplit, by
          rw [innerLoop_punct bt (by decide) (by decide)]
          exact hloop, hout⟩
    · exact absurd h.1 hb

/-- Feeding any chunk sequence from an aligned state: all events of the
fully transmitted objects are emitted, and the final state is aligned. -/
theorem feedInv : ∀ (chunks : List (List Char)) (b : List Char) (os : List Json),
    (∀ o ∈ os, goodObj o = true) → AlignOut b chunks.join os →
    ∃ osd osr bf, os = osd ++ osr ∧
      feedSteps b chunks = (osd.map interpretObj, bf) ∧ AlignOut bf [] osr := by
  intro chunks
  induction chunks with
  | nil =>
    intro b os hg h
    exact ⟨[], os, b, rfl, rfl, by simpa using h⟩
  | cons c rest ihc =>
    intro b os hg h
    by_cases hc : c.isEmpty
    · have hcn : c = [] := by simpa [List.isEmpty_iff] using hc
      subst hcn
      obtain ⟨osd, osr, bf, h1, h2, h3⟩ := ihc b os hg (by simpa using h)
      refine ⟨osd, osr, bf, h1, ?_, h3⟩
      show ((feedChunk b []).1 ++ (feedSteps (feedChunk b []).2 rest).1,
        (feedSteps (feedChunk b []).2 rest).2) = _
      rw [show feedChunk b [] = (([] : List StreamEvent), b) from rfl]
      rw [h2]
      simp
    · have halignin : AlignIn (b ++ c) rest.join os := alignOut_feed (by simpa using h)
      obtain ⟨osd1, osr1, b2, hsplit1, hloop1, hout1⟩ :=
        drainAux (b ++ c).length (b ++ c) rest.join os le_rfl hg halignin
      have hg1 : ∀ o ∈ osr1, goodObj o = true := fun o ho =>
        hg o (by rw [hsplit1]; exact List.mem_append_right osd1 ho)
      obtain ⟨osd2, osr2, bf, hsplit2, hloop2, hout2⟩ := ihc b2 osr1 hg1 hout1
      refine ⟨osd1 ++ osd2, osr2, bf, by rw [hsplit1, hsplit2, List.append_assoc], ?_, hout2⟩
      show ((feedChunk b c).1 ++ (feedSteps (feedChunk b c).2 rest).1,
        (feedSteps (feedChunk b c).2 rest).2) = _
      rw [show feedChunk b c = innerLoop (b ++ c) from by unfold feedChunk; rw [if_neg hc]]
      rw [hloop1]
      dsimp only
      rw [hloop2]
      rw [List.map_append]

/-- C1 (amended): for a stream of well-formed upstream objects, every
partition of the canonical decoded text into chunks yields TextDeltas
whose concatenation equals the concatenation of each object's first-part
text (candidates[0].content.parts[0].text), independent of the
partition. -/
theorem C1_stream_reassembly (objs : List Json) (chunks : List (List Char))
    (hg : ∀ o ∈ objs, goodObj o = true)
    (hc : chunks.join = streamSer objs) :
    deltaConcat (runStreamStr chunks) = String.join (objs.map firstPartText) := by
  have h0 : AlignOut [] chunks.join objs := Or.inl ⟨rfl, by rw [hc]; rfl⟩
  obtain ⟨osd, osr, bf, hsplit, hrun, hout⟩ := feedInv chunks [] objs hg h0
  have hosr : osr = [] := by
    rcases hout with ⟨_, ht⟩ | ⟨_, ht⟩ | ⟨_, ht⟩ | ⟨_, _, h3⟩
    · exact absurd ht (by simp)
    · exact absurd rfl ht
    · exact absurd rfl ht
    · exact h3
  subst hosr
  rw [List.append_nil] at hsplit
  subst hsplit
  unfold runStreamStr
  rw [hrun]
  exact deltaConcat_map_interp objs hg

/-- The text a stream object contributes according to the claim: the
concatenation of every part's text field of the first candidate (this
follows the claim's wording parts[*], not the code). -/
def specAllPartsText : Json → String
  | .obj fs =>
    match pyGet fs "candidates" with
    | some (.arr (.obj cf :: _)) =>
      match pyGet cf "content" with
      | some (.obj ctf) =>
        match pyGet ctf "parts" with
        | some (.arr parts) =>
          String.join (parts.map (fun p =>
            match p with
            | .obj pf =>
              match pyGet pf "text" with
              | some (.str s) => s
              | _ => ""
            | _ => ""))
        | _ => ""
      | _ => ""
    | _ => ""
  | _ => ""

/-- A well-formed response whose first candidate has two parts. -/
def objMulti : Json :=
  .obj [("candidates", .arr [.obj [("content", .obj [("parts", .arr
    [.obj [("text", .str "a")], .obj [("text", .str "b")]])])]])]

/-- A well-formed response whose text holds a two-byte UTF-8 character. -/
def objE : Json :=
  .obj [("candidates", .arr [.obj [("content", .obj [("parts", .arr
    [.obj [("text", .str "héllo")]])])]])]

/-- C1 (counterexample): the code reads only parts[0].text, so a
two-part object contributes "a" and not the claimed parts[*]
concatenation "ab"; and at the byte level the output is not independent
of the partition: splitting the transport inside the two-byte UTF-8
character é changes the emitted text, because each chunk is decoded
separately with errors replace. -/
theorem C1_counterexample :
    deltaConcat (runStreamStr [streamSer [objMulti]]) = "a" ∧
    specAllPartsText objMulti = "ab" ∧
    ("a" : String) ≠ "ab" ∧
    (utf8Enc (streamSer [objE])).take 48 ++ (utf8Enc (streamSer [objE])).drop 48 =
      utf8Enc (streamSer [objE]) ∧
    deltaConcat (runStreamBytes [utf8Enc (streamSer [objE])]) = "héllo" ∧
    deltaConcat (runStreamBytes [(utf8Enc (streamSer [objE])).take 48,
      (utf8Enc (streamSer [objE])).drop 48]) = "h��llo" ∧
    ("h��llo" : String) ≠ "héllo" :=
  ⟨rfl, rfl, by decide, by simp, rfl, rfl, by decide⟩

theorem C1_stream_reassembly_witness :
    (∀ o ∈ [objMulti], goodObj o = true) ∧
    deltaConcat (runStreamStr
      [(streamSer [objMulti]).take 10, (streamSer [objMulti]).drop 10]) =
      String.join ([objMulti].map firstPartText) :=
  ⟨by intro o ho; rw [List.mem_singleton] at ho; subst ho; rfl,
   C1_stream_reassembly [objMulti]
    [(streamSer [objMulti]).take 10, (streamSer [objMulti]).drop 10]
    (by intro o ho; rw [List.mem_singleton] at ho; subst ho; rfl) (by simp)⟩
